import Mathlib

/-!
# A lock-based skiplist priority queue (`prioq_simple.c`)

A shallow embedding of the single-threaded behaviour of the queue of
`src/prioq_simple.c`, and proofs about it.

* Memory is a list of nodes; a pointer is an index into it (a `Nat`), `none` is `NULL`.
  `malloc` appends a cell and never fails; cells are never reused.
* `key_t` (a C `double`) is modelled by `Int` (the driver only uses integer keys).
* The level sample that `sq_add` draws from the random number generator is an
  argument (`topLevel`).
* Loops that the C code does not bound (`while (1)`, `goto restart`, the
  search walk, the wait loops) take a fuel argument and give `Res.spin` when it
  runs out.
* A failed `assert` gives `Res.abort`; a `NULL` dereference, an access outside
  an allocated array, locking a spinlock that is held and unlocking one that
  is free give `Res.fault`.
-/

namespace Prioq

/-- The outcome of running a piece of the program. -/
inductive Res (α : Type) where
  | ok : α → Res α
  | spin : Res α
  | abort : Res α
  | fault : Res α
  deriving Repr, DecidableEq

/-- Sequencing of outcomes. -/
def Res.bind {α β : Type} (x : Res α) (f : α → Res β) : Res β :=
  match x with
  | .ok a => f a
  | .spin => .spin
  | .abort => .abort
  | .fault => .fault

instance : Monad Res where
  pure := Res.ok
  bind := Res.bind

/-- The struct `sq_node_t`; `nexts` has `topLevel + 1` slots. -/
structure sq_node_t where
  key : Int
  val : Int
  topLevel : Nat
  marked : Nat
  fullyLinked : Int
  lock : Bool
  nexts : List (Option Nat)
  deriving Repr, DecidableEq

/-- The struct `sq_ti_t`: the scratch arrays of one thread. -/
structure sq_ti_t where
  preds : List (Option Nat)
  succs : List (Option Nat)
  deriving Repr, DecidableEq

/-- One record of the hazard pointer registry: the peek slot and the held slots. -/
structure hp_rec_t where
  peek : Option Nat
  node : List (Option Nat)
  deriving Repr, DecidableEq

/-- The hazard pointer registry `q->hp`: one record per thread, and the retired nodes. -/
structure hp_rec_list_t where
  recs : List hp_rec_t
  retired : List Nat
  deriving Repr, DecidableEq

/-- The struct `sq_t`, together with the memory its pointers refer to. -/
structure sq_t where
  maxLevel : Nat
  nthreads : Nat
  head : Nat
  tail : Nat
  thread_ws : List sq_ti_t
  hp : hp_rec_list_t
  mem : List sq_node_t
  deriving Repr, DecidableEq

/-- The value `NULL_VAL`. -/
def NULL_VAL : Int := 0

/-! ## Memory access -/

/-- The slot `p->nexts[l]`: the outer `none` is an access outside memory or outside the tower. -/
def nxt (m : List sq_node_t) (p : Nat) (l : Nat) : Option (Option Nat) :=
  match m[p]? with
  | some n => n.nexts[l]?
  | none => none

/-- Dereference a node pointer. -/
def node_at (s : sq_t) (p : Option Nat) : Res sq_node_t :=
  match p with
  | none => .fault
  | some a =>
    match s.mem[a]? with
    | some n => .ok n
    | none => .fault

/-- Read `p->nexts[l]`. -/
def rd_next (s : sq_t) (p : Nat) (l : Nat) : Res (Option Nat) :=
  match nxt s.mem p l with
  | some v => .ok v
  | none => .fault

/-- Overwrite the node at `p`. -/
def put_node (s : sq_t) (p : Nat) (n : sq_node_t) : sq_t :=
  { s with mem := s.mem.set p n }

/-- Write `p->nexts[l] = v`. -/
def set_next (s : sq_t) (p : Nat) (l : Nat) (v : Option Nat) : Res sq_t :=
  match s.mem[p]? with
  | some n =>
    if l < n.nexts.length then .ok (put_node s p { n with nexts := n.nexts.set l v })
    else .fault
  | none => .fault

/-- Write `p->marked = v`. -/
def set_marked (s : sq_t) (p : Nat) (v : Nat) : Res sq_t :=
  match s.mem[p]? with
  | some n => .ok (put_node s p { n with marked := v })
  | none => .fault

/-- Write `p->fullyLinked = v`. -/
def set_fullyLinked (s : sq_t) (p : Nat) (v : Int) : Res sq_t :=
  match s.mem[p]? with
  | some n => .ok (put_node s p { n with fullyLinked := v })
  | none => .fault

/-- The call `lock(&p->lock)`. -/
def lock (s : sq_t) (p : Nat) : Res sq_t :=
  match s.mem[p]? with
  | some n => if n.lock then .fault else .ok (put_node s p { n with lock := true })
  | none => .fault

/-- The call `unlock(&p->lock)`. -/
def unlock (s : sq_t) (p : Option Nat) : Res sq_t :=
  match p with
  | none => .fault
  | some a =>
    match s.mem[a]? with
    | some n => if n.lock then .ok (put_node s a { n with lock := false }) else .fault
    | none => .fault

/-- Read `q->thread_ws[tid].preds[i]`. -/
def get_pred (s : sq_t) (tid i : Nat) : Res (Option Nat) :=
  match s.thread_ws[tid]? with
  | some w =>
    match w.preds[i]? with
    | some v => .ok v
    | none => .fault
  | none => .fault

/-- Read `q->thread_ws[tid].succs[i]`. -/
def get_succ (s : sq_t) (tid i : Nat) : Res (Option Nat) :=
  match s.thread_ws[tid]? with
  | some w =>
    match w.succs[i]? with
    | some v => .ok v
    | none => .fault
  | none => .fault

/-- Write `q->thread_ws[tid].preds[i] = v`. -/
def set_pred (s : sq_t) (tid i : Nat) (v : Option Nat) : Res sq_t :=
  match s.thread_ws[tid]? with
  | some w =>
    if i < w.preds.length then
      .ok { s with thread_ws := s.thread_ws.set tid { w with preds := w.preds.set i v } }
    else .fault
  | none => .fault

/-- Write `q->thread_ws[tid].succs[i] = v`. -/
def set_succ (s : sq_t) (tid i : Nat) (v : Option Nat) : Res sq_t :=
  match s.thread_ws[tid]? with
  | some w =>
    if i < w.succs.length then
      .ok { s with thread_ws := s.thread_ws.set tid { w with succs := w.succs.set i v } }
    else .fault
  | none => .fault

/-- Write `q->hp->recs[tid].peek = v`. -/
def set_peek (s : sq_t) (tid : Nat) (v : Option Nat) : Res sq_t :=
  match s.hp.recs[tid]? with
  | some r => .ok { s with hp := { s.hp with recs := s.hp.recs.set tid { r with peek := v } } }
  | none => .fault

/-- Read `q->hp->recs[tid].peek`. -/
def get_peek (s : sq_t) (tid : Nat) : Res (Option Nat) :=
  match s.hp.recs[tid]? with
  | some r => .ok r.peek
  | none => .fault

/-- Write `q->hp->recs[tid].node[level] = v`. -/
def set_held (s : sq_t) (tid level : Nat) (v : Option Nat) : Res sq_t :=
  match s.hp.recs[tid]? with
  | some r =>
    if level < r.node.length then
      .ok { s with hp := { s.hp with recs := s.hp.recs.set tid { r with node := r.node.set level v } } }
    else .fault
  | none => .fault

/-! ## Hazard pointer helpers -/

/-- The function `pptr`, called on the cell `&p->nexts[level]`: announce the
pointer read from the cell in the peek slot, read the cell again, and give
`NULL` when the two reads differ. -/
def pptr (s : sq_t) (p : Nat) (level : Nat) (tid : Nat) : Res (Option Nat × sq_t) := do
  let tmp ← rd_next s p level
  let s1 ← set_peek s tid tmp
  let pk ← get_peek s1 tid
  let again ← rd_next s1 p level
  if pk ≠ again then .ok (none, s1) else .ok (tmp, s1)

/-- The function `lptr`, called on the local `curr`: promote the pointer to the held slot of the level. -/
def lptr (s : sq_t) (curr : Option Nat) (level : Nat) (tid : Nat) : Res (Option Nat × sq_t) := do
  let s1 ← set_held s tid level curr
  .ok (curr, s1)

/-- Modelled from the spec: `retire_node` of `hp.h`, which is not among the
sources: the node is appended to the retired list. The scan that destroys
retired nodes is not modelled. -/
def retire_node (s : sq_t) (p : Nat) : sq_t :=
  { s with hp := { s.hp with retired := s.hp.retired ++ [p] } }

/-- Modelled from the spec: `asm_xchg` of `j_util.h`, which is not among the
sources: the atomic swap stores the new value of `marked` and gives the old one. -/
def asm_xchg_marked (s : sq_t) (p : Nat) (v : Nat) : Res (Nat × sq_t) :=
  match s.mem[p]? with
  | some n => .ok (n.marked, put_node s p { n with marked := v })
  | none => .fault

/-! ## Nodes -/

/-- The loop of `unlock_preds`, for `i` up to `highestLocked`; `n` counts the iterations left. -/
def unlock_preds_loop : Nat → sq_t → Nat → Nat → Option Nat → Res sq_t
  | 0, s, _, _, _ => .ok s
  | n + 1, s, tid, i, prev => do
    let p ← get_pred s tid i
    let s1 ← if p ≠ prev then unlock s p else .ok s
    unlock_preds_loop n s1 tid (i + 1) p

/-- The function `unlock_preds`, on the `preds` array of thread `tid`. -/
def unlock_preds (s : sq_t) (tid : Nat) (highestLocked : Int) : Res sq_t :=
  unlock_preds_loop (highestLocked + 1).toNat s tid 0 none

/-- The function `create_node`, without the allocation: the fields of the new node.
The tower has `topLevel + 1` slots, which `malloc` leaves unset (`NULL` here). -/
def create_node (topLevel : Nat) (key val : Int) : sq_node_t :=
  { key := key, val := val, topLevel := topLevel, marked := 0, fullyLinked := 0,
    lock := false, nexts := List.replicate (topLevel + 1) none }

/-- Allocate a node: its address is the first unused index. -/
def alloc (s : sq_t) (n : sq_node_t) : Nat × sq_t :=
  (s.mem.length, { s with mem := s.mem ++ [n] })

/-! ## Search -/

/-- The inner `while (key >= curr->key)` loop of `sq_search` at one level.
The result `none` stands for `goto restart`. -/
def search_while : Nat → sq_t → Int → Nat → Nat → Nat → Nat → Res (Option (Nat × Nat) × sq_t)
  | 0, _, _, _, _, _, _ => .spin
  | fuel + 1, s, key, level, tid, pred, curr => do
    let c ← node_at s (some curr)
    if key ≥ c.key then
      let (pr, s1) ← lptr s (some curr) level tid
      match pr with
      | none => .fault
      | some pred1 =>
        let (r, s2) ← pptr s1 pred1 level tid
        match r with
        | none => .ok (none, s2)
        | some curr1 => search_while fuel s2 key level tid pred1 curr1
    else .ok (some (pred, curr), s)

/-- The `for (level = q->maxLevel - 1; level >= 0; level--)` loop of `sq_search`;
the first argument is `level + 1`. The result `none` stands for `goto restart`. -/
def search_levels (fuel : Nat) : Nat → sq_t → Int → Nat → Nat → Int → Res (Option Int × sq_t)
  | 0, s, _, _, _, lFound => .ok (some lFound, s)
  | level + 1, s, key, tid, pred, lFound => do
    let (r, s1) ← pptr s pred level tid
    match r with
    | none => .ok (none, s1)
    | some curr =>
      let (r2, s2) ← search_while fuel s1 key level tid pred curr
      match r2 with
      | none => .ok (none, s2)
      | some (pred1, curr1) =>
        let c ← node_at s2 (some curr1)
        let lFound1 : Int := if key = c.key ∧ lFound = -1 then (level : Int) else lFound
        let s3 ← set_pred s2 tid level (some pred1)
        let s4 ← set_succ s3 tid level (some curr1)
        search_levels fuel level s4 key tid pred1 lFound1

/-- The function `sq_search`; it fills `preds` and `succs` of thread `tid` and gives `lFound`. -/
def sq_search : Nat → sq_t → Int → Nat → Res (Int × sq_t)
  | 0, _, _, _ => .spin
  | fuel + 1, s, key, tid => do
    let (r, s1) ← search_levels fuel s.maxLevel s key tid s.head (-1)
    match r with
    | none => sq_search fuel s1 key tid
    | some lFound => .ok (lFound, s1)

/-- The inner `while (curr != node)` loop of `sq_search_preds` at one level. -/
def search_preds_while : Nat → sq_t → Nat → Nat → Nat → Nat → Nat → Res (Option (Nat × Nat) × sq_t)
  | 0, _, _, _, _, _, _ => .spin
  | fuel + 1, s, node, level, tid, pred, curr =>
    if curr ≠ node then do
      let (pr, s1) ← lptr s (some curr) level tid
      match pr with
      | none => .fault
      | some pred1 =>
        let (r, s2) ← pptr s1 pred1 level tid
        match r with
        | none => .ok (none, s2)
        | some curr1 => search_preds_while fuel s2 node level tid pred1 curr1
    else .ok (some (pred, curr), s)

/-- The `for (level = node->topLevel; level >= 0; level--)` loop of `sq_search_preds`;
the first argument is `level + 1`. -/
def search_preds_levels (fuel : Nat) : Nat → sq_t → Nat → Nat → Nat → Res (Option Unit × sq_t)
  | 0, s, _, _, _ => .ok (some (), s)
  | level + 1, s, node, tid, pred => do
    let (r, s1) ← pptr s pred level tid
    match r with
    | none => .ok (none, s1)
    | some curr =>
      let (r2, s2) ← search_preds_while fuel s1 node level tid pred curr
      match r2 with
      | none => .ok (none, s2)
      | some (pred1, _) =>
        let s3 ← set_pred s2 tid level (some pred1)
        search_preds_levels fuel level s3 node tid pred1

/-- The function `sq_search_preds`. -/
def sq_search_preds : Nat → sq_t → Nat → Nat → Res sq_t
  | 0, _, _, _ => .spin
  | fuel + 1, s, node, tid => do
    let n ← node_at s (some node)
    let (r, s1) ← search_preds_levels fuel (n.topLevel + 1) s node tid s.head
    match r with
    | none => sq_search_preds fuel s1 node tid
    | some _ => .ok s1

/-! ## Construction -/

/-- The loop `for (i = 0; i <= maxLevel; i++)` of `sq_init` on the two sentinels. -/
def init_links (maxLevel : Nat) (tail : Nat) (ht : sq_node_t × sq_node_t) : sq_node_t × sq_node_t :=
  (List.range (maxLevel + 1)).foldl
    (fun acc i =>
      ({ acc.1 with nexts := acc.1.nexts.set i (some tail) },
       { acc.2 with nexts := acc.2.nexts.set i none }))
    ht

/-- Modelled from the spec: `hp_init` of `hp.h`, which is not among the
sources: one record per thread, with an empty peek slot and `maxLevel` empty
held slots, and nothing retired. -/
def hp_init (maxLevel nthreads : Nat) : hp_rec_list_t :=
  { recs := List.replicate nthreads { peek := none, node := List.replicate maxLevel none },
    retired := [] }

/-- The function `sq_init`. The head is allocated at address 0 and the tail at address 1. -/
def sq_init (maxLevel : Nat) (min max : Int) (nthreads : Nat) : sq_t :=
  let head := { create_node maxLevel min NULL_VAL with fullyLinked := 1 }
  let tail := { create_node maxLevel max NULL_VAL with fullyLinked := 1 }
  let ht := init_links maxLevel 1 (head, tail)
  { maxLevel := maxLevel, nthreads := nthreads, head := 0, tail := 1,
    thread_ws := List.replicate nthreads
      { preds := List.replicate maxLevel none, succs := List.replicate maxLevel none },
    hp := hp_init maxLevel nthreads,
    mem := [ht.1, ht.2] }

/-- The loop of `clean_ptrs`; `n` counts the iterations left. -/
def clean_ptrs_loop : Nat → sq_t → Nat → Nat → Res sq_t
  | 0, s, _, _ => .ok s
  | n + 1, s, tid, i => do
    let s1 ← set_pred s tid i none
    let s2 ← set_succ s1 tid i none
    clean_ptrs_loop n s2 tid (i + 1)

/-- The function `clean_ptrs`. -/
def clean_ptrs (s : sq_t) (tid : Nat) : Res sq_t :=
  clean_ptrs_loop s.maxLevel s tid 0

/-! ## Insertion -/

/-- The locking and validation loop of `sq_add`,
`for (level = 0; valid && level <= topLevel; level++)`; `n` counts the
iterations left. The result holds `valid`, `highestLocked` and `prev`. -/
def add_lock_loop : Nat → sq_t → Nat → Nat → Option Nat → Int →
    Res ((Bool × Int × Option Nat) × sq_t)
  | 0, s, _, _, prev, highestLocked => .ok ((true, highestLocked, prev), s)
  | n + 1, s, tid, level, prev, highestLocked => do
    let pred ← get_pred s tid level
    let succ ← get_succ s tid level
    match pred with
    | none => .abort
    | some p =>
      let (s1, prev1, hl1) ←
        (if pred ≠ prev then do
          let s1 ← lock s p
          .ok (s1, pred, (level : Int))
        else .ok (s, prev, highestLocked) : Res (sq_t × Option Nat × Int))
      let pn ← node_at s1 pred
      let valid ←
        (if pn.marked ≠ 0 then .ok false
        else do
          let sn ← node_at s1 succ
          if sn.marked ≠ 0 then .ok false
          else do
            let nx ← rd_next s1 p level
            .ok (decide (nx = succ)) : Res Bool)
      if valid then add_lock_loop n s1 tid (level + 1) prev1 hl1
      else .ok ((false, hl1, prev1), s1)

/-- The loop of `sq_add` that asserts `pred->nexts[level] == succ` for every level
up to `topLevel`; `n` counts the iterations left. -/
def add_assert_loop : Nat → sq_t → Nat → Nat → Res Unit
  | 0, _, _, _ => .ok ()
  | n + 1, s, tid, level => do
    let pred ← get_pred s tid level
    let succ ← get_succ s tid level
    match pred with
    | none => .fault
    | some p =>
      let nx ← rd_next s p level
      if nx = succ then add_assert_loop n s tid (level + 1) else .abort

/-- The linking loop of `sq_add`; `n` counts the iterations left. -/
def add_link_loop : Nat → sq_t → Nat → Nat → Nat → Res sq_t
  | 0, s, _, _, _ => .ok s
  | n + 1, s, tid, level, newNode => do
    let succ ← get_succ s tid level
    let s1 ← set_next s newNode level succ
    let pred ← get_pred s1 tid level
    match pred with
    | none => .fault
    | some p =>
      let s2 ← set_next s1 p level (some newNode)
      add_link_loop n s2 tid (level + 1) newNode

/-- The `while (1)` loop of `sq_add`; the result holds `highestLocked`. -/
def add_loop : Nat → sq_t → Int → Int → Nat → Nat → Res (Int × sq_t)
  | 0, _, _, _, _, _ => .spin
  | fuel + 1, s, key, val, topLevel, tid => do
    let (_, s1) ← sq_search fuel s key tid
    let ((valid, highestLocked, _), s2) ← add_lock_loop (topLevel + 1) s1 tid 0 none (-1)
    if !valid then do
      let s3 ← unlock_preds s2 tid highestLocked
      add_loop fuel s3 key val topLevel tid
    else do
      add_assert_loop (topLevel + 1) s2 tid 0
      let (newNode, s3) := alloc s2 (create_node topLevel key val)
      let nn ← node_at s3 (some newNode)
      let s4 := put_node s3 newNode { nn with topLevel := topLevel }
      let s5 ← add_link_loop (topLevel + 1) s4 tid 0 newNode
      let pt ← get_pred s5 tid topLevel
      match pt with
      | none => .fault
      | some p =>
        let nx ← rd_next s5 p topLevel
        if nx ≠ some newNode then .abort
        else do
          let s6 ← set_fullyLinked s5 newNode 1
          .ok (highestLocked, s6)

/-- The function `sq_add`; `topLevel` is the level drawn from the random number generator. -/
def sq_add (fuel : Nat) (s : sq_t) (key val : Int) (topLevel : Nat) (tid : Nat) : Res (Int × sq_t) :=
  if tid < s.thread_ws.length then
    if topLevel < s.maxLevel then do
      let (highestLocked, s1) ← add_loop fuel s key val topLevel tid
      let s2 ← unlock_preds s1 tid highestLocked
      let s3 ← clean_ptrs s2 tid
      .ok (1, s3)
    else .abort
  else .fault

/-! ## Extraction -/

/-- The loop `while (del == q->tail) ;` of `sq_delmin`. -/
def delmin_wait : Nat → Nat → Nat → Res Unit
  | 0, _, _ => .spin
  | fuel + 1, del, tail => if del = tail then delmin_wait fuel del tail else .ok ()

/-- The unlink loop of `sq_delmin`, `for (level = del->topLevel; level >= 0; level--)`;
the first argument is `level + 1`. -/
def delmin_unlink : Nat → sq_t → Nat → Res sq_t
  | 0, s, _ => .ok s
  | level + 1, s, del => do
    let v ← rd_next s del level
    let s1 ← set_next s s.head level v
    delmin_unlink level s1 del

/-- The `while (1)` loop of `sq_delmin`; the result is `del`. -/
def delmin_loop : Nat → sq_t → Nat → Res (Nat × sq_t)
  | 0, _, _ => .spin
  | fuel + 1, s, tid => do
    let (r, s1) ← pptr s s.head 0 tid
    match r with
    | none => delmin_loop fuel s1 tid
    | some del =>
      delmin_wait (fuel + 1) del s1.tail
      let dn ← node_at s1 (some del)
      if dn.fullyLinked ≠ 0 ∧ dn.marked = 0 then do
        let s2 ← lock s1 del
        let dn2 ← node_at s2 (some del)
        if dn2.marked ≠ 0 then do
          let s3 ← unlock s2 (some del)
          delmin_loop fuel s3 tid
        else do
          let s3 ← set_marked s2 del 1
          let s4 ← lock s3 s3.head
          let h0 ← rd_next s4 s4.head 0
          if h0 ≠ some del then do
            let s5 ← unlock s4 (some s4.head)
            let s6 ← set_marked s5 del 0
            let s7 ← unlock s6 (some del)
            delmin_loop fuel s7 tid
          else do
            let dn4 ← node_at s4 (some del)
            let s5 ← delmin_unlink (dn4.topLevel + 1) s4 del
            let s6 ← unlock s5 (some del)
            let s7 ← unlock s6 (some s6.head)
            .ok (del, s7)
      else delmin_loop fuel s1 tid

/-- The function `sq_delmin`; the result holds the return value and the pointer stored in `*node`. -/
def sq_delmin (fuel : Nat) (s : sq_t) (tid : Nat) : Res ((Int × Nat) × sq_t) := do
  let (del, s1) ← delmin_loop fuel s tid
  .ok ((1, del), retire_node s1 del)

/-- The function `sq_update`; the result holds the return value and the value stored in `*old`. -/
def sq_update (fuel : Nat) (s : sq_t) (newkey newval : Int) (topLevel : Nat) (tid : Nat) :
    Res ((Int × Int) × sq_t) := do
  let ((_, old_node), s1) ← sq_delmin fuel s tid
  let n ← node_at s1 (some old_node)
  let (_, s2) ← sq_add fuel s1 newkey newval topLevel tid
  .ok ((1, n.val), s2)

/-- The `do ... while (asm_xchg(&del->marked, 1))` loop of `sq_alt_delmin`.
The result `none` stands for `return 0`. -/
def alt_claim : Nat → sq_t → Nat → Option Nat → Res (Option Nat × sq_t)
  | 0, _, _, _ => .spin
  | fuel + 1, s, tid, del =>
    match del with
    | none => .fault
    | some d => do
      let (r, s1) ← pptr s d 0 tid
      match r with
      | none => .fault
      | some del1 =>
        if del1 = s1.tail then .ok (none, s1)
        else do
          let (old, s2) ← asm_xchg_marked s1 del1 1
          if old ≠ 0 then alt_claim fuel s2 tid (some del1)
          else .ok (some del1, s2)

/-- The loop `while (!del->fullyLinked) ;` of `sq_alt_delmin`. -/
def alt_wait : Nat → sq_t → Nat → Res Unit
  | 0, _, _ => .spin
  | fuel + 1, s, del => do
    let dn ← node_at s (some del)
    if dn.fullyLinked = 0 then alt_wait fuel s del else .ok ()

/-- The locking and validation loop of `sq_alt_delmin`; `n` counts the
iterations left. The result holds `valid`, `highestLocked` and `prev`. -/
def alt_lock_loop : Nat → sq_t → Nat → Nat → Nat → Option Nat → Int → Bool →
    Res ((Bool × Int × Option Nat) × sq_t)
  | 0, s, _, _, _, prev, highestLocked, valid => .ok ((valid, highestLocked, prev), s)
  | n + 1, s, tid, del, level, prev, highestLocked, valid =>
    if valid then do
      let pred ← get_pred s tid level
      match pred with
      | none => .abort
      | some p =>
        let (s1, prev1, hl1) ←
          (if pred ≠ prev then do
            let s1 ← lock s p
            .ok (s1, pred, (level : Int))
          else .ok (s, prev, highestLocked) : Res (sq_t × Option Nat × Int))
        let nx ← rd_next s1 p level
        let pn ← node_at s1 pred
        let valid1 := valid && (decide (nx = some del) && decide (pn.marked = 0))
        alt_lock_loop n s1 tid del (level + 1) prev1 hl1 valid1
    else .ok ((valid, highestLocked, prev), s)

/-- The inner `while (1)` loop of `sq_alt_delmin`: search the predecessors,
lock and validate them. The result holds `highestLocked`. -/
def alt_preds_loop : Nat → sq_t → Nat → Nat → Option Nat → Int → Res (Int × sq_t)
  | 0, _, _, _, _, _ => .spin
  | fuel + 1, s, tid, del, prev, highestLocked => do
    let s1 ← sq_search_preds fuel s del tid
    let dn ← node_at s1 (some del)
    let ((valid, hl1, prev1), s2) ←
      alt_lock_loop (dn.topLevel + 1) s1 tid del 0 prev highestLocked true
    if !valid then do
      let s3 ← unlock_preds s2 tid hl1
      alt_preds_loop fuel s3 tid del prev1 hl1
    else .ok (hl1, s2)

/-- The unlink loop of `sq_alt_delmin`; the first argument is `level + 1`. -/
def alt_unlink : Nat → sq_t → Nat → Nat → Res sq_t
  | 0, s, _, _ => .ok s
  | level + 1, s, tid, del => do
    let v ← rd_next s del level
    let pred ← get_pred s tid level
    match pred with
    | none => .fault
    | some p =>
      let s1 ← set_next s p level v
      alt_unlink level s1 tid del

/-- The function `sq_alt_delmin`. The locals `prev` and `highestLocked` are
read before the C code assigns them: their first values are the arguments
`prev0` and `hl0`. The result holds the return value and the pointer stored in
`*node` (`none` when nothing is stored). -/
def sq_alt_delmin (fuel : Nat) (s : sq_t) (tid : Nat) (prev0 : Option Nat) (hl0 : Int) :
    Res ((Int × Option Nat) × sq_t) :=
  if tid < s.thread_ws.length then do
    let (r, s1) ← alt_claim fuel s tid (some s.head)
    match r with
    | none => .ok ((0, none), s1)
    | some del =>
      alt_wait fuel s1 del
      let s2 ← lock s1 del
      let (highestLocked, s3) ← alt_preds_loop fuel s2 tid del prev0 hl0
      let dn ← node_at s3 (some del)
      let s4 ← alt_unlink (dn.topLevel + 1) s3 tid del
      let s5 ← unlock_preds s4 tid highestLocked
      let s6 ← unlock s5 (some del)
      let s7 ← clean_ptrs s6 tid
      .ok ((1, some del), retire_node s7 del)
  else .fault

/-! ## Observations -/

/-- Follow `nexts[l]` from `p` until `tail`, for at most `fuel` hops: the nodes met before `tail`. -/
def walk (m : List sq_node_t) (l : Nat) (tail : Nat) : Nat → Nat → Option (List Nat)
  | 0, p => if p = tail then some [] else none
  | fuel + 1, p =>
    if p = tail then some []
    else
      match nxt m p l with
      | some (some q) => (walk m l tail fuel q).map (fun xs => p :: xs)
      | _ => none

/-- The level-`l` chain of the queue: the nodes strictly between `head` and `tail`,
found by following `nexts[l]` from `head`; `none` when `tail` is not reached. -/
def chain (s : sq_t) (l : Nat) : Option (List Nat) :=
  match nxt s.mem s.head l with
  | some (some q) => walk s.mem l s.tail s.mem.length q
  | _ => none

/-- The key of the node at `p` (0 outside memory). -/
def keyOf (m : List sq_node_t) (p : Nat) : Int :=
  match m[p]? with
  | some n => n.key
  | none => 0

/-- The value of the node at `p` (0 outside memory). -/
def valOf (m : List sq_node_t) (p : Nat) : Int :=
  match m[p]? with
  | some n => n.val
  | none => 0

/-- The field `topLevel` of the node at `p` (0 outside memory). -/
def topOf (m : List sq_node_t) (p : Nat) : Nat :=
  match m[p]? with
  | some n => n.topLevel
  | none => 0

/-- The field `marked` of the node at `p` (0 outside memory). -/
def markedOf (m : List sq_node_t) (p : Nat) : Nat :=
  match m[p]? with
  | some n => n.marked
  | none => 0

/-- The field `fullyLinked` of the node at `p` (0 outside memory). -/
def flOf (m : List sq_node_t) (p : Nat) : Int :=
  match m[p]? with
  | some n => n.fullyLinked
  | none => 0

/-- Whether the spinlock of the node at `p` is held (`false` outside memory). -/
def lockOf (m : List sq_node_t) (p : Nat) : Bool :=
  match m[p]? with
  | some n => n.lock
  | none => false

/-- The number of slots of the tower of the node at `p` (0 outside memory). -/
def towerLen (m : List sq_node_t) (p : Nat) : Nat :=
  match m[p]? with
  | some n => n.nexts.length
  | none => 0

/-- The level-0 sequence of (key, val) pairs of the queue. -/
def kvs (s : sq_t) : Option (List (Int × Int)) :=
  (chain s 0).map (fun xs => xs.map (fun p => (keyOf s.mem p, valOf s.mem p)))

/-- The states of a single-threaded run: from `sq_init`, by calls of `sq_add`
with a key strictly between the sentinel keys and a level below `maxLevel`,
and by returning calls of `sq_delmin`. -/
inductive Reachable : sq_t → Prop where
  | init (maxLevel : Nat) (min max : Int) (nthreads : Nat) :
      Reachable (sq_init maxLevel min max nthreads)
  | add {s s1 : sq_t} (fuel : Nat) (key val : Int) (topLevel tid : Nat) (r : Int) :
      Reachable s → keyOf s.mem s.head < key → key < keyOf s.mem s.tail →
      topLevel < s.maxLevel →
      sq_add fuel s key val topLevel tid = .ok (r, s1) → Reachable s1
  | delmin {s s1 : sq_t} (fuel : Nat) (tid : Nat) (r : Int × Nat) :
      Reachable s → sq_delmin fuel s tid = .ok (r, s1) → Reachable s1

/-! ## The representation invariant -/

/-- Everything of a node but its lock and the contents of its tower. -/
def coreOf (m : List sq_node_t) (p : Nat) : Option (Int × Int × Nat × Nat × Int × Nat) :=
  (m[p]?).map (fun n => (n.key, n.val, n.topLevel, n.marked, n.fullyLinked, n.nexts.length))

/-- The nodes `xs` lead from `p` to `q` along `nexts[l]`. -/
def Path (m : List sq_node_t) (l : Nat) : Nat → List Nat → Nat → Prop
  | p, [], q => nxt m p l = some (some q)
  | p, x :: xs, q => nxt m p l = some (some x) ∧ Path m l x xs q

/-- The nodes of `xs` whose tower reaches level `l`. -/
def lvl (m : List sq_node_t) (l : Nat) (xs : List Nat) : List Nat :=
  xs.filter (fun p => decide (l ≤ topOf m p))

/-- The scratch arrays and the hazard pointer records have the sizes `sq_init` gave them. -/
def Shape (s : sq_t) : Prop :=
  s.thread_ws.length = s.nthreads ∧ s.hp.recs.length = s.nthreads ∧
  (∀ w ∈ s.thread_ws, w.preds.length = s.maxLevel ∧ w.succs.length = s.maxLevel) ∧
  (∀ r ∈ s.hp.recs, r.node.length = s.maxLevel)

/-- The memory of `s` holds a skiplist whose level-0 elements are `es`, in this order. -/
structure Heap (s : sq_t) (es : List Nat) : Prop where
  head_eq : s.head = 0
  tail_eq : s.tail = 1
  len : 2 ≤ s.mem.length
  hd_tower : towerLen s.mem 0 = s.maxLevel + 1
  hd_top : topOf s.mem 0 = s.maxLevel
  hd_marked : markedOf s.mem 0 = 0
  hd_fl : flOf s.mem 0 = 1
  tl_top : topOf s.mem 1 = s.maxLevel
  tl_marked : markedOf s.mem 1 = 0
  tl_fl : flOf s.mem 1 = 1
  tl_next : ∀ l, l ≤ s.maxLevel → nxt s.mem 1 l = some none
  nodup : es.Nodup
  elems : ∀ p ∈ es, 2 ≤ p ∧ p < s.mem.length ∧ towerLen s.mem p = topOf s.mem p + 1 ∧
    topOf s.mem p < s.maxLevel ∧ markedOf s.mem p = 0 ∧ flOf s.mem p = 1 ∧
    keyOf s.mem p < keyOf s.mem 1
  sorted : es.Pairwise (fun a b => keyOf s.mem a ≤ keyOf s.mem b)
  paths : ∀ l, l ≤ s.maxLevel → Path s.mem l 0 (lvl s.mem l es) 1

/-- The invariant of the states between two operations. -/
def Inv (s : sq_t) (es : List Nat) : Prop :=
  Heap s es ∧ Shape s ∧ (∀ q, lockOf s.mem q = false) ∧ (∀ p ∈ es, keyOf s.mem 0 < keyOf s.mem p)

/-- The states have the same memory and the same queue fields. -/
def SameQ (s s1 : sq_t) : Prop :=
  s1.mem = s.mem ∧ s1.maxLevel = s.maxLevel ∧ s1.nthreads = s.nthreads ∧
  s1.head = s.head ∧ s1.tail = s.tail

/-- The elements that an insertion of `key` walks past: those with a key at most `key`. -/
def pre (m : List sq_node_t) (key : Int) (es : List Nat) : List Nat :=
  es.takeWhile (fun p => decide (keyOf m p ≤ key))

/-- The elements that an insertion of `key` stops before. -/
def post (m : List sq_node_t) (key : Int) (es : List Nat) : List Nat :=
  es.dropWhile (fun p => decide (keyOf m p ≤ key))

/-- The predecessor that the search for `key` finds at level `l`. -/
def predAt (m : List sq_node_t) (key : Int) (es : List Nat) (l : Nat) : Nat :=
  (lvl m l (pre m key es)).getLastD 0

/-- The successor that the search for `key` finds at level `l`. -/
def succAt (m : List sq_node_t) (key : Int) (es : List Nat) (l : Nat) : Nat :=
  (lvl m l (post m key es)).headD 1

/-- The states differ in their memory only. -/
def SameAux (s s1 : sq_t) : Prop :=
  s1.thread_ws = s.thread_ws ∧ s1.hp = s.hp ∧ s1.maxLevel = s.maxLevel ∧
  s1.nthreads = s.nthreads ∧ s1.head = s.head ∧ s1.tail = s.tail

/-- The memories differ in the locks only. -/
def SameData (m m1 : List sq_node_t) : Prop :=
  ∀ q, coreOf m1 q = coreOf m q ∧ ∀ l, nxt m1 q l = nxt m q l

/-- The memory `m1` is the memory `m` after a node with key `k`, value `v` and top level `t`
was allocated and linked between the predecessors `P` and the successors `S`. -/
structure Inserted (m m1 : List sq_node_t) (k v : Int) (t : Nat) (P S : Nat → Nat) : Prop where
  len : m1.length = m.length + 1
  old : ∀ q, q < m.length → coreOf m1 q = coreOf m q
  new : coreOf m1 m.length = some (k, v, t, 0, 1, t + 1)
  nx : ∀ q l, nxt m1 q l =
    if l ≤ t then
      (if q = m.length then some (some (S l))
       else if q = P l then some (some m.length) else nxt m q l)
    else (if q = m.length then none else nxt m q l)

/-- The memory `m1` is the memory `m` after the node `p` was marked and unlinked from the head. -/
structure Deleted (m m1 : List sq_node_t) (p : Nat) : Prop where
  len : m1.length = m.length
  other : ∀ q, q ≠ p → coreOf m1 q = coreOf m q
  del : coreOf m1 p = some (keyOf m p, valOf m p, topOf m p, 1, flOf m p, towerLen m p)
  nx : ∀ q l, nxt m1 q l = if q = 0 ∧ l ≤ topOf m p then nxt m p l else nxt m q l

/-- The outcome `x` is the outcome `y` or a run that ran out of fuel. -/
def Below {α : Type} (x y : Res α) : Prop := x = .spin ∨ x = y

/-- The states of a single-threaded run with arbitrary arguments: from `sq_init`, by
returning calls of `sq_add` and of `sq_delmin`. -/
inductive Reach : sq_t → Prop where
  | init (maxLevel : Nat) (min max : Int) (nthreads : Nat) :
      Reach (sq_init maxLevel min max nthreads)
  | add {s s1 : sq_t} (fuel : Nat) (key val : Int) (topLevel tid : Nat) (r : Int) :
      Reach s → sq_add fuel s key val topLevel tid = .ok (r, s1) → Reach s1
  | delmin {s s1 : sq_t} (fuel : Nat) (tid : Nat) (r : Int × Nat) :
      Reach s → sq_delmin fuel s tid = .ok (r, s1) → Reach s1

/-- The list `xs` with `x` put immediately after its last element whose key is at most the
key of `x` (in front when there is none). -/
def insert_after_last_le (x : Int × Int) : List (Int × Int) → List (Int × Int)
  | [] => [x]
  | y :: ys =>
    if (y :: ys).any (fun z => decide (z.1 ≤ x.1)) then y :: insert_after_last_le x ys
    else x :: y :: ys

/-- A series of `sq_add` calls by one thread, one for each (key, val, sampled level). -/
def add_all (fuel : Nat) : sq_t → List (Int × Int × Nat) → Nat → Res sq_t
  | s, [], _ => .ok s
  | s, (key, val, topLevel) :: xs, tid => do
    let (_, s1) ← sq_add fuel s key val topLevel tid
    add_all fuel s1 xs tid

/-- A series of `n` calls of `sq_delmin` by one thread: the nodes they store, in this order. -/
def delmin_all (fuel : Nat) : Nat → sq_t → Nat → Res (List Nat × sq_t)
  | 0, s, _ => .ok ([], s)
  | n + 1, s, tid => do
    let ((_, p), s1) ← sq_delmin fuel s tid
    let (ps, s2) ← delmin_all fuel n s1 tid
    .ok (p :: ps, s2)

/-- The order by key, and by address (which is the order of allocation) among nodes of
equal keys. -/
def comes_before (m : List sq_node_t) (a b : Nat) : Prop :=
  keyOf m a < keyOf m b ∨ (keyOf m a = keyOf m b ∧ a < b)

/-! ## Example queues -/

/-- The state that a returned call leaves, or the state `d` when the call did not return. -/
def state_of {α : Type} (x : Res (α × sq_t)) (d : sq_t) : sq_t :=
  match x with
  | .ok (_, s) => s
  | _ => d

/-- An empty queue with three levels, sentinel keys 0 and 100, and one thread. -/
def ex_q0 : sq_t := sq_init 3 0 100 1

/-- The queue `ex_q0` after `sq_add` of key 7, value 70, with sampled level 1. -/
def ex_q1 : sq_t := state_of (sq_add 10 ex_q0 7 70 1 0) ex_q0

/-- The queue `ex_q1` after `sq_add` of key 3, value 30, with sampled level 2. -/
def ex_q2 : sq_t := state_of (sq_add 10 ex_q1 3 30 2 0) ex_q1

/-- A queue whose sentinel keys are in the wrong order: `sq_init(3, 5, 1, 1)`. -/
def ex_q_swapped : sq_t := sq_init 3 5 1 1

/-- The queue `ex_q0` after `sq_add` of the key -4, which is below the key of the head. -/
def ex_q_low : sq_t := state_of (sq_add 10 ex_q0 (-4) 1 0 0) ex_q0

/-- The queue `ex_q2` after `sq_delmin`. -/
def ex_q3 : sq_t := state_of (sq_delmin 1 ex_q2 0) ex_q2

end Prioq

namespace Prioq

/-! ## Hazard slots, the order of the nodes, and more example queues -/

/-- Read `q->hp->recs[tid].node[level]`. -/
def get_held (s : sq_t) (tid level : Nat) : Res (Option Nat) :=
  match s.hp.recs[tid]? with
  | some r =>
    match r.node[level]? with
    | some v => .ok v
    | none => .fault
  | none => .fault

/-- Whether thread `tid` announces the pointer `p`: it is in the peek slot or in one of the
held slots of the record of the thread. -/
def announced (s : sq_t) (tid p : Nat) : Bool :=
  match s.hp.recs[tid]? with
  | some r => decide (r.peek = some p) || r.node.contains (some p)
  | none => false

/-- The node `a` comes before the node `b` in the list `xs`. -/
def comes_earlier (xs : List Nat) (a b : Nat) : Prop := xs.indexOf a < xs.indexOf b

/-- The queue `ex_q1` after `sq_add` of key 9, value 90, with sampled level 0. -/
def ex_q4 : sq_t := state_of (sq_add 10 ex_q1 9 90 0 0) ex_q1

/-- The queue `ex_q1` after `sq_add` of key 6, value 60, with sampled level 0. -/
def ex_q5 : sq_t := state_of (sq_add 10 ex_q1 6 60 0 0) ex_q1

/-- The queue `ex_q5` after the search for the key 5 by thread 0. -/
def ex_q5_searched : sq_t := state_of (sq_search 10 ex_q5 5 0) ex_q5

/-! ## A second reading of `unlock`

The macro `unlock` is `pthread_spin_unlock`. In `unlock` above, unlocking a free lock is a
fault; here it is a plain store, as in the GNU C library: the lock is free afterwards,
whether or not it was held. The functions of `sq_alt_delmin` that unlock are repeated with
this reading. -/

/-- The call `unlock(&p->lock)`, with `pthread_spin_unlock` as a plain store. -/
def unlock_store (s : sq_t) (p : Option Nat) : Res sq_t :=
  match p with
  | none => .fault
  | some a =>
    match s.mem[a]? with
    | some n => .ok (put_node s a { n with lock := false })
    | none => .fault

/-- The loop of `unlock_preds`, with `pthread_spin_unlock` as a plain store; `n` counts the
iterations left. -/
def unlock_preds_loop_store : Nat → sq_t → Nat → Nat → Option Nat → Res sq_t
  | 0, s, _, _, _ => .ok s
  | n + 1, s, tid, i, prev => do
    let p ← get_pred s tid i
    let s1 ← if p ≠ prev then unlock_store s p else .ok s
    unlock_preds_loop_store n s1 tid (i + 1) p

/-- The function `unlock_preds`, with `pthread_spin_unlock` as a plain store. -/
def unlock_preds_store (s : sq_t) (tid : Nat) (highestLocked : Int) : Res sq_t :=
  unlock_preds_loop_store (highestLocked + 1).toNat s tid 0 none

/-- The inner `while (1)` loop of `sq_alt_delmin`, with `pthread_spin_unlock` as a plain
store. -/
def alt_preds_loop_store : Nat → sq_t → Nat → Nat → Option Nat → Int → Res (Int × sq_t)
  | 0, _, _, _, _, _ => .spin
  | fuel + 1, s, tid, del, prev, highestLocked => do
    let s1 ← sq_search_preds fuel s del tid
    let dn ← node_at s1 (some del)
    let ((valid, hl1, prev1), s2) ←
      alt_lock_loop (dn.topLevel + 1) s1 tid del 0 prev highestLocked true
    if !valid then do
      let s3 ← unlock_preds_store s2 tid hl1
      alt_preds_loop_store fuel s3 tid del prev1 hl1
    else .ok (hl1, s2)

/-- The function `sq_alt_delmin`, with `pthread_spin_unlock` as a plain store. As in
`sq_alt_delmin`, the arguments `prev0` and `hl0` are the values that the locals `prev` and
`highestLocked` hold when they are first read. -/
def sq_alt_delmin_store (fuel : Nat) (s : sq_t) (tid : Nat) (prev0 : Option Nat) (hl0 : Int) :
    Res ((Int × Option Nat) × sq_t) :=
  if tid < s.thread_ws.length then do
    let (r, s1) ← alt_claim fuel s tid (some s.head)
    match r with
    | none => .ok ((0, none), s1)
    | some del =>
      alt_wait fuel s1 del
      let s2 ← lock s1 del
      let (highestLocked, s3) ← alt_preds_loop_store fuel s2 tid del prev0 hl0
      let dn ← node_at s3 (some del)
      let s4 ← alt_unlink (dn.topLevel + 1) s3 tid del
      let s5 ← unlock_preds_store s4 tid highestLocked
      let s6 ← unlock_store s5 (some del)
      let s7 ← clean_ptrs s6 tid
      .ok ((1, some del), retire_node s7 del)
  else .fault

end Prioq

namespace Prioq

/-! ## Outcomes -/

@[simp] theorem ok_bind {α β : Type} (a : α) (f : α → Res β) : (Res.ok a >>= f) = f a := rfl

@[simp] theorem spin_bind {α β : Type} (f : α → Res β) : ((Res.spin : Res α) >>= f) = Res.spin := rfl

@[simp] theorem abort_bind {α β : Type} (f : α → Res β) : ((Res.abort : Res α) >>= f) = Res.abort := rfl

@[simp] theorem fault_bind {α β : Type} (f : α → Res β) : ((Res.fault : Res α) >>= f) = Res.fault := rfl

/-! ## Memory after a write -/

theorem mem_put (s : sq_t) (p : Nat) (n : sq_node_t) (q : Nat) :
    (put_node s p n).mem[q]? = if p = q then (if p < s.mem.length then some n else none) else s.mem[q]? := by
  simp [put_node, List.getElem?_set]

@[simp] theorem put_thread_ws (s : sq_t) (p : Nat) (n : sq_node_t) : (put_node s p n).thread_ws = s.thread_ws := rfl
@[simp] theorem put_hp (s : sq_t) (p : Nat) (n : sq_node_t) : (put_node s p n).hp = s.hp := rfl
@[simp] theorem put_maxLevel (s : sq_t) (p : Nat) (n : sq_node_t) : (put_node s p n).maxLevel = s.maxLevel := rfl
@[simp] theorem put_nthreads (s : sq_t) (p : Nat) (n : sq_node_t) : (put_node s p n).nthreads = s.nthreads := rfl
@[simp] theorem put_head (s : sq_t) (p : Nat) (n : sq_node_t) : (put_node s p n).head = s.head := rfl
@[simp] theorem put_tail (s : sq_t) (p : Nat) (n : sq_node_t) : (put_node s p n).tail = s.tail := rfl
@[simp] theorem put_length (s : sq_t) (p : Nat) (n : sq_node_t) : (put_node s p n).mem.length = s.mem.length := by
  simp [put_node]

/-! ## Paths -/

theorem Path.congr {m m1 : List sq_node_t} {l : Nat} {t : Nat} :
    ∀ (xs : List Nat) (p : Nat), (∀ q ∈ p :: xs, nxt m1 q l = nxt m q l) →
      Path m l p xs t → Path m1 l p xs t
  | [], p, h, hp => by
    simp only [Path] at hp ⊢
    rw [h p (by simp)]; exact hp
  | x :: xs, p, h, hp => by
    simp only [Path] at hp ⊢
    refine ⟨by rw [h p (by simp)]; exact hp.1, Path.congr xs x ?_ hp.2⟩
    intro q hq
    exact h q (List.mem_cons_of_mem _ hq)

theorem Path.head {m : List sq_node_t} {l : Nat} {t p : Nat} {xs : List Nat}
    (h : Path m l p xs t) : nxt m p l = some (some (xs.headD t)) := by
  cases xs with
  | nil => simpa [Path] using h
  | cons x xs => simpa [Path] using h.1

theorem Path.append {m : List sq_node_t} {l : Nat} {t : Nat} :
    ∀ (A : List Nat) (p x : Nat) (B : List Nat),
      Path m l p (A ++ x :: B) t ↔ Path m l p A x ∧ Path m l x B t
  | [], p, x, B => by simp [Path]
  | a :: A, p, x, B => by
    have ih := @Path.append m l t A a x B
    show (nxt m p l = some (some a) ∧ Path m l a (A ++ x :: B) t) ↔
      (nxt m p l = some (some a) ∧ Path m l a A x) ∧ Path m l x B t
    rw [ih]
    tauto

theorem walk_of_path {m : List sq_node_t} {l : Nat} {t : Nat} :
    ∀ (xs : List Nat) (p : Nat) (fuel : Nat), Path m l p xs t → t ∉ xs → xs.length ≤ fuel →
      walk m l t fuel (xs.headD t) = some xs
  | [], p, fuel, _, _, _ => by
    cases fuel <;> simp [walk]
  | x :: xs, p, fuel, hp, ht, hf => by
    cases fuel with
    | zero => simp at hf
    | succ f =>
      simp only [Path] at hp
      have hx : x ≠ t := fun h => ht (by simp [h])
      have ht2 : t ∉ xs := fun h => ht (List.mem_cons_of_mem _ h)
      have ih := walk_of_path xs x f hp.2 ht2 (by simpa using hf)
      have h2 := hp.2.head
      simp only [walk, List.headD_cons, if_neg hx, h2, ih, Option.map_some']

theorem chain_of_path {s : sq_t} {l : Nat} {xs : List Nat}
    (hp : Path s.mem l s.head xs s.tail) (ht : s.tail ∉ xs) (hl : xs.length ≤ s.mem.length) :
    chain s l = some xs := by
  unfold chain
  rw [hp.head]
  exact walk_of_path xs s.head _ hp ht hl

end Prioq

namespace Prioq

/-! ## The queue after `sq_init` -/

theorem foldl_set_get (v : Option Nat) : ∀ (k : Nat) (xs : List (Option Nat)) (j : Nat),
    ((List.range k).foldl (fun a i => a.set i v) xs)[j]? =
      if j < k then (if j < xs.length then some v else none) else xs[j]?
  | 0, xs, j => by simp
  | k + 1, xs, j => by
    rw [List.range_succ, List.foldl_append]
    simp only [List.foldl_cons, List.foldl_nil, List.getElem?_set]
    have ih := foldl_set_get v k xs
    have hlen : ∀ (k : Nat) (xs : List (Option Nat)),
        ((List.range k).foldl (fun a i => a.set i v) xs).length = xs.length := by
      intro k
      induction k with
      | zero => intro xs; simp
      | succ k ihk =>
        intro xs
        rw [List.range_succ, List.foldl_append]
        simp [ihk]
    rw [hlen, ih]
    by_cases h1 : k = j
    · subst h1
      simp
    · simp only [h1, if_false]
      by_cases h2 : j < k
      · have : j < k + 1 := by omega
        simp [h2, this]
      · have : ¬ j < k + 1 := by omega
        simp [h2, this]

theorem init_links_eq (tail : Nat) : ∀ (k : Nat) (h t : sq_node_t),
    (List.range k).foldl
      (fun (acc : sq_node_t × sq_node_t) i =>
        ({ acc.1 with nexts := acc.1.nexts.set i (some tail) },
         { acc.2 with nexts := acc.2.nexts.set i none })) (h, t) =
    ({ h with nexts := (List.range k).foldl (fun a i => a.set i (some tail)) h.nexts },
     { t with nexts := (List.range k).foldl (fun a i => a.set i none) t.nexts })
  | 0, h, t => by simp
  | k + 1, h, t => by
    rw [List.range_succ, List.foldl_append, List.foldl_append, List.foldl_append,
      init_links_eq tail k h t]
    simp

theorem sq_init_mem (maxLevel : Nat) (min max : Int) (nthreads : Nat) :
    (sq_init maxLevel min max nthreads).mem =
      [{ key := min, val := 0, topLevel := maxLevel, marked := 0, fullyLinked := 1, lock := false,
         nexts := (List.range (maxLevel + 1)).foldl (fun a i => a.set i (some 1))
           (List.replicate (maxLevel + 1) none) },
       { key := max, val := 0, topLevel := maxLevel, marked := 0, fullyLinked := 1, lock := false,
         nexts := (List.range (maxLevel + 1)).foldl (fun a i => a.set i none)
           (List.replicate (maxLevel + 1) none) }] := by
  simp [sq_init, init_links, init_links_eq, create_node, NULL_VAL]

theorem sq_init_shape (maxLevel : Nat) (min max : Int) (nthreads : Nat) :
    Shape (sq_init maxLevel min max nthreads) := by
  refine ⟨by simp [sq_init], by simp [sq_init, hp_init], ?_, ?_⟩
  · intro w hw
    simp only [sq_init, List.mem_replicate] at hw
    rw [hw.2]; simp; rfl
  · intro r hr
    simp only [sq_init, hp_init, List.mem_replicate] at hr
    rw [hr.2]; simp; rfl

theorem sq_init_heap (maxLevel : Nat) (min max : Int) (nthreads : Nat) :
    Heap (sq_init maxLevel min max nthreads) [] := by
  have hm := sq_init_mem maxLevel min max nthreads
  have hn0 : ∀ l, l ≤ maxLevel → nxt (sq_init maxLevel min max nthreads).mem 0 l = some (some 1) := by
    intro l hl
    have : l < maxLevel + 1 := by omega
    simp [nxt, hm, foldl_set_get, this]
  have hn1 : ∀ l, l ≤ maxLevel → nxt (sq_init maxLevel min max nthreads).mem 1 l = some none := by
    intro l hl
    have : l < maxLevel + 1 := by omega
    simp [nxt, hm, foldl_set_get, this]
  have hlen : ∀ (v : Option Nat) (k : Nat) (xs : List (Option Nat)),
      ((List.range k).foldl (fun a i => a.set i v) xs).length = xs.length := by
    intro v k
    induction k with
    | zero => intro xs; simp
    | succ k ihk =>
      intro xs
      rw [List.range_succ, List.foldl_append]
      simp [ihk]
  refine
    { head_eq := rfl, tail_eq := rfl, len := by simp [hm], hd_tower := ?_, hd_top := ?_,
      hd_marked := ?_, hd_fl := ?_, tl_top := ?_, tl_marked := ?_, tl_fl := ?_, tl_next := ?_,
      nodup := List.nodup_nil, elems := by simp, sorted := List.Pairwise.nil, paths := ?_ }
  · simp [towerLen, hm, hlen]; rfl
  · simp [topOf, hm]; rfl
  · simp [markedOf, hm]
  · simp [flOf, hm]
  · simp [topOf, hm]; rfl
  · simp [markedOf, hm]
  · simp [flOf, hm]
  · intro l hl
    exact hn1 l hl
  · intro l hl
    simpa [lvl, Path] using hn0 l hl

theorem sq_init_inv (maxLevel : Nat) (min max : Int) (nthreads : Nat) :
    Inv (sq_init maxLevel min max nthreads) [] := by
  refine ⟨sq_init_heap _ _ _ _, sq_init_shape _ _ _ _, ?_, by simp⟩
  intro q
  have hm := sq_init_mem maxLevel min max nthreads
  simp only [lockOf, hm]
  match q with
  | 0 => simp
  | 1 => simp
  | q + 2 => simp

end Prioq

namespace Prioq

/-! ## Frames of the scratch areas -/

theorem SameQ.reflQ (s : sq_t) : SameQ s s := ⟨rfl, rfl, rfl, rfl, rfl⟩

theorem SameQ.transQ {a b c : sq_t} (h1 : SameQ a b) (h2 : SameQ b c) : SameQ a c :=
  ⟨h2.1.trans h1.1, h2.2.1.trans h1.2.1, h2.2.2.1.trans h1.2.2.1, h2.2.2.2.1.trans h1.2.2.2.1,
    h2.2.2.2.2.trans h1.2.2.2.2⟩

theorem mem_set_of {α : Type} {xs : List α} {i : Nat} {a x : α} (h : x ∈ xs.set i a) :
    x = a ∨ x ∈ xs := by
  rcases List.mem_or_eq_of_mem_set h with h | h
  · exact Or.inr h
  · exact Or.inl h

theorem set_peek_spec {s : sq_t} {tid : Nat} (v : Option Nat) (hs : Shape s) (ht : tid < s.nthreads) :
    ∃ s1, set_peek s tid v = .ok s1 ∧ SameQ s s1 ∧ s1.thread_ws = s.thread_ws ∧ Shape s1 ∧
      get_peek s1 tid = .ok v := by
  obtain ⟨h1, h2, h3, h4⟩ := hs
  have hlt : tid < s.hp.recs.length := by omega
  have hget : s.hp.recs[tid]? = some s.hp.recs[tid] := List.getElem?_eq_getElem hlt
  refine ⟨{ s with hp := { s.hp with recs := s.hp.recs.set tid { s.hp.recs[tid] with peek := v } } },
    by simp only [set_peek, hget], ⟨rfl, rfl, rfl, rfl, rfl⟩, rfl, ⟨h1, ?_, h3, ?_⟩, ?_⟩
  · simpa using h2
  · intro r hr
    rcases mem_set_of hr with h | h
    · rw [h]
      exact h4 (s.hp.recs[tid]) (List.getElem_mem hlt)
    · exact h4 r h
  · simp [get_peek, hlt]

theorem set_held_spec {s : sq_t} {tid level : Nat} (v : Option Nat) (hs : Shape s)
    (ht : tid < s.nthreads) (hl : level < s.maxLevel) :
    ∃ s1, set_held s tid level v = .ok s1 ∧ SameQ s s1 ∧ s1.thread_ws = s.thread_ws ∧ Shape s1 := by
  obtain ⟨h1, h2, h3, h4⟩ := hs
  have hlt : tid < s.hp.recs.length := by omega
  have hget : s.hp.recs[tid]? = some s.hp.recs[tid] := List.getElem?_eq_getElem hlt
  have hlen : level < (s.hp.recs[tid]).node.length := by
    rw [h4 _ (List.getElem_mem hlt)]; exact hl
  refine ⟨{ s with hp := { s.hp with recs := s.hp.recs.set tid ({ s.hp.recs[tid] with node := (s.hp.recs[tid]).node.set level v }) } },
    by simp only [set_held, hget, if_pos hlen], ⟨rfl, rfl, rfl, rfl, rfl⟩, rfl,
    ⟨h1, ?_, h3, ?_⟩⟩
  · simpa using h2
  · intro r hr
    rcases mem_set_of hr with h | h
    · rw [h]
      simpa using h4 _ (List.getElem_mem hlt)
    · exact h4 r h

theorem pptr_spec {s : sq_t} {p : Nat} {l tid : Nat} {v : Option Nat} (hs : Shape s)
    (ht : tid < s.nthreads) (hn : nxt s.mem p l = some v) :
    ∃ s1, pptr s p l tid = .ok (v, s1) ∧ SameQ s s1 ∧ s1.thread_ws = s.thread_ws ∧ Shape s1 := by
  obtain ⟨s1, e1, q1, w1, sh1, g1⟩ := set_peek_spec v hs ht
  refine ⟨s1, ?_, q1, w1, sh1⟩
  have hn1 : nxt s1.mem p l = some v := by rw [q1.1]; exact hn
  simp [pptr, rd_next, hn, e1, g1, hn1]

theorem lptr_spec {s : sq_t} {tid level : Nat} (c : Option Nat) (hs : Shape s)
    (ht : tid < s.nthreads) (hl : level < s.maxLevel) :
    ∃ s1, lptr s c level tid = .ok (c, s1) ∧ SameQ s s1 ∧ s1.thread_ws = s.thread_ws ∧ Shape s1 := by
  obtain ⟨s1, e1, q1, w1, sh1⟩ := set_held_spec c hs ht hl
  exact ⟨s1, by simp [lptr, e1], q1, w1, sh1⟩

theorem set_pred_spec {s : sq_t} {tid i : Nat} (v : Option Nat) (hs : Shape s)
    (ht : tid < s.nthreads) (hi : i < s.maxLevel) :
    ∃ s1, set_pred s tid i v = .ok s1 ∧ SameQ s s1 ∧ s1.hp = s.hp ∧ Shape s1 ∧
      get_pred s1 tid i = .ok v ∧ (∀ j, j ≠ i → get_pred s1 tid j = get_pred s tid j) ∧
      (∀ j, get_succ s1 tid j = get_succ s tid j) := by
  obtain ⟨h1, h2, h3, h4⟩ := hs
  have hlt : tid < s.thread_ws.length := by omega
  have hget : s.thread_ws[tid]? = some s.thread_ws[tid] := List.getElem?_eq_getElem hlt
  have hlen : i < (s.thread_ws[tid]).preds.length := by
    rw [(h3 _ (List.getElem_mem hlt)).1]; exact hi
  refine ⟨{ s with thread_ws := s.thread_ws.set tid ({ s.thread_ws[tid] with preds := (s.thread_ws[tid]).preds.set i v }) },
    by simp only [set_pred, hget, if_pos hlen], ⟨rfl, rfl, rfl, rfl, rfl⟩, rfl,
    ⟨?_, h2, ?_, h4⟩, ?_, ?_, ?_⟩
  · simpa using h1
  · intro w hw
    rcases mem_set_of hw with h | h
    · rw [h]
      simpa using h3 _ (List.getElem_mem hlt)
    · exact h3 w h
  · simp [get_pred, hlt, hlen]
  · intro j hj
    simp [get_pred, hlt, List.getElem?_set, Ne.symm hj]
  · intro j
    simp [get_succ, hlt]

theorem set_succ_spec {s : sq_t} {tid i : Nat} (v : Option Nat) (hs : Shape s)
    (ht : tid < s.nthreads) (hi : i < s.maxLevel) :
    ∃ s1, set_succ s tid i v = .ok s1 ∧ SameQ s s1 ∧ s1.hp = s.hp ∧ Shape s1 ∧
      get_succ s1 tid i = .ok v ∧ (∀ j, j ≠ i → get_succ s1 tid j = get_succ s tid j) ∧
      (∀ j, get_pred s1 tid j = get_pred s tid j) := by
  obtain ⟨h1, h2, h3, h4⟩ := hs
  have hlt : tid < s.thread_ws.length := by omega
  have hget : s.thread_ws[tid]? = some s.thread_ws[tid] := List.getElem?_eq_getElem hlt
  have hlen : i < (s.thread_ws[tid]).succs.length := by
    rw [(h3 _ (List.getElem_mem hlt)).2]; exact hi
  refine ⟨{ s with thread_ws := s.thread_ws.set tid ({ s.thread_ws[tid] with succs := (s.thread_ws[tid]).succs.set i v }) },
    by simp only [set_succ, hget, if_pos hlen], ⟨rfl, rfl, rfl, rfl, rfl⟩, rfl,
    ⟨?_, h2, ?_, h4⟩, ?_, ?_, ?_⟩
  · simpa using h1
  · intro w hw
    rcases mem_set_of hw with h | h
    · rw [h]
      simpa using h3 _ (List.getElem_mem hlt)
    · exact h3 w h
  · simp [get_succ, hlt, hlen]
  · intro j hj
    simp [get_succ, hlt, List.getElem?_set, Ne.symm hj]
  · intro j
    simp [get_pred, hlt]

theorem node_at_ok {s : sq_t} {p : Nat} (h : p < s.mem.length) :
    ∃ n, s.mem[p]? = some n ∧ node_at s (some p) = .ok n := by
  refine ⟨s.mem[p], List.getElem?_eq_getElem h, ?_⟩
  simp [node_at, h]

end Prioq

namespace Prioq

/-! ## The search walk -/

theorem getLastD_append_cons {α : Type} (X : List α) (p : α) (Y : List α) (d : α) :
    (X ++ p :: Y).getLastD d = Y.getLastD p := by
  induction X generalizing d with
  | nil => cases Y <;> simp [List.getLastD]
  | cons x X ih =>
    cases hX : X ++ p :: Y with
    | nil => simp at hX
    | cons a b =>
      have := ih x
      rw [hX] at this
      simpa [List.getLastD, hX] using this

theorem getLastD_mem {α : Type} (Y : List α) (p : α) : Y.getLastD p = p ∨ Y.getLastD p ∈ Y := by
  induction Y generalizing p with
  | nil => simp
  | cons y Y ih =>
    rcases ih y with h | h
    · right; simp [List.getLastD, h]
    · right; simp only [List.getLastD_cons]; exact List.mem_cons_of_mem _ h

theorem getLastD_nil_iff {α : Type} (Y : List α) (p : α) (h : p ∉ Y) : Y.getLastD p = p ↔ Y = [] := by
  constructor
  · intro e
    rcases Y with _ | ⟨y, Y⟩
    · rfl
    · exfalso
      rcases getLastD_mem Y y with h1 | h1
      · simp only [List.getLastD_cons] at e
        rw [h1] at e
        exact h (by simp [e])
      · simp only [List.getLastD_cons] at e
        rw [e] at h1
        exact h (List.mem_cons_of_mem _ h1)
  · intro e; simp [e]

theorem search_while_spec {k : Int} {l tid : Nat} {t : Nat} {m : List sq_node_t} {Z : List Nat} :
    ∀ (Y : List Nat) (p : Nat) (s : sq_t) (fuel : Nat), s.mem = m → Shape s →
      tid < s.nthreads → l < s.maxLevel →
      Path m l p (Y ++ Z) t → (∀ y ∈ Y, y < m.length ∧ keyOf m y ≤ k) →
      Z.headD t < m.length → k < keyOf m (Z.headD t) → Y.length < fuel →
      ∃ s1, search_while fuel s k l tid p ((Y ++ Z).headD t) =
          .ok (some (Y.getLastD p, Z.headD t), s1) ∧
        SameQ s s1 ∧ s1.thread_ws = s.thread_ws ∧ Shape s1
  | [], p, s, fuel, hm, hs, ht, hl, hp, hY, hZ, hk, hf => by
    cases fuel with
    | zero => simp at hf
    | succ f =>
      obtain ⟨n, hn, hna⟩ := node_at_ok (s := s) (p := Z.headD t) (by rw [hm]; exact hZ)
      have hkey : keyOf m (Z.headD t) = n.key := by rw [← hm]; simp only [keyOf, hn]
      have hlt : ¬ k ≥ n.key := by rw [← hkey]; omega
      refine ⟨s, ?_, SameQ.reflQ s, rfl, hs⟩
      simp only [search_while, List.nil_append, hna, ok_bind, if_neg hlt]
      rfl
  | y :: Y, p, s, fuel, hm, hs, ht, hl, hp, hY, hZ, hk, hf => by
    cases fuel with
    | zero => simp at hf
    | succ f =>
      have hy := hY y (by simp)
      obtain ⟨n, hn, hna⟩ := node_at_ok (s := s) (p := y) (by rw [hm]; exact hy.1)
      have hkey : keyOf m y = n.key := by rw [← hm]; simp only [keyOf, hn]
      have hge : k ≥ n.key := by rw [← hkey]; exact hy.2
      obtain ⟨s1, e1, q1, w1, sh1⟩ := lptr_spec (some y) hs ht hl
      have hp2 : Path m l y (Y ++ Z) t := hp.2
      have hnx : nxt s1.mem y l = some (some ((Y ++ Z).headD t)) := by
        rw [q1.1, hm]; exact hp2.head
      obtain ⟨s2, e2, q2, w2, sh2⟩ := pptr_spec sh1 (by rw [q1.2.2.1]; exact ht) hnx
      have q12 := q1.transQ q2
      obtain ⟨s3, e3, q3, w3, sh3⟩ := search_while_spec Y y s2 f (by rw [q12.1]; exact hm) sh2
        (by rw [q12.2.2.1]; exact ht) (by rw [q12.2.1]; exact hl) hp2
        (fun z hz => hY z (List.mem_cons_of_mem _ hz)) hZ hk (by simpa using hf)
      refine ⟨s3, ?_, q12.transQ q3, by rw [w3, w2, w1], sh3⟩
      simp only [search_while, List.cons_append, List.headD_cons, hna, ok_bind, if_pos hge, e1, e2,
        List.getLastD_cons]
      exact e3

/-! ## The split of the elements at the key -/

theorem pre_append_post (m : List sq_node_t) (k : Int) (es : List Nat) :
    pre m k es ++ post m k es = es := by
  simp [pre, post, List.takeWhile_append_dropWhile]

theorem mem_pre_le {m : List sq_node_t} {k : Int} {es : List Nat} {y : Nat}
    (h : y ∈ pre m k es) : keyOf m y ≤ k := by
  have := List.mem_takeWhile_imp h
  simpa using this

theorem mem_post_gt {m : List sq_node_t} {k : Int} :
    ∀ {es : List Nat}, es.Pairwise (fun a b => keyOf m a ≤ keyOf m b) →
      ∀ y ∈ post m k es, k < keyOf m y
  | [], _, y, hy => by simp [post] at hy
  | x :: es, hs, y, hy => by
    rw [List.pairwise_cons] at hs
    by_cases hx : keyOf m x ≤ k
    · have e : post m k (x :: es) = post m k es := by simp [post, List.dropWhile, hx]
      rw [e] at hy
      exact mem_post_gt hs.2 y hy
    · have e : post m k (x :: es) = x :: es := by simp [post, List.dropWhile, hx]
      rw [e] at hy
      rcases List.mem_cons.1 hy with h | h
      · rw [h]; omega
      · have := hs.1 y h
        omega

theorem mem_pre_sub {m : List sq_node_t} {k : Int} {es : List Nat} {y : Nat}
    (h : y ∈ pre m k es) : y ∈ es :=
  (List.takeWhile_sublist _).subset h

theorem mem_post_sub {m : List sq_node_t} {k : Int} {es : List Nat} {y : Nat}
    (h : y ∈ post m k es) : y ∈ es :=
  (List.dropWhile_sublist _).subset h

theorem lvl_append (m : List sq_node_t) (l : Nat) (A B : List Nat) :
    lvl m l (A ++ B) = lvl m l A ++ lvl m l B := by
  simp [lvl]

theorem mem_lvl {m : List sq_node_t} {l : Nat} {xs : List Nat} {y : Nat} :
    y ∈ lvl m l xs ↔ y ∈ xs ∧ l ≤ topOf m y := by
  simp [lvl]

theorem lvl_split (m : List sq_node_t) (k : Int) (es : List Nat) (l : Nat) :
    lvl m l es = lvl m l (pre m k es) ++ lvl m l (post m k es) := by
  rw [← lvl_append, pre_append_post]

end Prioq

namespace Prioq

/-! ## The search -/

theorem succAt_facts {s : sq_t} {es : List Nat} {k : Int} (hH : Heap s es)
    (hk : k < keyOf s.mem 1) (l : Nat) :
    succAt s.mem k es l < s.mem.length ∧ k < keyOf s.mem (succAt s.mem k es l) := by
  unfold succAt
  rcases hZ : lvl s.mem l (post s.mem k es) with _ | ⟨z, Z⟩
  · simp only [List.headD_nil]
    refine ⟨?_, hk⟩
    exact hH.len
  · simp only [List.headD_cons]
    have hz : z ∈ lvl s.mem l (post s.mem k es) := by rw [hZ]; simp
    have hz2 := (mem_lvl.1 hz).1
    exact ⟨(hH.elems z (mem_post_sub hz2)).2.1, mem_post_gt hH.sorted z hz2⟩

theorem predAt_facts (m : List sq_node_t) (es : List Nat) (k : Int) (l : Nat) :
    predAt m k es l = 0 ∨ (predAt m k es l ∈ pre m k es ∧ l ≤ topOf m (predAt m k es l)) := by
  unfold predAt
  rcases getLastD_mem (lvl m l (pre m k es)) 0 with h | h
  · exact Or.inl h
  · exact Or.inr (mem_lvl.1 h)

theorem path_from_pred {s : sq_t} {es : List Nat} {k : Int} (hH : Heap s es) {l : Nat}
    (hl : l ≤ s.maxLevel) {pred : Nat}
    (hp : pred = 0 ∨ (pred ∈ pre s.mem k es ∧ l ≤ topOf s.mem pred)) :
    ∃ Y, Path s.mem l pred (Y ++ lvl s.mem l (post s.mem k es)) 1 ∧
      predAt s.mem k es l = Y.getLastD pred ∧ (∀ y ∈ Y, y ∈ pre s.mem k es) ∧
      Y.length ≤ es.length := by
  have hpath := hH.paths l hl
  rw [lvl_split s.mem k es l] at hpath
  have hlen : (lvl s.mem l (pre s.mem k es)).length ≤ es.length := by
    refine le_trans (List.length_filter_le _ _) ?_
    exact (List.takeWhile_sublist _).length_le
  by_cases h0 : pred = 0
  · subst h0
    exact ⟨lvl s.mem l (pre s.mem k es), hpath, rfl, fun y hy => (mem_lvl.1 hy).1, hlen⟩
  · have hmem : pred ∈ lvl s.mem l (pre s.mem k es) := by
      rcases hp with h | h
      · exact absurd h h0
      · exact mem_lvl.2 h
    obtain ⟨X, Y, hXY⟩ := List.append_of_mem hmem
    rw [hXY, List.append_assoc, List.cons_append] at hpath
    refine ⟨Y, ((Path.append X 0 pred _).1 hpath).2, ?_, ?_, ?_⟩
    · unfold predAt
      rw [hXY, getLastD_append_cons]
    · intro y hy
      have : y ∈ lvl s.mem l (pre s.mem k es) := by rw [hXY]; simp [hy]
      exact (mem_lvl.1 this).1
    · rw [hXY] at hlen
      simp at hlen
      omega

theorem search_levels_spec {s0 : sq_t} {es : List Nat} {k : Int} {tid fuel : Nat}
    (hH : Heap s0 es) (hk : k < keyOf s0.mem 1) (ht : tid < s0.nthreads) (hf : es.length < fuel) :
    ∀ (n : Nat) (s : sq_t) (pred : Nat), n ≤ s0.maxLevel → SameQ s0 s → Shape s →
      (pred = 0 ∨ (pred ∈ pre s0.mem k es ∧ n ≤ topOf s0.mem pred + 1)) →
      (∀ l, n ≤ l → l < s0.maxLevel →
        get_pred s tid l = .ok (some (predAt s0.mem k es l)) ∧
        get_succ s tid l = .ok (some (succAt s0.mem k es l))) →
      ∃ s1, search_levels fuel n s k tid pred (-1) = .ok (some (-1), s1) ∧ SameQ s0 s1 ∧ Shape s1 ∧
        (∀ l, l < s0.maxLevel →
          get_pred s1 tid l = .ok (some (predAt s0.mem k es l)) ∧
          get_succ s1 tid l = .ok (some (succAt s0.mem k es l)))
  | 0, s, pred, _, hq, hs, _, hdone => by
    refine ⟨s, by simp [search_levels], hq, hs, ?_⟩
    intro l hl
    exact hdone l (Nat.zero_le _) hl
  | n + 1, s, pred, hn, hq, hs, hp, hdone => by
    have hnM : n < s0.maxLevel := by omega
    have hp2 : pred = 0 ∨ (pred ∈ pre s0.mem k es ∧ n ≤ topOf s0.mem pred) := by
      rcases hp with h | h
      · exact Or.inl h
      · exact Or.inr ⟨h.1, by omega⟩
    obtain ⟨Y, hpath, hlast, hY, hYlen⟩ := path_from_pred hH (Nat.le_of_lt hnM) hp2
    have hts : tid < s.nthreads := by rw [hq.2.2.1]; exact ht
    have hls : n < s.maxLevel := by rw [hq.2.1]; exact hnM
    obtain ⟨s1, e1, q1, w1, sh1⟩ := pptr_spec (s := s) (p := pred) (l := n) hs hts
      (by rw [hq.1]; exact hpath.head)
    have hsucc := succAt_facts hH hk n
    obtain ⟨s2, e2, q2, w2, sh2⟩ := search_while_spec (k := k) (l := n) (t := 1)
      (m := s0.mem) (Z := lvl s0.mem n (post s0.mem k es)) Y pred s1 fuel
      (by rw [q1.1, hq.1]) sh1 (by rw [q1.2.2.1]; exact hts) (by rw [q1.2.1]; exact hls) hpath
      (fun y hy => ⟨(hH.elems y (mem_pre_sub (hY y hy))).2.1, mem_pre_le (hY y hy)⟩)
      hsucc.1 hsucc.2 (by omega)
    have q02 : SameQ s0 s2 := (hq.transQ q1).transQ q2
    have hc : (lvl s0.mem n (post s0.mem k es)).headD 1 = succAt s0.mem k es n := rfl
    rw [hc, ← hlast] at e2
    obtain ⟨c, hcm, hca⟩ := node_at_ok (s := s2) (p := succAt s0.mem k es n)
      (by rw [q02.1]; exact hsucc.1)
    have hcm0 := hcm
    rw [q02.1] at hcm0
    have hckey : keyOf s0.mem (succAt s0.mem k es n) = c.key := by
      simp only [keyOf, hcm0]
    have hne : ¬ (k = c.key ∧ True) := by
      intro h
      have := hsucc.2
      rw [hckey] at this
      omega
    have hts2 : tid < s2.nthreads := by rw [q02.2.2.1]; exact ht
    have hls2 : n < s2.maxLevel := by rw [q02.2.1]; exact hnM
    obtain ⟨s3, e3, q3, _, sh3, g3, go3, gs3⟩ :=
      set_pred_spec (s := s2) (i := n) (some (predAt s0.mem k es n)) sh2 hts2 hls2
    have hts3 : tid < s3.nthreads := by rw [q3.2.2.1]; exact hts2
    have hls3 : n < s3.maxLevel := by rw [q3.2.1]; exact hls2
    obtain ⟨s4, e4, q4, _, sh4, g4, go4, gp4⟩ :=
      set_succ_spec (s := s3) (i := n) (some (succAt s0.mem k es n)) sh3 hts3 hls3
    have q04 : SameQ s0 s4 := (q02.transQ q3).transQ q4
    have hws : ∀ j, get_pred s2 tid j = get_pred s tid j ∧ get_succ s2 tid j = get_succ s tid j := by
      intro j
      simp only [get_pred, get_succ, w2, w1]
      trivial
    have hrec := search_levels_spec hH hk ht hf n s4 (predAt s0.mem k es n) (Nat.le_of_lt hnM) q04 sh4
      (by
        rcases predAt_facts s0.mem es k n with h | h
        · exact Or.inl h
        · exact Or.inr ⟨h.1, by omega⟩)
      (by
        intro l hl hlM
        by_cases hln : l = n
        · subst hln
          exact ⟨by rw [gp4, g3], g4⟩
        · have hl2 : n + 1 ≤ l := by omega
          have := hdone l hl2 hlM
          refine ⟨?_, ?_⟩
          · rw [gp4, go3 l hln, (hws l).1]; exact this.1
          · rw [go4 l hln, gs3, (hws l).2]; exact this.2)
    obtain ⟨s5, e5, q5, sh5, g5⟩ := hrec
    refine ⟨s5, ?_, q5, sh5, g5⟩
    simp only [search_levels, e1, ok_bind, e2, hca, if_neg hne, e3, e4]
    exact e5

theorem sq_search_spec {s : sq_t} {es : List Nat} {k : Int} {tid fuel : Nat}
    (hH : Heap s es) (hs : Shape s) (hk : k < keyOf s.mem 1) (ht : tid < s.nthreads)
    (hf : es.length + 1 < fuel) :
    ∃ s1, sq_search fuel s k tid = .ok (-1, s1) ∧ SameQ s s1 ∧ Shape s1 ∧
      (∀ l, l < s.maxLevel →
        get_pred s1 tid l = .ok (some (predAt s.mem k es l)) ∧
        get_succ s1 tid l = .ok (some (succAt s.mem k es l))) := by
  cases fuel with
  | zero => omega
  | succ f =>
    obtain ⟨s1, e1, q1, sh1, g1⟩ := search_levels_spec hH hk ht (by omega : es.length < f)
      s.maxLevel s 0 (le_refl _) (SameQ.reflQ s) hs (Or.inl rfl)
      (fun l h1 h2 => absurd h1 (by omega))
    refine ⟨s1, ?_, q1, sh1, g1⟩
    simp only [sq_search, hH.head_eq, e1, ok_bind]

end Prioq

namespace Prioq

/-! ## Observations of the memory -/

theorem SameAux.reflA (s : sq_t) : SameAux s s := ⟨rfl, rfl, rfl, rfl, rfl, rfl⟩

theorem SameAux.transA {a b c : sq_t} (h1 : SameAux a b) (h2 : SameAux b c) : SameAux a c :=
  ⟨h2.1.trans h1.1, h2.2.1.trans h1.2.1, h2.2.2.1.trans h1.2.2.1, h2.2.2.2.1.trans h1.2.2.2.1,
    h2.2.2.2.2.1.trans h1.2.2.2.2.1, h2.2.2.2.2.2.trans h1.2.2.2.2.2⟩

theorem SameAux.put (s : sq_t) (p : Nat) (n : sq_node_t) : SameAux s (put_node s p n) :=
  ⟨rfl, rfl, rfl, rfl, rfl, rfl⟩

theorem SameAux.get_pred {s s1 : sq_t} (h : SameAux s s1) (tid i : Nat) :
    get_pred s1 tid i = get_pred s tid i := by
  simp only [Prioq.get_pred, h.1]

theorem SameAux.get_succ {s s1 : sq_t} (h : SameAux s s1) (tid i : Nat) :
    get_succ s1 tid i = get_succ s tid i := by
  simp only [Prioq.get_succ, h.1]

theorem SameAux.shape {s s1 : sq_t} (h : SameAux s s1) (hs : Shape s) : Shape s1 := by
  obtain ⟨a1, a2, a3, a4, _, _⟩ := h
  unfold Shape
  rw [a1, a2, a3, a4]
  exact hs

theorem SameData.reflD (m : List sq_node_t) : SameData m m := fun _ => ⟨rfl, fun _ => rfl⟩

theorem SameData.transD {a b c : List sq_node_t} (h1 : SameData a b) (h2 : SameData b c) :
    SameData a c := fun q =>
  ⟨(h2 q).1.trans (h1 q).1, fun l => ((h2 q).2 l).trans ((h1 q).2 l)⟩

theorem coreOf_some {m : List sq_node_t} {q : Nat} {n : sq_node_t} (h : m[q]? = some n) :
    coreOf m q = some (n.key, n.val, n.topLevel, n.marked, n.fullyLinked, n.nexts.length) := by
  simp [coreOf, h]

theorem coreOf_none {m : List sq_node_t} {q : Nat} (h : m.length ≤ q) : coreOf m q = none := by
  simp [coreOf, List.getElem?_eq_none h]

theorem coreOf_lt {m : List sq_node_t} {q : Nat} {c : Int × Int × Nat × Nat × Int × Nat}
    (h : coreOf m q = some c) : q < m.length := by
  by_contra hn
  rw [coreOf_none (by omega)] at h
  cases h

theorem obs_of_core {m : List sq_node_t} {q : Nat} {k v : Int} {t mk : Nat} {fl : Int} {len : Nat}
    (h : coreOf m q = some (k, v, t, mk, fl, len)) :
    keyOf m q = k ∧ valOf m q = v ∧ topOf m q = t ∧ markedOf m q = mk ∧ flOf m q = fl ∧
      towerLen m q = len := by
  unfold coreOf at h
  rcases hq : m[q]? with _ | n
  · rw [hq] at h; cases h
  · rw [hq] at h
    simp only [Option.map_some', Option.some.injEq, Prod.mk.injEq] at h
    simp only [keyOf, valOf, topOf, markedOf, flOf, towerLen, hq]
    exact h

theorem obs_eq_of_core {m m1 : List sq_node_t} {q : Nat} (h : coreOf m1 q = coreOf m q) :
    keyOf m1 q = keyOf m q ∧ valOf m1 q = valOf m q ∧ topOf m1 q = topOf m q ∧
      markedOf m1 q = markedOf m q ∧ flOf m1 q = flOf m q ∧ towerLen m1 q = towerLen m q ∧
      (q < m1.length ↔ q < m.length) := by
  unfold coreOf at h
  rcases hq : m[q]? with _ | n <;> rcases hq1 : m1[q]? with _ | n1
  · simp only [keyOf, valOf, topOf, markedOf, flOf, towerLen, hq, hq1, true_and]
    rw [List.getElem?_eq_none_iff] at hq hq1
    omega
  · rw [hq, hq1] at h; cases h
  · rw [hq, hq1] at h; cases h
  · rw [hq, hq1] at h
    simp only [Option.map_some', Option.some.injEq, Prod.mk.injEq] at h
    simp only [keyOf, valOf, topOf, markedOf, flOf, towerLen, hq, hq1]
    refine ⟨h.1, h.2.1, h.2.2.1, h.2.2.2.1, h.2.2.2.2.1, h.2.2.2.2.2, ?_⟩
    have a := (List.getElem?_eq_some_iff.1 hq).1
    have b := (List.getElem?_eq_some_iff.1 hq1).1
    exact ⟨fun _ => a, fun _ => b⟩

theorem core_put {s : sq_t} {p : Nat} {n : sq_node_t} (n1 : sq_node_t) (h : s.mem[p]? = some n)
    (q : Nat) :
    coreOf (put_node s p n1).mem q =
      if q = p then some (n1.key, n1.val, n1.topLevel, n1.marked, n1.fullyLinked, n1.nexts.length)
      else coreOf s.mem q := by
  have hlt : p < s.mem.length := (List.getElem?_eq_some_iff.1 h).1
  unfold coreOf
  rw [mem_put]
  by_cases hq : q = p
  · subst hq; simp [hlt]
  · simp [hq, Ne.symm hq]

theorem lock_put {s : sq_t} {p : Nat} {n : sq_node_t} (n1 : sq_node_t) (h : s.mem[p]? = some n)
    (q : Nat) :
    lockOf (put_node s p n1).mem q = if q = p then n1.lock else lockOf s.mem q := by
  have hlt : p < s.mem.length := (List.getElem?_eq_some_iff.1 h).1
  unfold lockOf
  rw [mem_put]
  by_cases hq : q = p
  · subst hq; simp [hlt]
  · simp [hq, Ne.symm hq]

theorem nxt_put {s : sq_t} {p : Nat} {n : sq_node_t} (n1 : sq_node_t) (h : s.mem[p]? = some n)
    (q : Nat) (l : Nat) :
    nxt (put_node s p n1).mem q l = if q = p then n1.nexts[l]? else nxt s.mem q l := by
  have hlt : p < s.mem.length := (List.getElem?_eq_some_iff.1 h).1
  unfold nxt
  rw [mem_put]
  by_cases hq : q = p
  · subst hq; simp [hlt]
  · simp [hq, Ne.symm hq]

theorem get_of_lt {m : List sq_node_t} {p : Nat} (h : p < m.length) : ∃ n, m[p]? = some n :=
  ⟨m[p], List.getElem?_eq_getElem h⟩

theorem lockOf_get {m : List sq_node_t} {p : Nat} {n : sq_node_t} (h : m[p]? = some n) :
    lockOf m p = n.lock := by simp [lockOf, h]

theorem markedOf_get {m : List sq_node_t} {p : Nat} {n : sq_node_t} (h : m[p]? = some n) :
    markedOf m p = n.marked := by simp [markedOf, h]

theorem towerLen_get {m : List sq_node_t} {p : Nat} {n : sq_node_t} (h : m[p]? = some n) :
    towerLen m p = n.nexts.length := by simp [towerLen, h]

theorem nxt_get {m : List sq_node_t} {p : Nat} {n : sq_node_t} (h : m[p]? = some n) (l : Nat) :
    nxt m p l = n.nexts[l]? := by simp [nxt, h]

/-- Taking a free lock changes the lock bit of that node only. -/
theorem lock_spec {s : sq_t} {p : Nat} (hp : p < s.mem.length) (hl : lockOf s.mem p = false) :
    ∃ s1, lock s p = .ok s1 ∧ SameAux s s1 ∧ SameData s.mem s1.mem ∧
      (∀ q, lockOf s1.mem q = if q = p then true else lockOf s.mem q) := by
  obtain ⟨n, hn⟩ := get_of_lt hp
  have hnl : n.lock = false := by rw [← lockOf_get hn]; exact hl
  refine ⟨put_node s p { n with lock := true }, by simp [lock, hn, hnl], SameAux.put _ _ _, ?_, ?_⟩
  · intro q
    refine ⟨?_, fun l => ?_⟩
    · rw [core_put _ hn]
      split
      · next h => rw [h, coreOf_some hn]
      · rfl
    · rw [nxt_put _ hn]
      split
      · next h => rw [h, nxt_get hn]
      · rfl
  · intro q
    rw [lock_put _ hn]

/-- Releasing a held lock changes the lock bit of that node only. -/
theorem unlock_spec {s : sq_t} {p : Nat} (hl : lockOf s.mem p = true) :
    ∃ s1, unlock s (some p) = .ok s1 ∧ SameAux s s1 ∧ SameData s.mem s1.mem ∧
      (∀ q, lockOf s1.mem q = if q = p then false else lockOf s.mem q) := by
  have hp : p < s.mem.length := by
    by_contra hn
    simp [lockOf, List.getElem?_eq_none (not_lt.1 hn)] at hl
  obtain ⟨n, hn⟩ := get_of_lt hp
  have hnl : n.lock = true := by rw [← lockOf_get hn]; exact hl
  refine ⟨put_node s p { n with lock := false }, by simp [unlock, hn, hnl], SameAux.put _ _ _, ?_, ?_⟩
  · intro q
    refine ⟨?_, fun l => ?_⟩
    · rw [core_put _ hn]
      split
      · next h => rw [h, coreOf_some hn]
      · rfl
    · rw [nxt_put _ hn]
      split
      · next h => rw [h, nxt_get hn]
      · rfl
  · intro q
    rw [lock_put _ hn]

/-- Writing a slot of a tower changes that slot only. -/
theorem set_next_spec {s : sq_t} {p : Nat} {l : Nat} (v : Option Nat) (hl : l < towerLen s.mem p) :
    ∃ s1, set_next s p l v = .ok s1 ∧ SameAux s s1 ∧ (∀ q, coreOf s1.mem q = coreOf s.mem q) ∧
      (∀ q, lockOf s1.mem q = lockOf s.mem q) ∧
      (∀ q j, nxt s1.mem q j = if q = p ∧ j = l then some v else nxt s.mem q j) := by
  have hp : p < s.mem.length := by
    by_contra hn
    simp [towerLen, List.getElem?_eq_none (not_lt.1 hn)] at hl
  obtain ⟨n, hn⟩ := get_of_lt hp
  rw [towerLen_get hn] at hl
  refine ⟨put_node s p { n with nexts := n.nexts.set l v }, by simp [set_next, hn, hl],
    SameAux.put _ _ _, ?_, ?_, ?_⟩
  · intro q
    rw [core_put _ hn]
    split
    · next h => rw [h, coreOf_some hn]; simp
    · rfl
  · intro q
    rw [lock_put _ hn]
    split
    · next h => rw [h, lockOf_get hn]
    · rfl
  · intro q j
    rw [nxt_put _ hn]
    by_cases hq : q = p
    · subst hq
      simp only [true_and, if_true, List.getElem?_set]
      by_cases hj : j = l
      · subst hj; simp [hl]
      · simp [hj, Ne.symm hj, nxt_get hn]
    · simp [hq]

end Prioq

namespace Prioq

/-! ## The predecessors of a search, level by level -/

theorem filter_getLastD_mono {p q : Nat → Bool} (hpq : ∀ y, q y = true → p y = true) (d d1 x : Nat) :
    ∀ (L : List Nat), (L.filter p).getLastD d = x → q x = true → x ∈ L →
      (L.filter q).getLastD d1 = x := by
  intro L
  induction L using List.reverseRecOn with
  | nil => intro _ _ h; simp at h
  | append_singleton L a ih =>
    intro h hq hx
    rw [List.filter_append] at h ⊢
    by_cases hpa : p a = true
    · have e : List.filter p [a] = [a] := by simp [hpa]
      rw [e, getLastD_append_cons] at h
      simp only [List.getLastD_nil] at h
      subst h
      have e2 : List.filter q [a] = [a] := by simp [hq]
      rw [e2, getLastD_append_cons]
      rfl
    · have hqa : ¬ q a = true := fun h => hpa (hpq a h)
      have e : List.filter p [a] = [] := by simp [hpa]
      have e2 : List.filter q [a] = [] := by simp [hqa]
      rw [e, List.append_nil] at h
      rw [e2, List.append_nil]
      have hxa : x ≠ a := by
        intro hh
        rw [hh] at hq
        exact hqa hq
      have hxL : x ∈ L := by
        rcases List.mem_append.1 hx with h1 | h1
        · exact h1
        · simp at h1
          exact absurd h1 hxa
      exact ih h hq hxL

/-- The predecessors found by a search are constant on runs of levels: a
predecessor that comes back at a higher level is the predecessor of every
level in between. -/
theorem predAt_run {m : List sq_node_t} {es : List Nat} {k : Int} (h0 : ∀ p ∈ es, 2 ≤ p)
    {i j : Nat} (hij : i < j) (he : predAt m k es i = predAt m k es j) :
    predAt m k es (j - 1) = predAt m k es j := by
  have hsub : ∀ {a b : Nat}, a ≤ b → ∀ y, decide (b ≤ topOf m y) = true → decide (a ≤ topOf m y) = true := by
    intro a b hab y hy
    simp only [decide_eq_true_eq] at hy ⊢
    omega
  have h0pre : (0 : Nat) ∉ pre m k es := fun h => by
    have := h0 0 (mem_pre_sub h)
    omega
  rcases predAt_facts m es k j with hj | hj
  · -- nothing at level `j` or above before the key
    rw [hj] at he
    have hi : lvl m i (pre m k es) = [] := by
      have hn : (0 : Nat) ∉ lvl m i (pre m k es) := fun h => h0pre (mem_lvl.1 h).1
      exact (getLastD_nil_iff _ 0 hn).1 he
    have hj1 : lvl m (j - 1) (pre m k es) = [] := by
      rw [List.eq_nil_iff_forall_not_mem]
      intro y hy
      have hy2 := mem_lvl.1 hy
      have : y ∈ lvl m i (pre m k es) := mem_lvl.2 ⟨hy2.1, by omega⟩
      rw [hi] at this
      simp at this
    rw [hj]
    simp [predAt, hj1]
  · have hx : (lvl m i (pre m k es)).getLastD 0 = predAt m k es j := he
    unfold lvl at hx
    have := filter_getLastD_mono (p := fun y => decide (i ≤ topOf m y))
      (q := fun y => decide (j - 1 ≤ topOf m y)) (hsub (by omega)) 0 0 (predAt m k es j)
      (pre m k es) hx (by simp only [decide_eq_true_eq]; omega) hj.1
    exact this

theorem path_last {m : List sq_node_t} {l : Nat} {t : Nat} :
    ∀ (A : List Nat) (p : Nat) (B : List Nat), Path m l p (A ++ B) t →
      nxt m (A.getLastD p) l = some (some (B.headD t))
  | [], p, B, h => by simpa using h.head
  | a :: A, p, B, h => by
    simp only [List.getLastD_cons]
    exact path_last A a B h.2

theorem pred_next {s : sq_t} {es : List Nat} {k : Int} (hH : Heap s es) {l : Nat}
    (hl : l ≤ s.maxLevel) :
    nxt s.mem (predAt s.mem k es l) l = some (some (succAt s.mem k es l)) := by
  have hpath := hH.paths l hl
  rw [lvl_split s.mem k es l] at hpath
  exact path_last _ 0 _ hpath

theorem predAt_lt {s : sq_t} {es : List Nat} {k : Int} (hH : Heap s es) (l : Nat) :
    predAt s.mem k es l < s.mem.length ∧ markedOf s.mem (predAt s.mem k es l) = 0 ∧
      l < towerLen s.mem (predAt s.mem k es l) + (if l ≤ s.maxLevel then 0 else l) := by
  rcases predAt_facts s.mem es k l with h | h
  · rw [h]
    refine ⟨by have := hH.len; omega, hH.hd_marked, ?_⟩
    rw [hH.hd_tower]
    split <;> omega
  · have := hH.elems _ (mem_pre_sub h.1)
    refine ⟨this.2.1, this.2.2.2.2.1, ?_⟩
    rw [this.2.2.1]
    split <;> omega

theorem succAt_marked {s : sq_t} {es : List Nat} {k : Int} (hH : Heap s es) (l : Nat) :
    markedOf s.mem (succAt s.mem k es l) = 0 := by
  unfold succAt
  rcases hZ : lvl s.mem l (post s.mem k es) with _ | ⟨z, Z⟩
  · exact hH.tl_marked
  · simp only [List.headD_cons]
    have hz : z ∈ lvl s.mem l (post s.mem k es) := by rw [hZ]; simp
    exact (hH.elems z (mem_post_sub (mem_lvl.1 hz).1)).2.2.2.2.1

end Prioq

namespace Prioq

/-! ## Locking the predecessors -/

theorem SameData.marked {m m1 : List sq_node_t} (h : SameData m m1) (q : Nat) :
    markedOf m1 q = markedOf m q := (obs_eq_of_core (h q).1).2.2.2.1

theorem SameData.lt {m m1 : List sq_node_t} (h : SameData m m1) {q : Nat} (hq : q < m.length) :
    q < m1.length := (obs_eq_of_core (h q).1).2.2.2.2.2.2.2 hq

theorem SameData.length {m m1 : List sq_node_t} (h : SameData m m1) : m1.length = m.length := by
  have a := (obs_eq_of_core (h m.length).1).2.2.2.2.2.2
  have b := (obs_eq_of_core (h m1.length).1).2.2.2.2.2.2
  omega

theorem add_lock_loop_spec {m : List sq_node_t} {P S : Nat → Nat} {t tid : Nat}
    (hP : ∀ l, l ≤ t → P l < m.length ∧ markedOf m (P l) = 0 ∧ nxt m (P l) l = some (some (S l)))
    (hS : ∀ l, l ≤ t → S l < m.length ∧ markedOf m (S l) = 0)
    (hrun : ∀ i j, i < j → j ≤ t → P i = P j → P (j - 1) = P j) :
    ∀ (n j : Nat) (s : sq_t) (prev : Option Nat) (hl : Int), n + j = t + 1 →
      (∀ l, l ≤ t → get_pred s tid l = .ok (some (P l)) ∧ get_succ s tid l = .ok (some (S l))) →
      SameData m s.mem →
      (∀ q, lockOf s.mem q = true ↔ ∃ i, i < j ∧ P i = q) →
      (prev = if j = 0 then none else some (P (j - 1))) →
      (j = 0 ∨ ∃ h : Nat, hl = (h : Int) ∧ h < j ∧ ∀ i, h ≤ i → i < j → P i = P h) →
      ∃ s1, ∃ h : Nat, add_lock_loop n s tid j prev hl = .ok ((true, (h : Int), some (P t)), s1) ∧
        SameAux s s1 ∧ SameData m s1.mem ∧
        (∀ q, lockOf s1.mem q = true ↔ ∃ i, i ≤ t ∧ P i = q) ∧
        h ≤ t ∧ ∀ i, h ≤ i → i ≤ t → P i = P h
  | 0, j, s, prev, hl, hnj, _, hd, hlk, hprev, hhl => by
    have hj : j = t + 1 := by omega
    subst hj
    rcases hhl with h | ⟨h, e, h1, h2⟩
    · omega
    · refine ⟨s, h, ?_, SameAux.reflA s, hd, ?_, by omega, fun i a b => h2 i a (by omega)⟩
      · simp [add_lock_loop, hprev, e]
      · intro q
        rw [hlk q]
        constructor
        · rintro ⟨i, a, b⟩; exact ⟨i, by omega, b⟩
        · rintro ⟨i, a, b⟩; exact ⟨i, by omega, b⟩
  | n + 1, j, s, prev, hl, hnj, hws, hd, hlk, hprev, hhl => by
    have hjt : j ≤ t := by omega
    obtain ⟨gp, gs⟩ := hws j hjt
    obtain ⟨hPlt, hPm, hPn⟩ := hP j hjt
    obtain ⟨hSlt, hSm⟩ := hS j hjt
    -- the locking step
    have hstep : ∃ s1, ∃ h1 : Nat, (if some (P j) ≠ prev then
          (lock s (P j) >>= fun s1 => Res.ok (s1, some (P j), (j : Int)))
        else Res.ok (s, prev, hl) : Res (sq_t × Option Nat × Int)) =
          .ok (s1, some (P j), (h1 : Int)) ∧ SameAux s s1 ∧ SameData m s1.mem ∧
        (∀ q, lockOf s1.mem q = true ↔ ∃ i, i < j + 1 ∧ P i = q) ∧
        h1 < j + 1 ∧ ∀ i, h1 ≤ i → i < j + 1 → P i = P h1 := by
      by_cases hc : some (P j) = prev
      · -- the predecessor is the one locked last
        have hj0 : j ≠ 0 := by
          intro h0
          rw [h0] at hprev
          simp only [if_true] at hprev
          rw [hprev] at hc
          cases hc
        rw [if_neg hj0] at hprev
        have hPeq : P (j - 1) = P j := by
          rw [hprev] at hc
          exact (Option.some.inj hc).symm
        rcases hhl with h | ⟨h, e, h1, h2⟩
        · exact absurd h hj0
        · refine ⟨s, h, ?_, SameAux.reflA s, hd, ?_, by omega, ?_⟩
          · rw [if_neg (not_not.2 hc), e, hc]
          · intro q
            rw [hlk q]
            constructor
            · rintro ⟨i, a, b⟩; exact ⟨i, by omega, b⟩
            · rintro ⟨i, a, b⟩
              by_cases hij : i = j
              · rw [hij] at b
                exact ⟨j - 1, by omega, by rw [hPeq]; exact b⟩
              · exact ⟨i, by omega, b⟩
          · intro i a b
            by_cases hij : i = j
            · rw [hij, ← hPeq]
              exact h2 (j - 1) (by omega) (by omega)
            · exact h2 i a (by omega)
      · -- a new predecessor: its lock is free
        have hfree : lockOf s.mem (P j) = false := by
          by_contra hcon
          have hlocked : lockOf s.mem (P j) = true := by simpa using hcon
          obtain ⟨i, a, b⟩ := (hlk (P j)).1 hlocked
          have hj0 : j ≠ 0 := by omega
          have := hrun i j a hjt b
          rw [if_neg hj0] at hprev
          rw [hprev, this] at hc
          exact hc rfl
        obtain ⟨s1, e1, a1, d1, l1⟩ := lock_spec (s := s) (p := P j) (hd.lt hPlt) hfree
        refine ⟨s1, j, ?_, a1, hd.transD d1, ?_, by omega, ?_⟩
        · rw [if_pos hc, e1]; rfl
        · intro q
          rw [l1 q]
          by_cases hq : q = P j
          · simp only [hq, if_true, true_iff]
            exact ⟨j, by omega, rfl⟩
          · simp only [hq, if_false]
            rw [hlk q]
            constructor
            · rintro ⟨i, a, b⟩; exact ⟨i, by omega, b⟩
            · rintro ⟨i, a, b⟩
              have : i ≠ j := fun h => hq (by rw [← b, h])
              exact ⟨i, by omega, b⟩
        · intro i a b
          have : i = j := by omega
          rw [this]
    obtain ⟨s1, h1, e1, a1, d1, l1, hh1, hh2⟩ := hstep
    obtain ⟨pn, hpn, epn⟩ := node_at_ok (s := s1) (p := P j) (d1.lt hPlt)
    obtain ⟨sn, hsn, esn⟩ := node_at_ok (s := s1) (p := S j) (d1.lt hSlt)
    have hpm : pn.marked = 0 := by rw [← markedOf_get hpn, d1.marked]; exact hPm
    have hsm : sn.marked = 0 := by rw [← markedOf_get hsn, d1.marked]; exact hSm
    have hnx : rd_next s1 (P j) j = .ok (some (S j)) := by
      simp only [rd_next, (d1 (P j)).2 j, hPn]
    obtain ⟨s2, h2, e2, a2, d2, l2, r1, r2⟩ := add_lock_loop_spec hP hS hrun n (j + 1) s1
      (some (P j)) (h1 : Int) (by omega)
      (fun l hl => by rw [a1.get_pred, a1.get_succ]; exact hws l hl) d1 l1 (by simp)
      (Or.inr ⟨h1, rfl, hh1, hh2⟩)
    refine ⟨s2, h2, ?_, a1.transA a2, d2, l2, r1, r2⟩
    simp only [add_lock_loop, gp, gs, ok_bind]
    rw [e1]
    simp only [ok_bind, epn, esn, hpm, hsm, hnx, ne_eq, not_true_eq_false, if_false, decide_True,
      if_true]
    exact e2

end Prioq

namespace Prioq

/-! ## Releasing the predecessors -/

theorem unlock_preds_loop_spec {P : Nat → Nat} {t h tid : Nat} (hht : h ≤ t)
    (hrun : ∀ i j, i < j → j ≤ t → P i = P j → P (j - 1) = P j)
    (hbeyond : ∀ i, h ≤ i → i ≤ t → P i = P h) :
    ∀ (n i : Nat) (s : sq_t) (prev : Option Nat), n + i = h + 1 →
      (∀ l, l ≤ t → get_pred s tid l = .ok (some (P l))) →
      (∀ q, lockOf s.mem q = true ↔ (∃ k, i ≤ k ∧ k ≤ t ∧ P k = q) ∧ ∀ k, k < i → P k ≠ q) →
      (prev = if i = 0 then none else some (P (i - 1))) →
      ∃ s1, unlock_preds_loop n s tid i prev = .ok s1 ∧ SameAux s s1 ∧ SameData s.mem s1.mem ∧
        ∀ q, lockOf s1.mem q = false
  | 0, i, s, prev, hni, _, hlk, _ => by
    refine ⟨s, by simp [unlock_preds_loop], SameAux.reflA s, SameData.reflD _, ?_⟩
    intro q
    by_contra hcon
    have hlocked : lockOf s.mem q = true := by simpa using hcon
    obtain ⟨⟨k, a, b, c⟩, d⟩ := (hlk q).1 hlocked
    have := hbeyond k (by omega) b
    exact d h (by omega) (by rw [← this]; exact c)
  | n + 1, i, s, prev, hni, hws, hlk, hprev => by
    have hit : i ≤ t := by omega
    have gp := hws i hit
    have hstep : ∃ s1, (∀ f : sq_t → Res sq_t,
          (if some (P i) ≠ prev then unlock s (some (P i)) >>= f else f s) = f s1) ∧
        SameAux s s1 ∧ SameData s.mem s1.mem ∧
        (∀ q, lockOf s1.mem q = true ↔
          (∃ k, i + 1 ≤ k ∧ k ≤ t ∧ P k = q) ∧ ∀ k, k < i + 1 → P k ≠ q) := by
      by_cases hc : some (P i) = prev
      · have hi0 : i ≠ 0 := by
          intro h0
          rw [h0] at hprev
          simp only [if_true] at hprev
          rw [hprev] at hc
          cases hc
        rw [if_neg hi0] at hprev
        have hPeq : P (i - 1) = P i := by
          rw [hprev] at hc
          exact (Option.some.inj hc).symm
        refine ⟨s, fun f => by rw [if_neg (not_not.2 hc)], SameAux.reflA s, SameData.reflD _, ?_⟩
        intro q
        rw [hlk q]
        constructor
        · rintro ⟨⟨k, a, b, c⟩, d⟩
          have hqi : P i ≠ q := fun hh => d (i - 1) (by omega) (by rw [hPeq]; exact hh)
          refine ⟨⟨k, ?_, b, c⟩, ?_⟩
          · by_contra hk
            have : k = i := by omega
            rw [this] at c
            exact hqi c
          · intro k1 hk1
            by_cases hki : k1 = i
            · rw [hki]; exact hqi
            · exact d k1 (by omega)
        · rintro ⟨⟨k, a, b, c⟩, d⟩
          exact ⟨⟨k, by omega, b, c⟩, fun k1 hk1 => d k1 (by omega)⟩
      · have hheld : lockOf s.mem (P i) = true := by
          rw [hlk]
          refine ⟨⟨i, le_refl _, hit, rfl⟩, ?_⟩
          intro k hk hkeq
          have hi0 : i ≠ 0 := by omega
          have := hrun k i hk hit hkeq
          rw [if_neg hi0] at hprev
          rw [hprev, this] at hc
          exact hc rfl
        obtain ⟨s1, e1, a1, d1, l1⟩ := unlock_spec (s := s) (p := P i) hheld
        refine ⟨s1, fun f => by rw [if_pos hc, e1]; rfl, a1, d1, ?_⟩
        intro q
        rw [l1 q]
        by_cases hq : q = P i
        · simp only [hq, if_true]
          constructor
          · intro hh; cases hh
          · rintro ⟨_, d⟩
            exact absurd rfl (d i (by omega))
        · simp only [hq, if_false]
          rw [hlk q]
          constructor
          · rintro ⟨⟨k, a, b, c⟩, d⟩
            refine ⟨⟨k, ?_, b, c⟩, ?_⟩
            · by_contra hk
              have : k = i := by omega
              rw [this] at c
              exact hq c.symm
            · intro k1 hk1
              by_cases hki : k1 = i
              · rw [hki]; exact fun hh => hq hh.symm
              · exact d k1 (by omega)
          · rintro ⟨⟨k, a, b, c⟩, d⟩
            exact ⟨⟨k, by omega, b, c⟩, fun k1 hk1 => d k1 (by omega)⟩
    obtain ⟨s1, e1, a1, d1, l1⟩ := hstep
    obtain ⟨s2, e2, a2, d2, l2⟩ := unlock_preds_loop_spec hht hrun hbeyond n (i + 1) s1 (some (P i))
      (by omega) (fun l hl => by rw [a1.get_pred]; exact hws l hl) l1 (by simp)
    refine ⟨s2, ?_, a1.transA a2, d1.transD d2, l2⟩
    simp only [unlock_preds_loop, gp, ok_bind]
    exact (e1 (fun y => unlock_preds_loop n y tid (i + 1) (some (P i)))).trans e2

theorem unlock_preds_spec {P : Nat → Nat} {t h tid : Nat} {s : sq_t} (hht : h ≤ t)
    (hrun : ∀ i j, i < j → j ≤ t → P i = P j → P (j - 1) = P j)
    (hbeyond : ∀ i, h ≤ i → i ≤ t → P i = P h)
    (hws : ∀ l, l ≤ t → get_pred s tid l = .ok (some (P l)))
    (hlk : ∀ q, lockOf s.mem q = true ↔ ∃ i, i ≤ t ∧ P i = q) :
    ∃ s1, unlock_preds s tid (h : Int) = .ok s1 ∧ SameAux s s1 ∧ SameData s.mem s1.mem ∧
      ∀ q, lockOf s1.mem q = false := by
  have e : ((h : Int) + 1).toNat = h + 1 := by
    have : ((h : Int) + 1) = ((h + 1 : Nat) : Int) := by push_cast; rfl
    rw [this, Int.toNat_natCast]
  unfold unlock_preds
  rw [e]
  refine unlock_preds_loop_spec hht hrun hbeyond (h + 1) 0 s none (by omega) hws ?_ (by simp)
  intro q
  rw [hlk q]
  constructor
  · rintro ⟨i, a, b⟩; exact ⟨⟨i, Nat.zero_le _, a, b⟩, fun k hk => absurd hk (by omega)⟩
  · rintro ⟨⟨k, _, b, c⟩, _⟩; exact ⟨k, b, c⟩

/-! ## Linking the new node -/

theorem add_assert_loop_spec {P S : Nat → Nat} {t tid : Nat} {s : sq_t}
    (hws : ∀ l, l ≤ t → get_pred s tid l = .ok (some (P l)) ∧ get_succ s tid l = .ok (some (S l)))
    (hnx : ∀ l, l ≤ t → nxt s.mem (P l) l = some (some (S l))) :
    ∀ (n j : Nat), n + j = t + 1 → add_assert_loop n s tid j = .ok ()
  | 0, j, _ => by simp [add_assert_loop]
  | n + 1, j, hnj => by
    have hjt : j ≤ t := by omega
    simp only [add_assert_loop, (hws j hjt).1, (hws j hjt).2, ok_bind, rd_next, hnx j hjt, if_true]
    exact add_assert_loop_spec hws hnx n (j + 1) (by omega)

theorem add_link_loop_spec {P S : Nat → Nat} {t tid nw : Nat} (hne : ∀ l, l ≤ t → P l ≠ nw) :
    ∀ (n j : Nat) (s : sq_t), n + j = t + 1 →
      (∀ l, l ≤ t → get_pred s tid l = .ok (some (P l)) ∧ get_succ s tid l = .ok (some (S l))) →
      (∀ l, l ≤ t → l < towerLen s.mem (P l)) → t < towerLen s.mem nw →
      ∃ s1, add_link_loop n s tid j nw = .ok s1 ∧ SameAux s s1 ∧
        (∀ q, coreOf s1.mem q = coreOf s.mem q) ∧ (∀ q, lockOf s1.mem q = lockOf s.mem q) ∧
        (∀ q l, nxt s1.mem q l =
          if j ≤ l ∧ l ≤ t then
            (if q = nw then some (some (S l)) else if q = P l then some (some nw) else nxt s.mem q l)
          else nxt s.mem q l)
  | 0, j, s, hnj, _, _, _ => by
    refine ⟨s, by simp [add_link_loop], SameAux.reflA s, fun _ => rfl, fun _ => rfl, ?_⟩
    intro q l
    have : ¬ (j ≤ l ∧ l ≤ t) := by omega
    rw [if_neg this]
  | n + 1, j, s, hnj, hws, hP, hnw => by
    have hjt : j ≤ t := by omega
    obtain ⟨gp, gs⟩ := hws j hjt
    obtain ⟨s1, e1, a1, c1, l1, n1⟩ := set_next_spec (s := s) (p := nw) (l := j) (some (S j))
      (by omega)
    have hP1 : j < towerLen s1.mem (P j) := by
      rw [(obs_eq_of_core (c1 (P j))).2.2.2.2.2.1]; exact hP j hjt
    obtain ⟨s2, e2, a2, c2, l2, n2⟩ := set_next_spec (s := s1) (p := P j) (l := j) (some nw) hP1
    have a12 := a1.transA a2
    have c12 : ∀ q, coreOf s2.mem q = coreOf s.mem q := fun q => (c2 q).trans (c1 q)
    obtain ⟨s3, e3, a3, c3, l3, n3⟩ := add_link_loop_spec hne n (j + 1) s2 (by omega)
      (fun l hl => by rw [a12.get_pred, a12.get_succ]; exact hws l hl)
      (fun l hl => by rw [(obs_eq_of_core (c12 (P l))).2.2.2.2.2.1]; exact hP l hl)
      (by rw [(obs_eq_of_core (c12 nw)).2.2.2.2.2.1]; exact hnw)
    refine ⟨s3, ?_, a12.transA a3, fun q => (c3 q).trans (c12 q),
      fun q => ((l3 q).trans (l2 q)).trans (l1 q), ?_⟩
    · simp only [add_link_loop, gs, ok_bind, e1, a1.get_pred, gp, e2]
      exact e3
    · intro q l
      rw [n3 q l, n2 q l, n1 q l]
      by_cases hlj : l = j
      · subst hlj
        have h1 : ¬ (l + 1 ≤ l ∧ l ≤ t) := by omega
        have h2 : l ≤ l ∧ l ≤ t := ⟨le_refl _, hjt⟩
        rw [if_neg h1, if_pos h2]
        by_cases hq : q = nw
        · have : ¬ (q = P l) := fun h => hne l hjt (by rw [← h, hq])
          simp [hq, this, (hne l hjt).symm]
        · simp [hq]
      · by_cases hl1 : j + 1 ≤ l ∧ l ≤ t
        · have h2 : j ≤ l ∧ l ≤ t := ⟨by omega, hl1.2⟩
          rw [if_pos hl1, if_pos h2]
          simp [hlj]
        · have h2 : ¬ (j ≤ l ∧ l ≤ t) := by omega
          rw [if_neg hl1, if_neg h2]
          simp [hlj]

end Prioq

namespace Prioq

/-! ## The skiplist after an insertion -/

theorem Path.take {m : List sq_node_t} {l : Nat} {t : Nat} :
    ∀ (A : List Nat) (p : Nat) (B : List Nat), Path m l p (A ++ B) t → Path m l p A (B.headD t)
  | [], p, B, h => by
    simp only [Path]
    simpa using h.head
  | a :: A, p, B, h => by
    simp only [List.cons_append, Path] at h ⊢
    exact ⟨h.1, Path.take A a B h.2⟩

theorem Path.drop {m : List sq_node_t} {l : Nat} {t : Nat} (A : List Nat) (p b : Nat)
    (B : List Nat) (h : Path m l p (A ++ b :: B) t) : Path m l b B t :=
  ((Path.append A p b B).1 h).2

theorem Path.set_last {m m1 : List sq_node_t} {l : Nat} {c c1 : Nat} :
    ∀ (A : List Nat) (p : Nat), Path m l p A c →
      (∀ q ∈ p :: A, nxt m1 q l = if q = A.getLastD p then some (some c1) else nxt m q l) →
      (p :: A).Nodup → Path m1 l p A c1
  | [], p, _, h, _ => by
    simp only [Path]
    have := h p (by simp)
    simpa using this
  | a :: A, p, hp, h, hn => by
    simp only [Path] at hp ⊢
    have hpne : p ≠ (a :: A).getLastD p := by
      simp only [List.getLastD_cons]
      intro e
      rw [List.nodup_cons] at hn
      rcases getLastD_mem A a with h1 | h1
      · rw [h1] at e; exact hn.1 (by simp [e])
      · rw [← e] at h1; exact hn.1 (List.mem_cons_of_mem _ h1)
    refine ⟨?_, Path.set_last A a hp.2 ?_ (List.nodup_cons.1 hn).2⟩
    · rw [h p (by simp), if_neg hpne]; exact hp.1
    · intro q hq
      have := h q (List.mem_cons_of_mem _ hq)
      simpa only [List.getLastD_cons] using this

theorem pre_post_disjoint {m : List sq_node_t} {k : Int} {es : List Nat} (hn : es.Nodup)
    {a b : Nat} (ha : a ∈ pre m k es) (hb : b ∈ post m k es) : a ≠ b := by
  rw [← pre_append_post m k es] at hn
  intro e
  rw [← e] at hb
  exact (List.nodup_append.1 hn).2.2 ha hb

theorem lvl_congr {m m1 : List sq_node_t} {l : Nat} {xs : List Nat}
    (h : ∀ q ∈ xs, topOf m1 q = topOf m q) : lvl m1 l xs = lvl m l xs := by
  unfold lvl
  apply List.filter_congr
  intro q hq
  rw [h q hq]

theorem Inserted.obsI {m m1 : List sq_node_t} {k v : Int} {t : Nat} {P S : Nat → Nat}
    (h : Inserted m m1 k v t P S) {q : Nat} (hq : q < m.length) :
    keyOf m1 q = keyOf m q ∧ valOf m1 q = valOf m q ∧ topOf m1 q = topOf m q ∧
      markedOf m1 q = markedOf m q ∧ flOf m1 q = flOf m q ∧ towerLen m1 q = towerLen m q ∧
      (q < m1.length ↔ q < m.length) :=
  obs_eq_of_core (h.old q hq)

theorem heap_insert {s s1 : sq_t} {es : List Nat} {k v : Int} {t : Nat} (hH : Heap s es)
    (hI : Inserted s.mem s1.mem k v t (predAt s.mem k es) (succAt s.mem k es))
    (hM : s1.maxLevel = s.maxLevel) (hh : s1.head = s.head) (htl : s1.tail = s.tail)
    (ht : t < s.maxLevel) (hk : k < keyOf s.mem 1) :
    Heap s1 (pre s.mem k es ++ s.mem.length :: post s.mem k es) := by
  have hlen := hH.len
  have hnew := obs_of_core hI.new
  have hes : ∀ p ∈ es, p < s.mem.length := fun p hp => (hH.elems p hp).2.1
  have hes2 : ∀ p ∈ es, 2 ≤ p := fun p hp => (hH.elems p hp).1
  have hnw : s.mem.length ∉ es := fun h => by have := hes _ h; omega
  have hpre : ∀ p ∈ pre s.mem k es, p ∈ es := fun p hp => mem_pre_sub hp
  have hpost : ∀ p ∈ post s.mem k es, p ∈ es := fun p hp => mem_post_sub hp
  have hmem : ∀ p, p ∈ pre s.mem k es ++ s.mem.length :: post s.mem k es →
      p ∈ es ∨ p = s.mem.length := by
    intro p hp
    rcases List.mem_append.1 hp with h | h
    · exact Or.inl (hpre p h)
    · rcases List.mem_cons.1 h with h | h
      · exact Or.inr h
      · exact Or.inl (hpost p h)
  have hPfacts : ∀ l, predAt s.mem k es l = 0 ∨ predAt s.mem k es l ∈ es := by
    intro l
    rcases predAt_facts s.mem es k l with h | h
    · exact Or.inl h
    · exact Or.inr (hpre _ h.1)
  have hPne : ∀ l, predAt s.mem k es l ≠ s.mem.length := by
    intro l
    rcases hPfacts l with h | h
    · rw [h]; omega
    · have := hes _ h; omega
  have hPne1 : ∀ l, predAt s.mem k es l ≠ 1 := by
    intro l
    rcases hPfacts l with h | h
    · rw [h]; omega
    · have := hes2 _ h; omega
  -- the levels of the new list
  have hlvl : ∀ l, lvl s1.mem l (pre s.mem k es ++ s.mem.length :: post s.mem k es) =
      lvl s.mem l (pre s.mem k es) ++
        ((if l ≤ t then [s.mem.length] else []) ++ lvl s.mem l (post s.mem k es)) := by
    intro l
    rw [lvl_append]
    have e1 : lvl s1.mem l (pre s.mem k es) = lvl s.mem l (pre s.mem k es) :=
      lvl_congr (fun q hq => (hI.obsI (hes q (hpre q hq))).2.2.1)
    have e2 : lvl s1.mem l (post s.mem k es) = lvl s.mem l (post s.mem k es) :=
      lvl_congr (fun q hq => (hI.obsI (hes q (hpost q hq))).2.2.1)
    have e3 : lvl s1.mem l (s.mem.length :: post s.mem k es) =
        (if l ≤ t then [s.mem.length] else []) ++ lvl s1.mem l (post s.mem k es) := by
      unfold lvl
      rw [List.filter_cons, hnew.2.2.1]
      by_cases hlt : l ≤ t
      · simp [hlt]
      · simp [hlt]
    rw [e1, e3, e2]
  refine
    { head_eq := hh.trans hH.head_eq, tail_eq := htl.trans hH.tail_eq, len := by rw [hI.len]; omega,
      hd_tower := ?_, hd_top := ?_, hd_marked := ?_, hd_fl := ?_, tl_top := ?_, tl_marked := ?_,
      tl_fl := ?_, tl_next := ?_, nodup := ?_, elems := ?_, sorted := ?_, paths := ?_ }
  · rw [(hI.obsI (q := 0) (by omega)).2.2.2.2.2.1, hM]; exact hH.hd_tower
  · rw [(hI.obsI (q := 0) (by omega)).2.2.1, hM]; exact hH.hd_top
  · rw [(hI.obsI (q := 0) (by omega)).2.2.2.1]; exact hH.hd_marked
  · rw [(hI.obsI (q := 0) (by omega)).2.2.2.2.1]; exact hH.hd_fl
  · rw [(hI.obsI (q := 1) (by omega)).2.2.1, hM]; exact hH.tl_top
  · rw [(hI.obsI (q := 1) (by omega)).2.2.2.1]; exact hH.tl_marked
  · rw [(hI.obsI (q := 1) (by omega)).2.2.2.2.1]; exact hH.tl_fl
  · intro l hl
    rw [hM] at hl
    rw [hI.nx]
    have h1 : ¬ (1 = s.mem.length) := by omega
    have h2 : ¬ (1 = predAt s.mem k es l) := fun h => hPne1 l h.symm
    simp only [h1, h2, if_false, ite_self]
    exact hH.tl_next l hl
  · rw [List.nodup_middle, List.nodup_cons, pre_append_post]
    exact ⟨hnw, hH.nodup⟩
  · intro p hp
    rcases hmem p hp with h | h
    · have he := hH.elems p h
      have ho := hI.obsI he.2.1
      rw [ho.2.2.2.2.2.1, ho.2.2.1, ho.2.2.2.1, ho.2.2.2.2.1, ho.1,
        (hI.obsI (q := 1) (by omega)).1, hM, hI.len]
      exact ⟨he.1, by omega, he.2.2.1, he.2.2.2.1, he.2.2.2.2.1, he.2.2.2.2.2.1, he.2.2.2.2.2.2⟩
    · rw [h, hnew.2.2.2.2.2, hnew.2.2.1, hnew.2.2.2.1, hnew.2.2.2.2.1, hnew.1,
        (hI.obsI (q := 1) (by omega)).1, hM, hI.len]
      exact ⟨hlen, by omega, rfl, ht, rfl, rfl, hk⟩
  · have hsub1 : (pre s.mem k es).Pairwise (fun a b => keyOf s.mem a ≤ keyOf s.mem b) :=
      hH.sorted.sublist (List.takeWhile_sublist _)
    have hsub2 : (post s.mem k es).Pairwise (fun a b => keyOf s.mem a ≤ keyOf s.mem b) :=
      hH.sorted.sublist (List.dropWhile_sublist _)
    have hkey : ∀ p ∈ es, keyOf s1.mem p = keyOf s.mem p := fun p hp => (hI.obsI (hes p hp)).1
    rw [List.pairwise_append]
    refine ⟨?_, ?_, ?_⟩
    · refine hsub1.imp_of_mem ?_
      intro a b ha hb hab
      rw [hkey a (hpre a ha), hkey b (hpre b hb)]; exact hab
    · rw [List.pairwise_cons]
      refine ⟨?_, ?_⟩
      · intro b hb
        rw [hnew.1, hkey b (hpost b hb)]
        exact le_of_lt (mem_post_gt hH.sorted b hb)
      · refine hsub2.imp_of_mem ?_
        intro a b ha hb hab
        rw [hkey a (hpost a ha), hkey b (hpost b hb)]; exact hab
    · intro a ha b hb
      rw [hkey a (hpre a ha)]
      have hale := mem_pre_le ha
      rcases List.mem_cons.1 hb with h | h
      · rw [h, hnew.1]; exact hale
      · rw [hkey b (hpost b h)]
        exact le_trans hale (le_of_lt (mem_post_gt hH.sorted b h))
  · intro l hl
    rw [hM] at hl
    rw [hlvl l]
    have hold := hH.paths l hl
    rw [lvl_split s.mem k es l] at hold
    have hAmem : ∀ q ∈ lvl s.mem l (pre s.mem k es), q ∈ pre s.mem k es :=
      fun q hq => (mem_lvl.1 hq).1
    have hBmem : ∀ q ∈ lvl s.mem l (post s.mem k es), q ∈ post s.mem k es :=
      fun q hq => (mem_lvl.1 hq).1
    by_cases hlt : l ≤ t
    · simp only [hlt, if_true, List.singleton_append]
      rw [Path.append]
      constructor
      · -- from the head to the new node
        have h1 := Path.take _ 0 _ hold
        refine Path.set_last _ 0 h1 ?_ ?_
        · intro q hq
          rw [hI.nx, if_pos hlt]
          have hqne : q ≠ s.mem.length := by
            rcases List.mem_cons.1 hq with h | h
            · rw [h]; omega
            · have := hes q (hpre q (hAmem q h)); omega
          rw [if_neg hqne]
          rfl
        · rw [List.nodup_cons]
          refine ⟨fun h => ?_, (hH.nodup.sublist (List.takeWhile_sublist _)).filter _⟩
          have := hes2 0 (hpre 0 (hAmem 0 h))
          omega
      · -- from the new node to the tail
        have hB : ∀ q ∈ lvl s.mem l (post s.mem k es),
            nxt s1.mem q l = nxt s.mem q l := by
          intro q hq
          rw [hI.nx, if_pos hlt]
          have hqne : q ≠ s.mem.length := by
            have := hes q (hpost q (hBmem q hq)); omega
          have hqp : q ≠ predAt s.mem k es l := by
            intro e
            rcases predAt_facts s.mem es k l with h | h
            · have := hes2 q (hpost q (hBmem q hq))
              rw [e, h] at this
              omega
            · exact pre_post_disjoint hH.nodup h.1 (hBmem q hq) e.symm
          rw [if_neg hqne, if_neg hqp]
        have hS : nxt s1.mem s.mem.length l =
            some (some ((lvl s.mem l (post s.mem k es)).headD 1)) := by
          rw [hI.nx, if_pos hlt, if_pos rfl]
          rfl
        rcases hBl : lvl s.mem l (post s.mem k es) with _ | ⟨b, B⟩
        · rw [hBl] at hS
          simpa [Path] using hS
        · rw [hBl] at hS hold hB
          simp only [Path]
          refine ⟨by simpa using hS, Path.congr B b hB (Path.drop _ 0 b B hold)⟩
    · simp only [hlt, if_false, List.nil_append]
      refine Path.congr _ 0 ?_ hold
      intro q hq
      rw [hI.nx, if_neg hlt]
      have hqne : q ≠ s.mem.length := by
        rcases List.mem_cons.1 hq with h | h
        · rw [h]; omega
        · rcases List.mem_append.1 h with h | h
          · have := hes q (hpre q (hAmem q h)); omega
          · have := hes q (hpost q (hBmem q h)); omega
      rw [if_neg hqne]

end Prioq

namespace Prioq

/-! ## Allocation, and the last steps of an insertion -/

theorem get_append_one (m : List sq_node_t) (n : sq_node_t) (q : Nat) :
    (m ++ [n])[q]? = if q = m.length then some n else m[q]? := by
  by_cases h : q = m.length
  · subst h; simp
  · rw [if_neg h]
    by_cases h2 : q < m.length
    · rw [List.getElem?_append_left h2]
    · have h3 : m.length < q := by omega
      rw [List.getElem?_eq_none (by simp; omega), List.getElem?_eq_none (by omega)]

theorem core_append (m : List sq_node_t) (n : sq_node_t) (q : Nat) :
    coreOf (m ++ [n]) q =
      if q = m.length then some (n.key, n.val, n.topLevel, n.marked, n.fullyLinked, n.nexts.length)
      else coreOf m q := by
  unfold coreOf
  rw [get_append_one]
  by_cases h : q = m.length
  · simp [h]
  · simp [h]

theorem lock_append (m : List sq_node_t) (n : sq_node_t) (q : Nat) :
    lockOf (m ++ [n]) q = if q = m.length then n.lock else lockOf m q := by
  unfold lockOf
  rw [get_append_one]
  by_cases h : q = m.length
  · simp [h]
  · simp [h]

theorem nxt_append (m : List sq_node_t) (n : sq_node_t) (q l : Nat) :
    nxt (m ++ [n]) q l = if q = m.length then n.nexts[l]? else nxt m q l := by
  unfold nxt
  rw [get_append_one]
  by_cases h : q = m.length
  · simp [h]
  · simp [h]

theorem core_length {m m1 : List sq_node_t} (h : ∀ q, coreOf m1 q = coreOf m q) :
    m1.length = m.length := by
  have a := (obs_eq_of_core (h m.length)).2.2.2.2.2.2
  have b := (obs_eq_of_core (h m1.length)).2.2.2.2.2.2
  omega

theorem set_fullyLinked_spec {s : sq_t} {p : Nat} (v : Int) (hp : p < s.mem.length) :
    ∃ s1 n, s.mem[p]? = some n ∧ set_fullyLinked s p v = .ok s1 ∧ SameAux s s1 ∧
      s1.mem.length = s.mem.length ∧
      (∀ q, coreOf s1.mem q =
        if q = p then some (n.key, n.val, n.topLevel, n.marked, v, n.nexts.length)
        else coreOf s.mem q) ∧
      (∀ q, lockOf s1.mem q = lockOf s.mem q) ∧ (∀ q l, nxt s1.mem q l = nxt s.mem q l) := by
  obtain ⟨n, hn⟩ := get_of_lt hp
  refine ⟨put_node s p { n with fullyLinked := v }, n, hn, by simp [set_fullyLinked, hn],
    SameAux.put _ _ _, put_length _ _ _, ?_, ?_, ?_⟩
  · intro q
    rw [core_put _ hn]
  · intro q
    rw [lock_put _ hn]
    split
    · next h => rw [h, lockOf_get hn]
    · rfl
  · intro q l
    rw [nxt_put _ hn]
    split
    · next h => rw [h, nxt_get hn]
    · rfl

theorem set_marked_spec {s : sq_t} {p : Nat} (v : Nat) (hp : p < s.mem.length) :
    ∃ s1 n, s.mem[p]? = some n ∧ set_marked s p v = .ok s1 ∧ SameAux s s1 ∧
      s1.mem.length = s.mem.length ∧
      (∀ q, coreOf s1.mem q =
        if q = p then some (n.key, n.val, n.topLevel, v, n.fullyLinked, n.nexts.length)
        else coreOf s.mem q) ∧
      (∀ q, lockOf s1.mem q = lockOf s.mem q) ∧ (∀ q l, nxt s1.mem q l = nxt s.mem q l) := by
  obtain ⟨n, hn⟩ := get_of_lt hp
  refine ⟨put_node s p { n with marked := v }, n, hn, by simp [set_marked, hn],
    SameAux.put _ _ _, put_length _ _ _, ?_, ?_, ?_⟩
  · intro q
    rw [core_put _ hn]
  · intro q
    rw [lock_put _ hn]
    split
    · next h => rw [h, lockOf_get hn]
    · rfl
  · intro q l
    rw [nxt_put _ hn]
    split
    · next h => rw [h, nxt_get hn]
    · rfl

theorem clean_ptrs_loop_spec {tid : Nat} :
    ∀ (n i : Nat) (s : sq_t), n + i = s.maxLevel → Shape s → tid < s.nthreads →
      ∃ s1, clean_ptrs_loop n s tid i = .ok s1 ∧ SameQ s s1 ∧ s1.hp = s.hp ∧ Shape s1
  | 0, i, s, _, hs, _ => ⟨s, by simp [clean_ptrs_loop], SameQ.reflQ s, rfl, hs⟩
  | n + 1, i, s, hni, hs, ht => by
    obtain ⟨s1, e1, q1, p1, sh1, _, _, _⟩ :=
      set_pred_spec (s := s) (i := i) none hs ht (by omega)
    obtain ⟨s2, e2, q2, p2, sh2, _, _, _⟩ :=
      set_succ_spec (s := s1) (i := i) none sh1 (by rw [q1.2.2.1]; exact ht)
        (by rw [q1.2.1]; omega)
    have q12 := q1.transQ q2
    obtain ⟨s3, e3, q3, p3, sh3⟩ := clean_ptrs_loop_spec n (i + 1) s2 (by rw [q12.2.1]; omega) sh2
      (by rw [q12.2.2.1]; exact ht)
    refine ⟨s3, ?_, q12.transQ q3, by rw [p3, p2, p1], sh3⟩
    simp only [clean_ptrs_loop, e1, ok_bind, e2]
    exact e3

theorem clean_ptrs_spec {s : sq_t} {tid : Nat} (hs : Shape s) (ht : tid < s.nthreads) :
    ∃ s1, clean_ptrs s tid = .ok s1 ∧ SameQ s s1 ∧ s1.hp = s.hp ∧ Shape s1 :=
  clean_ptrs_loop_spec s.maxLevel 0 s (by omega) hs ht

end Prioq

namespace Prioq

/-! ## The insertion -/

theorem Inserted.of_sameData {m m1 m2 : List sq_node_t} {k v : Int} {t : Nat} {P S : Nat → Nat}
    (h : Inserted m m1 k v t P S) (d : SameData m1 m2) : Inserted m m2 k v t P S :=
  { len := by rw [d.length]; exact h.len
    old := fun q hq => (d q).1.trans (h.old q hq)
    new := (d _).1.trans h.new
    nx := fun q l => ((d q).2 l).trans (h.nx q l) }

theorem add_loop_spec {s : sq_t} {es : List Nat} {k v : Int} {t tid fuel : Nat}
    (hH : Heap s es) (hs : Shape s) (hul : ∀ q, lockOf s.mem q = false)
    (hk : k < keyOf s.mem 1) (ht : t < s.maxLevel) (htid : tid < s.nthreads)
    (hf : es.length + 2 < fuel) :
    ∃ s6, ∃ h : Nat, add_loop fuel s k v t tid = .ok ((h : Int), s6) ∧
      s6.maxLevel = s.maxLevel ∧ s6.nthreads = s.nthreads ∧ s6.head = s.head ∧
      s6.tail = s.tail ∧ Shape s6 ∧
      Inserted s.mem s6.mem k v t (predAt s.mem k es) (succAt s.mem k es) ∧
      (∀ q, lockOf s6.mem q = true ↔ ∃ i, i ≤ t ∧ predAt s.mem k es i = q) ∧
      h ≤ t ∧ (∀ i, h ≤ i → i ≤ t → predAt s.mem k es i = predAt s.mem k es h) ∧
      (∀ l, l ≤ t → get_pred s6 tid l = .ok (some (predAt s.mem k es l))) := by
  cases fuel with
  | zero => omega
  | succ f =>
  obtain ⟨s1, e1, q1, sh1, g1⟩ := sq_search_spec hH hs hk htid (by omega : es.length + 1 < f)
  -- the predecessors and successors
  obtain ⟨P, hPdef⟩ : ∃ P, P = predAt s.mem k es := ⟨_, rfl⟩
  obtain ⟨S, hSdef⟩ : ∃ S, S = succAt s.mem k es := ⟨_, rfl⟩
  rw [← hPdef, ← hSdef]
  rw [← hPdef, ← hSdef] at g1
  have hlen := hH.len
  have hP : ∀ l, l ≤ t →
      P l < s.mem.length ∧ markedOf s.mem (P l) = 0 ∧ nxt s.mem (P l) l = some (some (S l)) := by
    intro l hl
    rw [hPdef, hSdef]
    have := predAt_lt (k := k) hH l
    exact ⟨this.1, this.2.1, pred_next hH (by omega)⟩
  have hS : ∀ l, l ≤ t → S l < s.mem.length ∧ markedOf s.mem (S l) = 0 := by
    intro l _
    rw [hSdef]
    exact ⟨(succAt_facts hH hk l).1, succAt_marked hH l⟩
  have hrun : ∀ i j, i < j → j ≤ t → P i = P j → P (j - 1) = P j := by
    intro i j hij _ he
    rw [hPdef] at he ⊢
    exact predAt_run (fun p hp => (hH.elems p hp).1) hij he
  have htow : ∀ l, l ≤ t → l < towerLen s.mem (P l) := by
    intro l hl
    rw [hPdef]
    have := (predAt_lt (k := k) hH l).2.2
    have hlM : l ≤ s.maxLevel := by omega
    rw [if_pos hlM] at this
    exact this
  have hws1 : ∀ l, l ≤ t →
      get_pred s1 tid l = .ok (some (P l)) ∧ get_succ s1 tid l = .ok (some (S l)) :=
    fun l hl => g1 l (by omega)
  -- locking
  obtain ⟨s2, h, e2, a2, d2, l2, hh1, hh2⟩ := add_lock_loop_spec (m := s.mem) hP hS hrun
    (t + 1) 0 s1 none (-1) (by omega) hws1 (by rw [q1.1]; exact SameData.reflD _)
    (by
      intro q
      rw [q1.1, hul q]
      constructor
      · intro hh; cases hh
      · rintro ⟨i, hi, _⟩; omega)
    (by simp) (Or.inl rfl)
  have hws2 : ∀ l, l ≤ t →
      get_pred s2 tid l = .ok (some (P l)) ∧ get_succ s2 tid l = .ok (some (S l)) :=
    fun l hl => by rw [a2.get_pred, a2.get_succ]; exact hws1 l hl
  have e3 := add_assert_loop_spec (s := s2) hws2
    (fun l hl => by rw [(d2 (P l)).2 l]; exact (hP l hl).2.2) (t + 1) 0 (by omega)
  have hlen2 : s2.mem.length = s.mem.length := d2.length
  -- the new node
  obtain ⟨nw, hnw⟩ : ∃ nw, nw = s.mem.length := ⟨_, rfl⟩
  obtain ⟨s3, hs3⟩ : ∃ s3 : sq_t, s3 = { s2 with mem := s2.mem ++ [create_node t k v] } := ⟨_, rfl⟩
  have halloc : alloc s2 (create_node t k v) = (nw, s3) := by
    rw [hnw, hs3, ← hlen2]; rfl
  have a3 : SameAux s2 s3 := by rw [hs3]; exact ⟨rfl, rfl, rfl, rfl, rfl, rfl⟩
  have hm3 : s3.mem = s2.mem ++ [create_node t k v] := by rw [hs3]
  have hn3 : s3.mem[nw]? = some (create_node t k v) := by
    rw [hm3, get_append_one, hnw, hlen2, if_pos rfl]
  have en3 : node_at s3 (some nw) = .ok (create_node t k v) := by
    simp only [node_at, hn3]
  obtain ⟨s4, hs4⟩ : ∃ s4, s4 = put_node s3 nw { create_node t k v with topLevel := t } := ⟨_, rfl⟩
  have a4 : SameAux s3 s4 := by rw [hs4]; exact SameAux.put _ _ _
  have hPnw : ∀ l, l ≤ t → P l ≠ nw := by
    intro l hl
    have := (hP l hl).1
    omega
  have c4 : ∀ q, coreOf s4.mem q =
      if q = nw then some (k, v, t, 0, 0, t + 1) else coreOf s.mem q := by
    intro q
    rw [hs4, core_put _ hn3, hm3, core_append, hlen2, ← hnw]
    by_cases hq : q = nw
    · simp [hq, create_node]
    · simp only [hq, if_false]
      exact (d2 q).1
  have lk4 : ∀ q, lockOf s4.mem q = if q = nw then false else lockOf s2.mem q := by
    intro q
    rw [hs4, lock_put _ hn3, hm3, lock_append, hlen2, ← hnw]
    by_cases hq : q = nw
    · simp [hq, create_node]
    · simp only [hq, if_false]
  have n4 : ∀ q l, nxt s4.mem q l =
      if q = nw then (List.replicate (t + 1) (none : Option Nat))[l]? else nxt s.mem q l := by
    intro q l
    rw [hs4, nxt_put _ hn3, hm3, nxt_append, hlen2, ← hnw]
    by_cases hq : q = nw
    · simp [hq, create_node]
    · simp only [hq, if_false]
      exact (d2 q).2 l
  have hws4 : ∀ l, l ≤ t →
      get_pred s4 tid l = .ok (some (P l)) ∧ get_succ s4 tid l = .ok (some (S l)) :=
    fun l hl => by
      rw [(a3.transA a4).get_pred, (a3.transA a4).get_succ]; exact hws2 l hl
  have htow4 : ∀ l, l ≤ t → l < towerLen s4.mem (P l) := by
    intro l hl
    have hc := c4 (P l)
    rw [if_neg (hPnw l hl)] at hc
    rw [(obs_eq_of_core hc).2.2.2.2.2.1]
    exact htow l hl
  have hnwtow : t < towerLen s4.mem nw := by
    have hc := c4 nw
    rw [if_pos rfl] at hc
    rw [(obs_of_core hc).2.2.2.2.2]
    omega
  -- linking
  obtain ⟨s5, e5, a5, c5, lk5, n5⟩ := add_link_loop_spec (P := P) (S := S) hPnw
    (t + 1) 0 s4 (by omega) hws4 htow4 hnwtow
  have hws5 : ∀ l, l ≤ t → get_pred s5 tid l = .ok (some (P l)) :=
    fun l hl => by rw [a5.get_pred]; exact (hws4 l hl).1
  have hnxt5 : rd_next s5 (P t) t = .ok (some nw) := by
    have := n5 (P t) t
    rw [if_pos ⟨Nat.zero_le _, le_refl _⟩, if_neg (hPnw t (le_refl _)), if_pos rfl] at this
    simp only [rd_next, this]
  have hlen4 : s4.mem.length = s.mem.length + 1 := by
    rw [hs4, put_length, hm3, List.length_append, hlen2]; rfl
  have hlen5 : s5.mem.length = s.mem.length + 1 := by rw [core_length c5, hlen4]
  obtain ⟨s6, nn, hnn, e6, a6, hlen6, c6, lk6, n6⟩ :=
    set_fullyLinked_spec (s := s5) (p := nw) 1 (by omega)
  have hnncore : coreOf s5.mem nw = some (k, v, t, 0, 0, t + 1) := by
    rw [c5, c4, if_pos rfl]
  rw [coreOf_some hnn] at hnncore
  simp only [Option.some.injEq, Prod.mk.injEq] at hnncore
  have a16 : SameAux s1 s6 := (((a2.transA a3).transA a4).transA a5).transA a6
  refine ⟨s6, h, ?_, ?_, ?_, ?_, ?_, a16.shape sh1, ?_, ?_, hh1, hh2, ?_⟩
  · simp only [add_loop, e1, ok_bind, e2, Bool.not_true, Bool.false_eq_true, if_false, e3,
      halloc, en3]
    rw [← hs4]
    simp only [e5, ok_bind, hws5 t (le_refl _), hnxt5, ne_eq, not_true_eq_false, if_false, e6]
  · rw [a16.2.2.1]; exact q1.2.1
  · rw [a16.2.2.2.1]; exact q1.2.2.1
  · rw [a16.2.2.2.2.1]; exact q1.2.2.2.1
  · rw [a16.2.2.2.2.2]; exact q1.2.2.2.2
  · refine { len := by rw [hlen6, hlen5], old := ?_, new := ?_, nx := ?_ }
    · intro q hq
      have hqn : q ≠ nw := by omega
      rw [c6, if_neg hqn, c5, c4, if_neg hqn]
    · rw [← hnw, c6, if_pos rfl, hnncore.1, hnncore.2.1, hnncore.2.2.1, hnncore.2.2.2.1,
        hnncore.2.2.2.2.2]
    · intro q l
      rw [n6, n5, n4, ← hnw]
      by_cases hlt : l ≤ t
      · rw [if_pos ⟨Nat.zero_le _, hlt⟩, if_pos hlt]
        by_cases hq : q = nw
        · simp [hq]
        · simp [hq]
      · have : ¬ (0 ≤ l ∧ l ≤ t) := fun hh => hlt hh.2
        rw [if_neg this, if_neg hlt]
        by_cases hq : q = nw
        · simp only [hq, if_true]
          rw [List.getElem?_eq_none]
          simp
          omega
        · simp [hq]
  · intro q
    rw [lk6, lk5, lk4]
    by_cases hq : q = nw
    · simp only [hq, if_true]
      constructor
      · intro hh; cases hh
      · rintro ⟨i, hi, hie⟩
        exact absurd hie (hPnw i hi)
    · simp only [hq, if_false]
      exact l2 q
  · intro l hl
    rw [a6.get_pred]
    exact hws5 l hl

end Prioq

namespace Prioq

/-- The call `sq_add` on a queue that satisfies the invariant, for a key below the key of the
tail: it returns 1, and the memory is the old one with the new node linked after the
elements with a key at most `k`. -/
theorem sq_add_spec {s : sq_t} {es : List Nat} {k v : Int} {t tid fuel : Nat}
    (hH : Heap s es) (hs : Shape s) (hul : ∀ q, lockOf s.mem q = false)
    (hk : k < keyOf s.mem 1) (ht : t < s.maxLevel) (htid : tid < s.nthreads)
    (hf : es.length + 2 < fuel) :
    ∃ s1, sq_add fuel s k v t tid = .ok (1, s1) ∧
      Heap s1 (pre s.mem k es ++ s.mem.length :: post s.mem k es) ∧ Shape s1 ∧
      (∀ q, lockOf s1.mem q = false) ∧
      Inserted s.mem s1.mem k v t (predAt s.mem k es) (succAt s.mem k es) ∧
      s1.maxLevel = s.maxLevel ∧ s1.nthreads = s.nthreads := by
  obtain ⟨s6, h, e6, m6, n6, hd6, tl6, sh6, ins6, lk6, hh1, hh2, g6⟩ :=
    add_loop_spec (v := v) hH hs hul hk ht htid hf
  have hrun : ∀ i j, i < j → j ≤ t → predAt s.mem k es i = predAt s.mem k es j →
      predAt s.mem k es (j - 1) = predAt s.mem k es j :=
    fun i j hij _ he => predAt_run (fun p hp => (hH.elems p hp).1) hij he
  obtain ⟨s7, e7, a7, d7, lk7⟩ := unlock_preds_spec (s := s6) hh1 hrun hh2 g6 lk6
  have sh7 : Shape s7 := a7.shape sh6
  obtain ⟨s8, e8, q8, _, sh8⟩ := clean_ptrs_spec (s := s7) sh7
    (by rw [a7.2.2.2.1, n6]; exact htid)
  have ins8 : Inserted s.mem s8.mem k v t (predAt s.mem k es) (succAt s.mem k es) := by
    rw [q8.1]; exact ins6.of_sameData d7
  have hM : s8.maxLevel = s.maxLevel := by rw [q8.2.1, a7.2.2.1, m6]
  refine ⟨s8, ?_, heap_insert hH ins8 hM ?_ ?_ ht hk, sh8, ?_, ins8, hM, ?_⟩
  · have h1 : tid < s.thread_ws.length := by rw [hs.1]; exact htid
    simp only [sq_add, if_pos h1, if_pos ht, e6, ok_bind, e7, e8]
  · rw [q8.2.2.2.1, a7.2.2.2.2.1, hd6]
  · rw [q8.2.2.2.2, a7.2.2.2.2.2, tl6]
  · intro q; rw [q8.1]; exact lk7 q
  · rw [q8.2.2.1, a7.2.2.2.1, n6]

/-- The invariant is kept by `sq_add` with a key strictly between the sentinel keys. -/
theorem sq_add_inv {s : sq_t} {es : List Nat} {k v : Int} {t tid fuel : Nat}
    (hI : Inv s es) (hk0 : keyOf s.mem 0 < k) (hk : k < keyOf s.mem 1) (ht : t < s.maxLevel)
    (htid : tid < s.nthreads) (hf : es.length + 2 < fuel) :
    ∃ s1, sq_add fuel s k v t tid = .ok (1, s1) ∧
      Inv s1 (pre s.mem k es ++ s.mem.length :: post s.mem k es) ∧
      Inserted s.mem s1.mem k v t (predAt s.mem k es) (succAt s.mem k es) ∧
      s1.maxLevel = s.maxLevel ∧ s1.nthreads = s.nthreads := by
  obtain ⟨hH, hs, hul, hlb⟩ := hI
  obtain ⟨s1, e1, hH1, sh1, ul1, ins1, hM, hN⟩ := sq_add_spec (v := v) hH hs hul hk ht htid hf
  refine ⟨s1, e1, ⟨hH1, sh1, ul1, ?_⟩, ins1, hM, hN⟩
  intro p hp
  have hlen := hH.len
  rw [(ins1.obsI (q := 0) (by omega)).1]
  rcases List.mem_append.1 hp with h | h
  · have hpe := mem_pre_sub h
    rw [(ins1.obsI (hH.elems p hpe).2.1).1]
    exact hlb p hpe
  · rcases List.mem_cons.1 h with h | h
    · rw [h, (obs_of_core ins1.new).1]; exact hk0
    · have hpe := mem_post_sub h
      rw [(ins1.obsI (hH.elems p hpe).2.1).1]
      exact hlb p hpe

end Prioq

namespace Prioq

/-! ## The extraction -/

theorem nxt_some_of_lt {m : List sq_node_t} {p l : Nat} (h : l < towerLen m p) :
    ∃ v, nxt m p l = some v := by
  unfold towerLen at h
  unfold nxt
  rcases hp : m[p]? with _ | n
  · rw [hp] at h; simp at h
  · rw [hp] at h
    exact ⟨n.nexts[l], List.getElem?_eq_getElem h⟩

theorem delmin_unlink_spec {del : Nat} (hd : del ≠ 0) :
    ∀ (n : Nat) (s : sq_t), s.head = 0 → n ≤ towerLen s.mem 0 → n ≤ towerLen s.mem del →
      ∃ s1, delmin_unlink n s del = .ok s1 ∧ SameAux s s1 ∧
        (∀ q, coreOf s1.mem q = coreOf s.mem q) ∧ (∀ q, lockOf s1.mem q = lockOf s.mem q) ∧
        (∀ q l, nxt s1.mem q l = if q = 0 ∧ l < n then nxt s.mem del l else nxt s.mem q l)
  | 0, s, _, _, _ => by
    refine ⟨s, by simp [delmin_unlink], SameAux.reflA s, fun _ => rfl, fun _ => rfl, ?_⟩
    intro q l
    simp
  | n + 1, s, hh, h0, hdl => by
    obtain ⟨v, hv⟩ := nxt_some_of_lt (m := s.mem) (p := del) (l := n) (by omega)
    obtain ⟨s1, e1, a1, c1, l1, n1⟩ := set_next_spec (s := s) (p := 0) (l := n) v (by omega)
    obtain ⟨s2, e2, a2, c2, l2, n2⟩ := delmin_unlink_spec hd n s1 (by rw [a1.2.2.2.2.1]; exact hh)
      (by rw [(obs_eq_of_core (c1 0)).2.2.2.2.2.1]; omega)
      (by rw [(obs_eq_of_core (c1 del)).2.2.2.2.2.1]; omega)
    refine ⟨s2, ?_, a1.transA a2, fun q => (c2 q).trans (c1 q), fun q => (l2 q).trans (l1 q), ?_⟩
    · simp only [delmin_unlink, rd_next, hv, ok_bind, hh, e1]
      exact e2
    · intro q l
      rw [n2, n1, n1]
      have hd0 : ¬ (del = 0 ∧ l = n) := fun h => hd h.1
      rw [if_neg hd0]
      by_cases hq : q = 0
      · by_cases hl : l < n
        · have : l < n + 1 := by omega
          simp [hq, hl, this]
        · by_cases hln : l = n
          · simp [hq, hln, hv]
          · have : ¬ l < n + 1 := by omega
            simp [hq, hl, this, hln]
      · simp [hq]

theorem lvl_cons_pos {m : List sq_node_t} {l p : Nat} {xs : List Nat} (h : l ≤ topOf m p) :
    lvl m l (p :: xs) = p :: lvl m l xs := by
  simp [lvl, List.filter_cons, h]

theorem lvl_cons_neg {m : List sq_node_t} {l p : Nat} {xs : List Nat} (h : ¬ l ≤ topOf m p) :
    lvl m l (p :: xs) = lvl m l xs := by
  simp [lvl, List.filter_cons, h]

theorem Deleted.obsD {m m1 : List sq_node_t} {p : Nat} (h : Deleted m m1 p) {q : Nat}
    (hq : q ≠ p) :
    keyOf m1 q = keyOf m q ∧ valOf m1 q = valOf m q ∧ topOf m1 q = topOf m q ∧
      markedOf m1 q = markedOf m q ∧ flOf m1 q = flOf m q ∧ towerLen m1 q = towerLen m q ∧
      (q < m1.length ↔ q < m.length) :=
  obs_eq_of_core (h.other q hq)

theorem heap_delete {s s1 : sq_t} {p : Nat} {rest : List Nat} (hH : Heap s (p :: rest))
    (hD : Deleted s.mem s1.mem p)
    (hM : s1.maxLevel = s.maxLevel) (hh : s1.head = s.head) (htl : s1.tail = s.tail) :
    Heap s1 rest := by
  have hlen := hH.len
  have hp := hH.elems p (by simp)
  have hnd := List.nodup_cons.1 hH.nodup
  have hp0 : (0 : Nat) ≠ p := by omega
  have hp1 : (1 : Nat) ≠ p := by omega
  have hrest : ∀ q ∈ rest, q ≠ p := fun q hq e => hnd.1 (by rw [← e]; exact hq)
  have hlvl : ∀ l, lvl s1.mem l rest = lvl s.mem l rest :=
    fun l => lvl_congr (fun q hq => (hD.obsD (hrest q hq)).2.2.1)
  refine
    { head_eq := hh.trans hH.head_eq, tail_eq := htl.trans hH.tail_eq, len := by rw [hD.len]; omega,
      hd_tower := ?_, hd_top := ?_, hd_marked := ?_, hd_fl := ?_, tl_top := ?_, tl_marked := ?_,
      tl_fl := ?_, tl_next := ?_, nodup := hnd.2, elems := ?_, sorted := ?_, paths := ?_ }
  · rw [(hD.obsD hp0).2.2.2.2.2.1, hM]; exact hH.hd_tower
  · rw [(hD.obsD hp0).2.2.1, hM]; exact hH.hd_top
  · rw [(hD.obsD hp0).2.2.2.1]; exact hH.hd_marked
  · rw [(hD.obsD hp0).2.2.2.2.1]; exact hH.hd_fl
  · rw [(hD.obsD hp1).2.2.1, hM]; exact hH.tl_top
  · rw [(hD.obsD hp1).2.2.2.1]; exact hH.tl_marked
  · rw [(hD.obsD hp1).2.2.2.2.1]; exact hH.tl_fl
  · intro l hl
    rw [hM] at hl
    rw [hD.nx]
    have : ¬ ((1 : Nat) = 0 ∧ l ≤ topOf s.mem p) := by omega
    rw [if_neg this]
    exact hH.tl_next l hl
  · intro q hq
    have he := hH.elems q (List.mem_cons_of_mem _ hq)
    have ho := hD.obsD (hrest q hq)
    rw [ho.2.2.2.2.2.1, ho.2.2.1, ho.2.2.2.1, ho.2.2.2.2.1, ho.1, (hD.obsD hp1).1, hM, hD.len]
    exact he
  · have hs := (List.pairwise_cons.1 hH.sorted).2
    refine hs.imp_of_mem ?_
    intro a b ha hb hab
    rw [(hD.obsD (hrest a ha)).1, (hD.obsD (hrest b hb)).1]; exact hab
  · intro l hl
    rw [hM] at hl
    rw [hlvl l]
    have hold := hH.paths l hl
    have hB : ∀ q ∈ lvl s.mem l rest, nxt s1.mem q l = nxt s.mem q l := by
      intro q hq
      rw [hD.nx]
      have hq2 := (hH.elems q (List.mem_cons_of_mem _ (mem_lvl.1 hq).1)).1
      have : ¬ (q = 0 ∧ l ≤ topOf s.mem p) := by omega
      rw [if_neg this]
    by_cases hlt : l ≤ topOf s.mem p
    · rw [lvl_cons_pos hlt] at hold
      simp only [Path] at hold
      have h0 : nxt s1.mem 0 l = nxt s.mem p l := by
        rw [hD.nx, if_pos ⟨rfl, hlt⟩]
      rcases hBl : lvl s.mem l rest with _ | ⟨b, B⟩
      · rw [hBl] at hold
        simp only [Path] at hold ⊢
        rw [h0]; exact hold.2
      · rw [hBl] at hold hB
        simp only [Path] at hold ⊢
        exact ⟨by rw [h0]; exact hold.2.1, Path.congr B b hB hold.2.2⟩
    · rw [lvl_cons_neg hlt] at hold
      refine Path.congr _ 0 ?_ hold
      intro q hq
      rcases List.mem_cons.1 hq with h | h
      · rw [h, hD.nx]
        have : ¬ ((0 : Nat) = 0 ∧ l ≤ topOf s.mem p) := fun hh => hlt hh.2
        rw [if_neg this]
      · exact hB q h

end Prioq

namespace Prioq

theorem obs_get {m : List sq_node_t} {p : Nat} {n : sq_node_t} (h : m[p]? = some n) :
    keyOf m p = n.key ∧ valOf m p = n.val ∧ topOf m p = n.topLevel ∧ markedOf m p = n.marked ∧
      flOf m p = n.fullyLinked ∧ towerLen m p = n.nexts.length :=
  obs_of_core (coreOf_some h)

theorem sameData_of_eq {m m1 : List sq_node_t} (h : m1 = m) : SameData m m1 := by
  rw [h]; exact SameData.reflD m

/-- One pass of the retry loop of `sq_delmin` on a queue whose first element is `p`. -/
theorem delmin_loop_spec {s : sq_t} {p : Nat} {rest : List Nat} {tid : Nat} (fuel : Nat)
    (hH : Heap s (p :: rest)) (hs : Shape s) (hul : ∀ q, lockOf s.mem q = false)
    (htid : tid < s.nthreads) :
    ∃ s7, delmin_loop (fuel + 1) s tid = .ok (p, s7) ∧
      s7.maxLevel = s.maxLevel ∧ s7.nthreads = s.nthreads ∧ s7.head = s.head ∧
      s7.tail = s.tail ∧ s7.thread_ws = s.thread_ws ∧ Shape s7 ∧
      Deleted s.mem s7.mem p ∧ (∀ q, lockOf s7.mem q = false) := by
  have hlen := hH.len
  have hp := hH.elems p (by simp)
  have hp0 : p ≠ 0 := by omega
  have hp1 : p ≠ 1 := by omega
  have h0p : (0 : Nat) ≠ p := by omega
  have hfirst : nxt s.mem 0 0 = some (some p) := by
    have := hH.paths 0 (Nat.zero_le _)
    rw [lvl_cons_pos (Nat.zero_le _)] at this
    exact this.1
  -- the peek
  obtain ⟨s1, e1, q1, w1, sh1⟩ := pptr_spec (s := s) (p := 0) (l := 0) hs htid hfirst
  have d1 : SameData s.mem s1.mem := sameData_of_eq q1.1
  have hp_lt1 : p < s1.mem.length := by rw [q1.1]; exact hp.2.1
  obtain ⟨dn, hdn, edn⟩ := node_at_ok (s := s1) (p := p) hp_lt1
  have hdn0 := hdn
  rw [q1.1] at hdn0
  have odn := obs_get hdn0
  have hfl : dn.fullyLinked ≠ 0 ∧ dn.marked = 0 := by
    rw [← odn.2.2.2.2.1, ← odn.2.2.2.1, hp.2.2.2.2.2.1, hp.2.2.2.2.1]
    exact ⟨by omega, rfl⟩
  -- the lock of the candidate
  obtain ⟨s2, e2, a2, d2, l2⟩ := lock_spec (s := s1) (p := p) hp_lt1 (by rw [q1.1]; exact hul p)
  have d02 := d1.transD d2
  have hp_lt2 : p < s2.mem.length := d02.lt hp.2.1
  obtain ⟨dn2, hdn2, edn2⟩ := node_at_ok (s := s2) (p := p) hp_lt2
  have odn2 := obs_get hdn2
  have oe2 := obs_eq_of_core (d02 p).1
  have hm2 : ¬ dn2.marked ≠ 0 := by
    rw [← odn2.2.2.2.1, oe2.2.2.2.1, hp.2.2.2.2.1]
    simp
  obtain ⟨s3, n3, hn3, e3, a3, len3, c3, l3, n3x⟩ := set_marked_spec (s := s2) (p := p) 1 hp_lt2
  have hn3eq : n3 = dn2 := by rw [hdn2] at hn3; exact (Option.some.inj hn3).symm
  have hh3 : s3.head = 0 := by
    rw [a3.2.2.2.2.1, a2.2.2.2.2.1, q1.2.2.2.1]; exact hH.head_eq
  have hlen3 : s3.mem.length = s.mem.length := by rw [len3, d02.length]
  -- the lock of the head
  obtain ⟨s4, e4, a4, d4, l4⟩ := lock_spec (s := s3) (p := 0) (by omega)
    (by rw [l3, l2, if_neg h0p, q1.1]; exact hul 0)
  have hh4 : s4.head = 0 := by rw [a4.2.2.2.2.1]; exact hh3
  have n04 : ∀ q l, nxt s4.mem q l = nxt s.mem q l := by
    intro q l
    rw [(d4 q).2 l, n3x, (d02 q).2 l]
  have c04 : ∀ q, coreOf s4.mem q = if q = p then
      some (dn2.key, dn2.val, dn2.topLevel, 1, dn2.fullyLinked, dn2.nexts.length)
      else coreOf s.mem q := by
    intro q
    rw [(d4 q).1, c3, hn3eq]
    by_cases hq : q = p
    · simp [hq]
    · simp only [hq, if_false]
      exact (d02 q).1
  have hrd : rd_next s4 0 0 = .ok (some p) := by
    simp only [rd_next, n04, hfirst]
  have hp_lt4 : p < s4.mem.length := by rw [d4.length, hlen3]; exact hp.2.1
  obtain ⟨dn4, hdn4, edn4⟩ := node_at_ok (s := s4) (p := p) hp_lt4
  have odn4 := obs_of_core ((c04 p).trans (if_pos rfl))
  have htop4 : dn4.topLevel = topOf s.mem p := by
    rw [← (obs_get hdn4).2.2.1, odn4.2.2.1, ← odn2.2.2.1, oe2.2.2.1]
  have htow0 : towerLen s4.mem 0 = s.maxLevel + 1 := by
    have := c04 0
    rw [if_neg h0p] at this
    rw [(obs_eq_of_core this).2.2.2.2.2.1]; exact hH.hd_tower
  have htowp : towerLen s4.mem p = topOf s.mem p + 1 := by
    rw [odn4.2.2.2.2.2, ← odn2.2.2.2.2.2, oe2.2.2.2.2.2.1]; exact hp.2.2.1
  -- the unlinking
  obtain ⟨s5, e5, a5, c5, l5, n5⟩ := delmin_unlink_spec hp0 (topOf s.mem p + 1) s4 hh4
    (by rw [htow0]; omega) (by rw [htowp])
  obtain ⟨s6, e6, a6, d6, l6⟩ := unlock_spec (s := s5) (p := p)
    (by rw [l5, l4, if_neg hp0, l3, l2, if_pos rfl])
  have hh6 : s6.head = 0 := by rw [a6.2.2.2.2.1, a5.2.2.2.2.1]; exact hh4
  obtain ⟨s7, e7, a7, d7, l7⟩ := unlock_spec (s := s6) (p := 0)
    (by rw [l6, if_neg h0p, l5, l4, if_pos rfl])
  have a17 : SameAux s1 s7 :=
    (((((a2.transA a3).transA a4).transA a5).transA a6).transA a7)
  have d57 : SameData s5.mem s7.mem := d6.transD d7
  refine ⟨s7, ?_, ?_, ?_, ?_, ?_, ?_, a17.shape sh1, ?_, ?_⟩
  · have htail : s1.tail = 1 := by rw [q1.2.2.2.2]; exact hH.tail_eq
    simp only [delmin_loop, hH.head_eq, e1, ok_bind, htail, delmin_wait, if_neg hp1, edn,
      if_pos hfl, e2, edn2, if_neg hm2, e3, hh3, e4, hh4, hrd, ne_eq, not_true_eq_false, if_false,
      edn4, htop4, e5, e6, hh6, e7]
  · rw [a17.2.2.1]; exact q1.2.1
  · rw [a17.2.2.2.1]; exact q1.2.2.1
  · rw [a17.2.2.2.2.1]; exact q1.2.2.2.1
  · rw [a17.2.2.2.2.2]; exact q1.2.2.2.2
  · rw [a17.1]; exact w1
  · refine { len := ?_, other := ?_, del := ?_, nx := ?_ }
    · rw [d57.length, core_length c5, d4.length, hlen3]
    · intro q hq
      rw [(d57 q).1, c5, c04, if_neg hq]
    · rw [(d57 p).1, c5, c04, if_pos rfl, ← odn2.1, ← odn2.2.1, ← odn2.2.2.1, ← odn2.2.2.2.2.1,
        ← odn2.2.2.2.2.2, oe2.1, oe2.2.1, oe2.2.2.1, oe2.2.2.2.2.1, oe2.2.2.2.2.2.1]
    · intro q l
      rw [(d57 q).2 l, n5, n04, n04]
      by_cases hc : q = 0 ∧ l ≤ topOf s.mem p
      · have : q = 0 ∧ l < topOf s.mem p + 1 := ⟨hc.1, by omega⟩
        rw [if_pos hc, if_pos this]
      · have : ¬ (q = 0 ∧ l < topOf s.mem p + 1) := fun h => hc ⟨h.1, by omega⟩
        rw [if_neg hc, if_neg this]
  · intro q
    rw [l7]
    by_cases hq0 : q = 0
    · simp [hq0]
    · rw [if_neg hq0, l6]
      by_cases hqp : q = p
      · simp [hqp]
      · rw [if_neg hqp, l5, l4, if_neg hq0, l3, l2, if_neg hqp, q1.1]
        exact hul q

end Prioq

namespace Prioq

/-! ## More fuel does not change a result -/

theorem Below.reflB {α : Type} (x : Res α) : Below x x := Or.inr rfl

theorem Below.spin {α : Type} (y : Res α) : Below (.spin : Res α) y := Or.inl rfl

theorem Below.transB {α : Type} {x y z : Res α} (h1 : Below x y) (h2 : Below y z) : Below x z := by
  rcases h1 with h | h
  · exact Or.inl h
  · rw [h]; exact h2

theorem Below.ok {α : Type} {x y : Res α} {a : α} (h : Below x y) (hx : x = .ok a) : y = .ok a := by
  rcases h with h | h
  · rw [h] at hx; cases hx
  · rw [← h]; exact hx

theorem Below.bind {α β : Type} {x y : Res α} {f g : α → Res β} (h : Below x y)
    (hf : ∀ a, Below (f a) (g a)) : Below (x >>= f) (y >>= g) := by
  rcases h with h | h
  · rw [h]; exact Or.inl rfl
  · rw [h]
    cases y with
    | ok a => exact hf a
    | spin => exact Or.inl rfl
    | abort => exact Or.inr rfl
    | fault => exact Or.inr rfl

theorem Below.bind_same {α β : Type} (x : Res α) {f g : α → Res β}
    (hf : ∀ a, Below (f a) (g a)) : Below (x >>= f) (x >>= g) :=
  Below.bind (Below.reflB x) hf

theorem search_while_mono : ∀ (fuel : Nat) (s : sq_t) (key : Int) (level tid pred curr : Nat),
    Below (search_while fuel s key level tid pred curr)
      (search_while (fuel + 1) s key level tid pred curr)
  | 0, _, _, _, _, _, _ => Below.spin _
  | fuel + 1, s, key, level, tid, pred, curr => by
    rw [search_while, search_while]
    refine Below.bind_same _ (fun c => ?_)
    split
    · refine Below.bind_same _ (fun a => ?_)
      obtain ⟨pr, s1⟩ := a
      cases pr with
      | none => exact Below.reflB _
      | some pred1 =>
        refine Below.bind_same _ (fun b => ?_)
        obtain ⟨r, s2⟩ := b
        cases r with
        | none => exact Below.reflB _
        | some curr1 => exact search_while_mono fuel s2 key level tid pred1 curr1
    · exact Below.reflB _

theorem search_levels_mono (fuel : Nat) : ∀ (n : Nat) (s : sq_t) (key : Int) (tid pred : Nat)
    (lFound : Int),
    Below (search_levels fuel n s key tid pred lFound)
      (search_levels (fuel + 1) n s key tid pred lFound)
  | 0, _, _, _, _, _ => Below.reflB _
  | n + 1, s, key, tid, pred, lFound => by
    rw [search_levels, search_levels]
    refine Below.bind_same _ (fun a => ?_)
    obtain ⟨r, s1⟩ := a
    cases r with
    | none => exact Below.reflB _
    | some curr =>
      refine Below.bind (search_while_mono fuel s1 key n tid pred curr) (fun b => ?_)
      obtain ⟨r2, s2⟩ := b
      cases r2 with
      | none => exact Below.reflB _
      | some pc =>
        obtain ⟨pred1, curr1⟩ := pc
        refine Below.bind_same _ (fun c => ?_)
        refine Below.bind_same _ (fun s3 => ?_)
        refine Below.bind_same _ (fun s4 => ?_)
        exact search_levels_mono fuel n s4 key tid pred1 _

theorem sq_search_mono : ∀ (fuel : Nat) (s : sq_t) (key : Int) (tid : Nat),
    Below (sq_search fuel s key tid) (sq_search (fuel + 1) s key tid)
  | 0, _, _, _ => Below.spin _
  | fuel + 1, s, key, tid => by
    rw [sq_search, sq_search]
    refine Below.bind (search_levels_mono fuel _ s key tid _ _) (fun a => ?_)
    obtain ⟨r, s1⟩ := a
    cases r with
    | none => exact sq_search_mono fuel s1 key tid
    | some lf => exact Below.reflB _

end Prioq

namespace Prioq

theorem add_loop_mono : ∀ (fuel : Nat) (s : sq_t) (key val : Int) (topLevel tid : Nat),
    Below (add_loop fuel s key val topLevel tid) (add_loop (fuel + 1) s key val topLevel tid)
  | 0, _, _, _, _, _ => Below.spin _
  | fuel + 1, s, key, val, topLevel, tid => by
    rw [add_loop, add_loop]
    refine Below.bind (sq_search_mono fuel s key tid) (fun a => ?_)
    obtain ⟨lf, s1⟩ := a
    refine Below.bind_same _ (fun b => ?_)
    obtain ⟨⟨valid, hl, prev⟩, s2⟩ := b
    cases valid with
    | false =>
      refine Below.bind_same _ (fun s3 => ?_)
      exact add_loop_mono fuel s3 key val topLevel tid
    | true => exact Below.reflB _

theorem sq_add_mono (fuel : Nat) (s : sq_t) (key val : Int) (topLevel tid : Nat) :
    Below (sq_add fuel s key val topLevel tid) (sq_add (fuel + 1) s key val topLevel tid) := by
  unfold sq_add
  split
  · split
    · exact Below.bind (add_loop_mono fuel s key val topLevel tid) (fun _ => Below.reflB _)
    · exact Below.reflB _
  · exact Below.reflB _

theorem delmin_wait_mono : ∀ (fuel del tail : Nat),
    Below (delmin_wait fuel del tail) (delmin_wait (fuel + 1) del tail)
  | 0, _, _ => Below.spin _
  | fuel + 1, del, tail => by
    rw [delmin_wait, delmin_wait]
    split
    · exact delmin_wait_mono fuel del tail
    · exact Below.reflB _

theorem delmin_loop_mono : ∀ (fuel : Nat) (s : sq_t) (tid : Nat),
    Below (delmin_loop fuel s tid) (delmin_loop (fuel + 1) s tid)
  | 0, _, _ => Below.spin _
  | fuel + 1, s, tid => by
    rw [delmin_loop, delmin_loop]
    refine Below.bind_same _ (fun a => ?_)
    obtain ⟨r, s1⟩ := a
    cases r with
    | none => exact delmin_loop_mono fuel s1 tid
    | some del =>
      refine Below.bind (delmin_wait_mono (fuel + 1) del s1.tail) (fun _ => ?_)
      refine Below.bind_same _ (fun dn => ?_)
      split
      · refine Below.bind_same _ (fun s2 => ?_)
        refine Below.bind_same _ (fun dn2 => ?_)
        split
        · refine Below.bind_same _ (fun s3 => ?_)
          exact delmin_loop_mono fuel s3 tid
        · refine Below.bind_same _ (fun s3 => ?_)
          refine Below.bind_same _ (fun s4 => ?_)
          refine Below.bind_same _ (fun h0 => ?_)
          split
          · refine Below.bind_same _ (fun s5 => ?_)
            refine Below.bind_same _ (fun s6 => ?_)
            refine Below.bind_same _ (fun s7 => ?_)
            exact delmin_loop_mono fuel s7 tid
          · exact Below.reflB _
      · exact delmin_loop_mono fuel s1 tid

theorem sq_delmin_mono (fuel : Nat) (s : sq_t) (tid : Nat) :
    Below (sq_delmin fuel s tid) (sq_delmin (fuel + 1) s tid) := by
  unfold sq_delmin
  exact Below.bind (delmin_loop_mono fuel s tid) (fun _ => Below.reflB _)

theorem mono_add {α : Type} {f : Nat → Res α} (h : ∀ n, Below (f n) (f (n + 1))) (n : Nat) :
    ∀ d, Below (f n) (f (n + d))
  | 0 => Below.reflB _
  | d + 1 => (mono_add h n d).transB (h (n + d))

theorem mono_le {α : Type} {f : Nat → Res α} (h : ∀ n, Below (f n) (f (n + 1))) {n n1 : Nat}
    (hle : n ≤ n1) {a : α} (hn : f n = .ok a) : f n1 = .ok a := by
  have := mono_add h n (n1 - n)
  rw [Nat.add_sub_cancel' hle] at this
  exact this.ok hn

/-! ## The invariant of the reachable states -/

/-- Every state of a single-threaded run satisfies the invariant, for some list of elements. -/
theorem reachable_inv {s : sq_t} (h : Reachable s) : ∃ es, Inv s es := by
  induction h with
  | init maxLevel min max nthreads => exact ⟨[], sq_init_inv _ _ _ _⟩
  | @add s s1 fuel key val topLevel tid r _ hk0 hk ht hadd ih =>
    obtain ⟨es, hI⟩ := ih
    have hh := hI.1.head_eq
    have htl := hI.1.tail_eq
    rw [hh] at hk0
    rw [htl] at hk
    have htid : tid < s.nthreads := by
      by_contra hcon
      unfold sq_add at hadd
      rw [hI.2.1.1] at hadd
      rw [if_neg hcon] at hadd
      cases hadd
    obtain ⟨s2, e2, hI2, _⟩ := sq_add_inv (v := val) hI hk0 hk ht
      htid (by omega : es.length + 2 < max fuel (es.length + 3))
    have := mono_le (f := fun n => sq_add n s key val topLevel tid)
      (fun n => sq_add_mono n s key val topLevel tid) (le_max_left fuel (es.length + 3)) hadd
    simp only at this
    rw [e2] at this
    have hs : s2 = s1 := by
      have := Res.ok.inj this
      exact (Prod.mk.inj this).2
    rw [← hs]
    exact ⟨_, hI2⟩
  | @delmin s s1 fuel tid r _ hdel ih =>
    obtain ⟨es, hI⟩ := ih
    obtain ⟨hH, hs, hul, hlb⟩ := hI
    have htid : tid < s.nthreads := by
      by_contra hcon
      have hnone : s.hp.recs[tid]? = none := by
        rw [List.getElem?_eq_none]
        rw [hs.2.1]; omega
      cases fuel with
      | zero => simp [sq_delmin, delmin_loop] at hdel
      | succ f =>
        rcases hn : nxt s.mem s.head 0 with _ | v
        · simp [sq_delmin, delmin_loop, pptr, rd_next, hn] at hdel
        · simp [sq_delmin, delmin_loop, pptr, rd_next, hn, set_peek, hnone] at hdel
    cases es with
    | nil =>
      exfalso
      have hfirst : nxt s.mem 0 0 = some (some 1) := by
        have := hH.paths 0 (Nat.zero_le _)
        simpa [lvl, Path] using this
      have hspin : ∀ f, delmin_wait f 1 1 = .spin := by
        intro f
        induction f with
        | zero => rfl
        | succ f ih => rw [delmin_wait, if_pos rfl]; exact ih
      cases fuel with
      | zero => simp [sq_delmin, delmin_loop] at hdel
      | succ f =>
        obtain ⟨s1, e1, q1, _, _⟩ := pptr_spec (s := s) (p := 0) (l := 0) hs htid hfirst
        have htail : s1.tail = 1 := by rw [q1.2.2.2.2]; exact hH.tail_eq
        simp [sq_delmin, delmin_loop, hH.head_eq, e1, htail, hspin] at hdel
    | cons p rest =>
      cases fuel with
      | zero => simp [sq_delmin, delmin_loop] at hdel
      | succ f =>
        obtain ⟨s7, e7, m7, n7, hd7, tl7, w7, sh7, del7, ul7⟩ := delmin_loop_spec f hH hs hul htid
        simp only [sq_delmin, e7, ok_bind] at hdel
        have hs1 : s1 = retire_node s7 p := by
          have := Res.ok.inj hdel
          exact (Prod.mk.inj this).2.symm
        have hH7 := heap_delete hH del7 m7 hd7 tl7
        refine ⟨rest, ?_, ?_, ?_, ?_⟩
        · rw [hs1]
          exact
            { head_eq := hH7.head_eq, tail_eq := hH7.tail_eq, len := hH7.len,
              hd_tower := hH7.hd_tower, hd_top := hH7.hd_top, hd_marked := hH7.hd_marked,
              hd_fl := hH7.hd_fl, tl_top := hH7.tl_top, tl_marked := hH7.tl_marked,
              tl_fl := hH7.tl_fl, tl_next := hH7.tl_next, nodup := hH7.nodup,
              elems := hH7.elems, sorted := hH7.sorted, paths := hH7.paths }
        · rw [hs1]
          exact ⟨sh7.1, sh7.2.1, sh7.2.2.1, sh7.2.2.2⟩
        · rw [hs1]; exact ul7
        · rw [hs1]
          intro q hq
          have hnd := List.nodup_cons.1 hH.nodup
          have hqp : q ≠ p := fun e => hnd.1 (by rw [← e]; exact hq)
          have h0p : (0 : Nat) ≠ p := by have := (hH.elems p (by simp)).1; omega
          show keyOf s7.mem 0 < keyOf s7.mem q
          rw [(del7.obsD h0p).1, (del7.obsD hqp).1]
          exact hlb q (List.mem_cons_of_mem _ hq)

end Prioq

namespace Prioq

/-! ## The search for a key that is not below the key of the tail -/

theorem search_while_div {k : Int} {l tid : Nat} {m : List sq_node_t} (hlen : 1 < m.length)
    (hk : keyOf m 1 ≤ k) (ht1 : nxt m 1 l = some none) :
    ∀ (Y : List Nat) (p : Nat) (s : sq_t) (fuel : Nat), s.mem = m → Shape s →
      tid < s.nthreads → l < s.maxLevel →
      Path m l p Y 1 → (∀ y ∈ Y, y < m.length ∧ keyOf m y ≤ k) →
      search_while fuel s k l tid p (Y.headD 1) = .spin ∨
        ∃ s1, search_while fuel s k l tid p (Y.headD 1) = .ok (none, s1) ∧ SameQ s s1 ∧ Shape s1
  | [], p, s, fuel, hm, hs, ht, hl, _, _ => by
    cases fuel with
    | zero => exact Or.inl rfl
    | succ f =>
      right
      obtain ⟨n, hn, hna⟩ := node_at_ok (s := s) (p := 1) (by rw [hm]; exact hlen)
      have hkey : keyOf m 1 = n.key := by rw [← hm]; simp only [keyOf, hn]
      have hge : k ≥ n.key := by rw [← hkey]; exact hk
      obtain ⟨s1, e1, q1, w1, sh1⟩ := lptr_spec (some 1) hs ht hl
      obtain ⟨s2, e2, q2, w2, sh2⟩ := pptr_spec (p := 1) (l := l) (v := none) sh1
        (by rw [q1.2.2.1]; exact ht) (by rw [q1.1, hm]; exact ht1)
      refine ⟨s2, ?_, q1.transQ q2, sh2⟩
      simp only [search_while, List.headD_nil, hna, ok_bind, if_pos hge, e1, e2]
  | y :: Y, p, s, fuel, hm, hs, ht, hl, hp, hY => by
    cases fuel with
    | zero => exact Or.inl rfl
    | succ f =>
      have hy := hY y (by simp)
      obtain ⟨n, hn, hna⟩ := node_at_ok (s := s) (p := y) (by rw [hm]; exact hy.1)
      have hkey : keyOf m y = n.key := by rw [← hm]; simp only [keyOf, hn]
      have hge : k ≥ n.key := by rw [← hkey]; exact hy.2
      obtain ⟨s1, e1, q1, w1, sh1⟩ := lptr_spec (some y) hs ht hl
      have hp2 : Path m l y Y 1 := hp.2
      obtain ⟨s2, e2, q2, w2, sh2⟩ := pptr_spec (p := y) (l := l) sh1
        (by rw [q1.2.2.1]; exact ht) (by rw [q1.1, hm]; exact hp2.head)
      have q12 := q1.transQ q2
      have ih := search_while_div hlen hk ht1 Y y s2 f (by rw [q12.1]; exact hm) sh2
        (by rw [q12.2.2.1]; exact ht) (by rw [q12.2.1]; exact hl) hp2
        (fun z hz => hY z (List.mem_cons_of_mem _ hz))
      have hstep : search_while (f + 1) s k l tid p ((y :: Y).headD 1) =
          search_while f s2 k l tid y (Y.headD 1) := by
        simp only [search_while, List.headD_cons, hna, ok_bind, if_pos hge, e1, e2]
      rw [hstep]
      rcases ih with h | ⟨s3, e3, q3, sh3⟩
      · exact Or.inl h
      · exact Or.inr ⟨s3, e3, q12.transQ q3, sh3⟩

/-- The search for a key that is at least the key of the tail never returns: every pass
walks to the tail, reads the `NULL` behind it and starts again. -/
theorem sq_search_div {s0 : sq_t} {es : List Nat} {k : Int} {tid : Nat} (hH : Heap s0 es)
    (hk : keyOf s0.mem 1 ≤ k) (ht : tid < s0.nthreads) (hM : 0 < s0.maxLevel) :
    ∀ (fuel : Nat) (s : sq_t), SameQ s0 s → Shape s → sq_search fuel s k tid = .spin
  | 0, _, _, _ => rfl
  | fuel + 1, s, hq, hs => by
    obtain ⟨n, hn⟩ : ∃ n, s0.maxLevel = n + 1 := ⟨s0.maxLevel - 1, by omega⟩
    have hpath := hH.paths n (by omega)
    have hts : tid < s.nthreads := by rw [hq.2.2.1]; exact ht
    obtain ⟨s1, e1, q1, w1, sh1⟩ := pptr_spec (s := s) (p := 0) (l := n) hs hts
      (by rw [hq.1]; exact hpath.head)
    have hdiv := search_while_div (k := k) (l := n) (m := s0.mem) hH.len hk
      (hH.tl_next n (by omega)) (lvl s0.mem n es) 0 s1 fuel (by rw [q1.1, hq.1]) sh1
      (by rw [q1.2.2.1]; exact hts) (by rw [q1.2.1, hq.2.1]; omega) hpath
      (fun y hy => by
        have he := hH.elems y (mem_lvl.1 hy).1
        exact ⟨he.2.1, le_trans (le_of_lt he.2.2.2.2.2.2) hk⟩)
    have hhead : s.head = 0 := by rw [hq.2.2.2.1]; exact hH.head_eq
    have hML : s.maxLevel = n + 1 := by rw [hq.2.1]; exact hn
    rcases hdiv with h | ⟨s2, e2, q2, sh2⟩
    · simp only [sq_search, hML, search_levels, hhead, e1, ok_bind, h, spin_bind]
    · have ih := sq_search_div hH hk ht hM fuel s2 ((hq.transQ q1).transQ q2) sh2
      simp only [sq_search, hML, search_levels, hhead, e1, ok_bind, e2]
      exact ih

/-- The call `sq_add` with a key that is at least the key of the tail never returns. -/
theorem sq_add_div {s : sq_t} {es : List Nat} {k : Int} (hH : Heap s es) (hs : Shape s)
    (hk : keyOf s.mem 1 ≤ k) (v : Int) (t tid fuel : Nat) (ht : t < s.maxLevel)
    (htid : tid < s.nthreads) : sq_add fuel s k v t tid = .spin := by
  have h1 : tid < s.thread_ws.length := by rw [hs.1]; exact htid
  cases fuel with
  | zero => simp only [sq_add, if_pos h1, if_pos ht, add_loop, spin_bind]
  | succ f =>
    have := sq_search_div hH hk htid (by omega) f s (SameQ.reflQ s) hs
    simp only [sq_add, if_pos h1, if_pos ht, add_loop, this, spin_bind]

end Prioq

namespace Prioq

/-! ## The chains of a queue that satisfies the invariant -/

theorem nodup_length_le {es : List Nat} {n : Nat} (hn : es.Nodup) (h : ∀ p ∈ es, p < n) :
    es.length ≤ n := by
  have hsub : es.toFinset ⊆ Finset.range n := by
    intro p hp
    rw [List.mem_toFinset] at hp
    exact Finset.mem_range.2 (h p hp)
  have := Finset.card_le_card hsub
  rw [List.toFinset_card_of_nodup hn, Finset.card_range] at this
  exact this

theorem lvl_zero (m : List sq_node_t) (es : List Nat) : lvl m 0 es = es := by
  simp [lvl]

theorem chain_heap {s : sq_t} {es : List Nat} (hH : Heap s es) {l : Nat} (hl : l ≤ s.maxLevel) :
    chain s l = some (lvl s.mem l es) := by
  have hp := hH.paths l hl
  rw [← hH.head_eq, ← hH.tail_eq] at hp
  refine chain_of_path hp ?_ ?_
  · rw [hH.tail_eq]
    intro h
    have := (hH.elems 1 (mem_lvl.1 h).1).1
    omega
  · refine le_trans (List.length_filter_le _ _) ?_
    exact nodup_length_le hH.nodup (fun p hp => (hH.elems p hp).2.1)

theorem chain_heap_zero {s : sq_t} {es : List Nat} (hH : Heap s es) : chain s 0 = some es := by
  rw [chain_heap hH (Nat.zero_le _), lvl_zero]

/-! ## The extraction, between two operations -/

theorem Deleted.keep {m m1 : List sq_node_t} {p : Nat} (h : Deleted m m1 p) (q : Nat) :
    keyOf m1 q = keyOf m q ∧ valOf m1 q = valOf m q ∧ topOf m1 q = topOf m q := by
  by_cases hq : q = p
  · rw [hq]
    have := obs_of_core h.del
    exact ⟨this.1, this.2.1, this.2.2.1⟩
  · have := h.obsD hq
    exact ⟨this.1, this.2.1, this.2.2.1⟩

/-- The call `sq_delmin` on a queue that satisfies the invariant and holds an element: one pass
of the retry loop returns the first element. -/
theorem sq_delmin_spec {s : sq_t} {p : Nat} {rest : List Nat} {tid : Nat} (fuel : Nat)
    (hH : Heap s (p :: rest)) (hs : Shape s) (hul : ∀ q, lockOf s.mem q = false)
    (htid : tid < s.nthreads) :
    ∃ s1, sq_delmin (fuel + 1) s tid = .ok ((1, p), s1) ∧ Heap s1 rest ∧ Shape s1 ∧
      (∀ q, lockOf s1.mem q = false) ∧ Deleted s.mem s1.mem p ∧
      s1.maxLevel = s.maxLevel ∧ s1.nthreads = s.nthreads := by
  obtain ⟨s7, e7, m7, n7, hd7, tl7, w7, sh7, del7, ul7⟩ := delmin_loop_spec fuel hH hs hul htid
  have hH7 := heap_delete hH del7 m7 hd7 tl7
  refine ⟨retire_node s7 p, by simp only [sq_delmin, e7, ok_bind], ?_, ?_, ul7, del7, m7, n7⟩
  · exact
      { head_eq := hH7.head_eq, tail_eq := hH7.tail_eq, len := hH7.len,
        hd_tower := hH7.hd_tower, hd_top := hH7.hd_top, hd_marked := hH7.hd_marked,
        hd_fl := hH7.hd_fl, tl_top := hH7.tl_top, tl_marked := hH7.tl_marked,
        tl_fl := hH7.tl_fl, tl_next := hH7.tl_next, nodup := hH7.nodup,
        elems := hH7.elems, sorted := hH7.sorted, paths := hH7.paths }
  · exact ⟨sh7.1, sh7.2.1, sh7.2.2.1, sh7.2.2.2⟩

/-- The call `sq_delmin` on an empty queue never returns. -/
theorem sq_delmin_empty {s : sq_t} {tid : Nat} (hH : Heap s []) (hs : Shape s)
    (htid : tid < s.nthreads) (fuel : Nat) : sq_delmin fuel s tid = .spin := by
  have hfirst : nxt s.mem 0 0 = some (some 1) := by
    have := hH.paths 0 (Nat.zero_le _)
    simpa [lvl, Path] using this
  have hspin : ∀ f, delmin_wait f 1 1 = .spin := by
    intro f
    induction f with
    | zero => rfl
    | succ f ih => rw [delmin_wait, if_pos rfl]; exact ih
  cases fuel with
  | zero => simp [sq_delmin, delmin_loop]
  | succ f =>
    obtain ⟨s1, e1, q1, _, _⟩ := pptr_spec (s := s) (p := 0) (l := 0) hs htid hfirst
    have htail : s1.tail = 1 := by rw [q1.2.2.2.2]; exact hH.tail_eq
    simp [sq_delmin, delmin_loop, hH.head_eq, e1, htail, hspin]

/-- A call of `sq_delmin` that returns was made with a thread identifier in range. -/
theorem sq_delmin_tid {s s1 : sq_t} {tid fuel : Nat} {r : Int × Nat} {es : List Nat}
    (hH : Heap s es) (hs : Shape s) (h : sq_delmin fuel s tid = .ok (r, s1)) :
    tid < s.nthreads := by
  by_contra hcon
  have hnone : s.hp.recs[tid]? = none := by
    rw [List.getElem?_eq_none]
    rw [hs.2.1]; omega
  have hfirst := (hH.paths 0 (Nat.zero_le _)).head
  cases fuel with
  | zero => simp [sq_delmin, delmin_loop] at h
  | succ f =>
    simp [sq_delmin, delmin_loop, pptr, rd_next, hH.head_eq, hfirst, set_peek, hnone] at h

/-! ## The invariant of the states of a run with arbitrary arguments -/

/-- Every state of a single-threaded run holds a skiplist, has scratch areas of the right
size and no held lock, whatever the arguments of the calls were. -/
theorem reach_heap {s : sq_t} (h : Reach s) :
    ∃ es, Heap s es ∧ Shape s ∧ (∀ q, lockOf s.mem q = false) := by
  induction h with
  | init maxLevel min max nthreads =>
    have := sq_init_inv maxLevel min max nthreads
    exact ⟨[], this.1, this.2.1, this.2.2.1⟩
  | @add s s1 fuel key val topLevel tid r _ hadd ih =>
    obtain ⟨es, hH, hs, hul⟩ := ih
    have htid : tid < s.nthreads := by
      by_contra hcon
      unfold sq_add at hadd
      rw [hs.1, if_neg hcon] at hadd
      cases hadd
    have ht : topLevel < s.maxLevel := by
      by_contra hcon
      unfold sq_add at hadd
      rw [hs.1, if_pos htid, if_neg hcon] at hadd
      cases hadd
    have hk : key < keyOf s.mem 1 := by
      by_contra hcon
      rw [sq_add_div hH hs (not_lt.1 hcon) val topLevel tid fuel ht htid] at hadd
      cases hadd
    obtain ⟨s2, e2, hH2, sh2, ul2, _⟩ := sq_add_spec (v := val)
      hH hs hul hk ht htid (by omega : es.length + 2 < max fuel (es.length + 3))
    have := mono_le (f := fun n => sq_add n s key val topLevel tid)
      (fun n => sq_add_mono n s key val topLevel tid) (le_max_left fuel (es.length + 3)) hadd
    simp only at this
    rw [e2] at this
    have hs12 : s2 = s1 := (Prod.mk.inj (Res.ok.inj this)).2
    rw [← hs12]
    exact ⟨_, hH2, sh2, ul2⟩
  | @delmin s s1 fuel tid r _ hdel ih =>
    obtain ⟨es, hH, hs, hul⟩ := ih
    have htid := sq_delmin_tid hH hs hdel
    cases es with
    | nil =>
      rw [sq_delmin_empty hH hs htid fuel] at hdel
      cases hdel
    | cons p rest =>
      cases fuel with
      | zero => simp [sq_delmin, delmin_loop] at hdel
      | succ f =>
        obtain ⟨s2, e2, hH2, sh2, ul2, _⟩ := sq_delmin_spec f hH hs hul htid
        rw [e2] at hdel
        have hs12 : s2 = s1 := (Prod.mk.inj (Res.ok.inj hdel)).2
        rw [← hs12]
        exact ⟨rest, hH2, sh2, ul2⟩

theorem reachable_reach {s : sq_t} (h : Reachable s) : Reach s := by
  induction h with
  | init maxLevel min max nthreads => exact Reach.init _ _ _ _
  | add fuel key val topLevel tid r _ _ _ _ hadd ih =>
    exact Reach.add fuel key val topLevel tid r ih hadd
  | delmin fuel tid r _ hdel ih => exact Reach.delmin fuel tid r ih hdel

end Prioq

namespace Prioq

/-! ## Example runs -/

set_option maxRecDepth 100000 in
theorem ex_q1_add : sq_add 10 ex_q0 7 70 1 0 = .ok (1, ex_q1) := by decide

set_option maxRecDepth 100000 in
theorem ex_q2_add : sq_add 10 ex_q1 3 30 2 0 = .ok (1, ex_q2) := by decide

theorem ex_q1_reachable : Reachable ex_q1 :=
  Reachable.add 10 7 70 1 0 1 (Reachable.init 3 0 100 1) (by decide) (by decide) (by decide)
    ex_q1_add

set_option maxRecDepth 100000 in
theorem ex_q2_reachable : Reachable ex_q2 :=
  Reachable.add 10 3 30 2 0 1 ex_q1_reachable (by decide) (by decide) (by decide) ex_q2_add

set_option maxRecDepth 100000 in
theorem ex_q2_chain : chain ex_q2 0 = some [3, 2] := by decide

/-! ## Keys and values along the level-0 chain -/

theorem insert_after_last_le_eq (x : Int × Int) :
    ∀ (xs : List (Int × Int)), xs.Pairwise (fun a b => a.1 ≤ b.1) →
      insert_after_last_le x xs =
        xs.takeWhile (fun z => decide (z.1 ≤ x.1)) ++ x :: xs.dropWhile (fun z => decide (z.1 ≤ x.1))
  | [], _ => by simp [insert_after_last_le]
  | y :: ys, h => by
    rw [List.pairwise_cons] at h
    by_cases hy : y.1 ≤ x.1
    · have hany : (y :: ys).any (fun z => decide (z.1 ≤ x.1)) = true := by
        simp [hy]
      rw [insert_after_last_le, if_pos hany, insert_after_last_le_eq x ys h.2]
      simp [List.takeWhile, List.dropWhile, hy]
    · have hany : ¬ (y :: ys).any (fun z => decide (z.1 ≤ x.1)) = true := by
        simp only [List.any_eq_true, decide_eq_true_eq, not_exists, not_and]
        intro z hz
        rcases List.mem_cons.1 hz with e | e
        · rw [e]; exact hy
        · have := h.1 z e
          omega
      rw [insert_after_last_le, if_neg hany]
      simp [List.takeWhile, List.dropWhile, hy]

theorem kvs_heap {s : sq_t} {es : List Nat} (hH : Heap s es) :
    kvs s = some (es.map (fun p => (keyOf s.mem p, valOf s.mem p))) := by
  simp only [kvs, chain_heap_zero hH, Option.map_some']

theorem heap_elems_of_chain {s : sq_t} {es xs : List Nat} (hH : Heap s es)
    (h : chain s 0 = some xs) : es = xs := by
  rw [chain_heap_zero hH] at h
  exact Option.some.inj h

/-- C1. In every state reached from `sq_init` by `sq_add` calls with keys strictly between
the sentinel keys and levels below `maxLevel`, and by `sq_delmin` calls, a queue that holds
at least one element (its level-0 chain is `p :: rest`) makes `sq_delmin` return 1 after one
pass of its retry loop; the node stored in `*node` is `p`, the node that `head.nexts[0]`
pointed to; the key of `p` is at most the key of every other element; and afterwards the
level-0 chain is `rest`, with the keys and values of its nodes unchanged. -/
theorem C1_delmin_takes_first (s : sq_t) (tid p : Nat) (rest : List Nat) (h : Reachable s)
    (htid : tid < s.nthreads) (hne : chain s 0 = some (p :: rest)) (fuel : Nat)
    (hf : 1 ≤ fuel) :
    ∃ s1, sq_delmin fuel s tid = .ok ((1, p), s1) ∧
      nxt s.mem s.head 0 = some (some p) ∧
      (∀ q ∈ rest, keyOf s.mem p ≤ keyOf s.mem q) ∧
      chain s1 0 = some rest ∧
      (∀ q ∈ rest, keyOf s1.mem q = keyOf s.mem q ∧ valOf s1.mem q = valOf s.mem q) := by
  obtain ⟨es, hH, hs, hul⟩ := reach_heap (reachable_reach h)
  have hes := heap_elems_of_chain hH hne
  subst hes
  obtain ⟨f, hfe⟩ : ∃ f, fuel = f + 1 := ⟨fuel - 1, by omega⟩
  subst hfe
  obtain ⟨s1, e1, hH1, _, _, del1, _, _⟩ := sq_delmin_spec f hH hs hul htid
  refine ⟨s1, e1, ?_, ?_, chain_heap_zero hH1, ?_⟩
  · have := (hH.paths 0 (Nat.zero_le _)).head
    rw [lvl_zero] at this
    rw [hH.head_eq]
    simpa using this
  · exact (List.pairwise_cons.1 hH.sorted).1
  · intro q _
    exact ⟨(del1.keep q).1, (del1.keep q).2.1⟩

set_option maxRecDepth 100000 in
/-- C1 at the queue that holds the keys 3 and 7: the node of key 3 is taken. -/
theorem C1_delmin_takes_first_witness :
    Reachable ex_q2 ∧ chain ex_q2 0 = some [3, 2] ∧
    ∃ s1, sq_delmin 1 ex_q2 0 = .ok ((1, 3), s1) ∧
      nxt ex_q2.mem ex_q2.head 0 = some (some 3) ∧
      (∀ q ∈ [2], keyOf ex_q2.mem 3 ≤ keyOf ex_q2.mem q) ∧
      chain s1 0 = some [2] ∧
      (∀ q ∈ [2], keyOf s1.mem q = keyOf ex_q2.mem q ∧ valOf s1.mem q = valOf ex_q2.mem q) :=
  ⟨ex_q2_reachable, ex_q2_chain,
    C1_delmin_takes_first ex_q2 0 3 [2] ex_q2_reachable (by decide) ex_q2_chain 1 (le_refl 1)⟩

/-- C2. In every state reached from `sq_init` by returning calls of `sq_add` and `sq_delmin`,
for every key below the key of the tail (so for every key strictly between the sentinel
keys), every value and every sampled level `t < maxLevel`, `sq_add` returns 1 (with any fuel
of at least the number of elements plus 3); afterwards the level-0 sequence of (key, val)
pairs is the old one with the new pair put immediately after the last element whose key is
at most the new key, that is after the elements that the old sequence starts with whose key
is at most the new key and before the others; and the new node, at the address
`s.mem.length`, is in the level-`l` chain exactly for the levels `l ≤ t`. -/
theorem C2_add_after_equal_keys (s : sq_t) (key val : Int) (t tid : Nat) (h : Reach s)
    (hk : key < keyOf s.mem s.tail) (ht : t < s.maxLevel) (htid : tid < s.nthreads) :
    ∃ old, kvs s = some old ∧ ∀ fuel, old.length + 3 ≤ fuel →
      ∃ s1, sq_add fuel s key val t tid = .ok (1, s1) ∧
        kvs s1 = some (insert_after_last_le (key, val) old) ∧
        insert_after_last_le (key, val) old =
          old.takeWhile (fun z => decide (z.1 ≤ key)) ++
            (key, val) :: old.dropWhile (fun z => decide (z.1 ≤ key)) ∧
        keyOf s1.mem s.mem.length = key ∧ valOf s1.mem s.mem.length = val ∧
        (∀ l, l ≤ s.maxLevel → ∃ xs, chain s1 l = some xs ∧ (s.mem.length ∈ xs ↔ l ≤ t)) := by
  obtain ⟨es, hH, hs, hul⟩ := reach_heap h
  rw [hH.tail_eq] at hk
  refine ⟨_, kvs_heap hH, ?_⟩
  intro fuel hf
  rw [List.length_map] at hf
  obtain ⟨s1, e1, hH1, _, _, ins1, hM, _⟩ := sq_add_spec (v := val) hH hs hul hk ht htid
    (by omega : es.length + 2 < fuel)
  have hnew := obs_of_core ins1.new
  have hsorted : (es.map (fun p => (keyOf s.mem p, valOf s.mem p))).Pairwise
      (fun a b => a.1 ≤ b.1) := by
    rw [List.pairwise_map]
    exact hH.sorted
  have heq := insert_after_last_le_eq (key, val) _ hsorted
  have hkv : ∀ p ∈ es, (keyOf s1.mem p, valOf s1.mem p) = (keyOf s.mem p, valOf s.mem p) := by
    intro p hp
    have := ins1.obsI (hH.elems p hp).2.1
    rw [this.1, this.2.1]
  refine ⟨s1, e1, ?_, heq, hnew.1, hnew.2.1, ?_⟩
  · rw [kvs_heap hH1, heq, List.takeWhile_map, List.dropWhile_map, List.map_append, List.map_cons,
      hnew.1, hnew.2.1]
    have e1 : (pre s.mem key es).map (fun p => (keyOf s1.mem p, valOf s1.mem p)) =
        (pre s.mem key es).map (fun p => (keyOf s.mem p, valOf s.mem p)) :=
      List.map_congr_left (fun p hp => hkv p (mem_pre_sub hp))
    have e2 : (post s.mem key es).map (fun p => (keyOf s1.mem p, valOf s1.mem p)) =
        (post s.mem key es).map (fun p => (keyOf s.mem p, valOf s.mem p)) :=
      List.map_congr_left (fun p hp => hkv p (mem_post_sub hp))
    rw [e1, e2]
    rfl
  · intro l hl
    rw [← hM] at hl
    refine ⟨_, chain_heap hH1 hl, ?_⟩
    rw [mem_lvl, hnew.2.2.1]
    constructor
    · intro hh; exact hh.2
    · intro hh; exact ⟨by simp, hh⟩

set_option maxRecDepth 100000 in
/-- C2 at the queue that holds the key 7, for the new key 3 with sampled level 2. -/
theorem C2_add_after_equal_keys_witness :
    Reach ex_q1 ∧
    ∃ old, kvs ex_q1 = some old ∧ ∀ fuel, old.length + 3 ≤ fuel →
      ∃ s1, sq_add fuel ex_q1 3 30 2 0 = .ok (1, s1) ∧
        kvs s1 = some (insert_after_last_le (3, 30) old) ∧
        insert_after_last_le (3, 30) old =
          old.takeWhile (fun z => decide (z.1 ≤ 3)) ++
            (3, 30) :: old.dropWhile (fun z => decide (z.1 ≤ 3)) ∧
        keyOf s1.mem ex_q1.mem.length = 3 ∧ valOf s1.mem ex_q1.mem.length = 30 ∧
        (∀ l, l ≤ ex_q1.maxLevel →
          ∃ xs, chain s1 l = some xs ∧ (ex_q1.mem.length ∈ xs ↔ l ≤ 2)) :=
  ⟨reachable_reach ex_q1_reachable,
    C2_add_after_equal_keys ex_q1 3 30 2 0 (reachable_reach ex_q1_reachable) (by decide)
      (by decide) (by decide)⟩

end Prioq

namespace Prioq

/-! ## A series of insertions followed by a series of extractions -/

theorem add_all_spec {tid fuel : Nat} :
    ∀ (items : List (Int × Int × Nat)) (s : sq_t) (es : List Nat), Inv s es →
      es.Pairwise (comes_before s.mem) →
      (∀ x ∈ items, keyOf s.mem 0 < x.1 ∧ x.1 < keyOf s.mem 1 ∧ x.2.2 < s.maxLevel) →
      tid < s.nthreads → es.length + items.length + 3 ≤ fuel →
      ∃ s1 es1, add_all fuel s items tid = .ok s1 ∧ Inv s1 es1 ∧
        es1.Pairwise (comes_before s1.mem) ∧
        es1.Perm (es ++ List.range' s.mem.length items.length) ∧
        s1.nthreads = s.nthreads ∧
        (∀ q, q < s.mem.length →
          keyOf s1.mem q = keyOf s.mem q ∧ valOf s1.mem q = valOf s.mem q) ∧
        (∀ i (hi : i < items.length), keyOf s1.mem (s.mem.length + i) = (items[i]).1 ∧
          valOf s1.mem (s.mem.length + i) = (items[i]).2.1)
  | [], s, es, hI, hlex, _, _, _ => by
    refine ⟨s, es, rfl, hI, hlex, by simp, rfl, fun q _ => ⟨rfl, rfl⟩, ?_⟩
    intro i hi
    simp at hi
  | (k, v, t) :: xs, s, es, hI, hlex, hx, htid, hf => by
    have hxk := hx (k, v, t) (by simp)
    simp only at hxk
    obtain ⟨s1, e1, hI1, ins1, hM1, hN1⟩ := sq_add_inv (v := v) hI hxk.1 hxk.2.1
      hxk.2.2 htid (by simp only [List.length_cons] at hf; omega : es.length + 2 < fuel)
    have hH := hI.1
    have hlen := hH.len
    have hnew := obs_of_core ins1.new
    have hes : ∀ p ∈ es, p < s.mem.length := fun p hp => (hH.elems p hp).2.1
    have hkey : ∀ q, q < s.mem.length → keyOf s1.mem q = keyOf s.mem q ∧
        valOf s1.mem q = valOf s.mem q := fun q hq => ⟨(ins1.obsI hq).1, (ins1.obsI hq).2.1⟩
    -- the order of the new list
    have hlex1 : (pre s.mem k es ++ s.mem.length :: post s.mem k es).Pairwise
        (comes_before s1.mem) := by
      have hsplit := pre_append_post s.mem k es
      have hlex0 := hlex
      rw [← hsplit, List.pairwise_append] at hlex0
      have hcb : ∀ a ∈ es, ∀ b ∈ es, comes_before s.mem a b → comes_before s1.mem a b := by
        intro a ha b hb hab
        unfold comes_before at hab ⊢
        rw [(hkey a (hes a ha)).1, (hkey b (hes b hb)).1]
        exact hab
      rw [List.pairwise_append]
      refine ⟨?_, ?_, ?_⟩
      · exact hlex0.1.imp_of_mem (fun ha hb hab => hcb _ (mem_pre_sub ha) _ (mem_pre_sub hb) hab)
      · rw [List.pairwise_cons]
        refine ⟨?_, hlex0.2.1.imp_of_mem
          (fun ha hb hab => hcb _ (mem_post_sub ha) _ (mem_post_sub hb) hab)⟩
        intro b hb
        left
        rw [hnew.1, (hkey b (hes b (mem_post_sub hb))).1]
        exact mem_post_gt hH.sorted b hb
      · intro a ha b hb
        rcases List.mem_cons.1 hb with h | h
        · rw [h]
          unfold comes_before
          rw [hnew.1, (hkey a (hes a (mem_pre_sub ha))).1]
          have hle := mem_pre_le ha
          have halt := hes a (mem_pre_sub ha)
          rcases lt_or_eq_of_le hle with h1 | h1
          · exact Or.inl h1
          · exact Or.inr ⟨h1, halt⟩
        · exact hcb a (mem_pre_sub ha) b (mem_post_sub h) (hlex0.2.2 a ha b h)
    have hx1 : ∀ x ∈ xs, keyOf s1.mem 0 < x.1 ∧ x.1 < keyOf s1.mem 1 ∧ x.2.2 < s1.maxLevel := by
      intro x hxm
      have := hx x (List.mem_cons_of_mem _ hxm)
      rw [(hkey 0 (by omega)).1, (hkey 1 (by omega)).1, hM1]
      exact this
    have hlen1 : (pre s.mem k es ++ s.mem.length :: post s.mem k es).length = es.length + 1 := by
      have := congrArg List.length (pre_append_post s.mem k es)
      simp only [List.length_append, List.length_cons] at this ⊢
      omega
    have hf1 : (pre s.mem k es ++ s.mem.length :: post s.mem k es).length + xs.length + 3 ≤
        fuel := by
      rw [hlen1]; simp only [List.length_cons] at hf; omega
    obtain ⟨s2, es2, e2, hI2, hlex2, hperm2, hN2, hkey2, hnew2⟩ :=
      add_all_spec xs s1 _ hI1 hlex1 hx1 (by rw [hN1]; exact htid) hf1
    refine ⟨s2, es2, ?_, hI2, hlex2, ?_, by rw [hN2, hN1], ?_, ?_⟩
    · simp only [add_all, e1, ok_bind]
      exact e2
    · refine hperm2.trans ?_
      rw [ins1.len, List.length_cons, List.range'_succ]
      have h1 : (pre s.mem k es ++ s.mem.length :: post s.mem k es).Perm
          (s.mem.length :: es) := by
        have := @List.perm_middle _ s.mem.length (pre s.mem k es) (post s.mem k es)
        rw [pre_append_post] at this
        exact this
      refine (List.Perm.append_right _ h1).trans ?_
      simp only [List.cons_append]
      exact (@List.perm_middle _ s.mem.length es (List.range' (s.mem.length + 1) xs.length)).symm
    · intro q hq
      have := hkey2 q (by rw [ins1.len]; omega)
      rw [this.1, this.2, (hkey q hq).1, (hkey q hq).2]
      exact ⟨rfl, rfl⟩
    · intro i hi
      cases i with
      | zero =>
        have := hkey2 s.mem.length (by rw [ins1.len]; omega)
        simp only [Nat.add_zero, List.getElem_cons_zero]
        rw [this.1, this.2, hnew.1, hnew.2.1]
        exact ⟨rfl, rfl⟩
      | succ j =>
        have hj : j < xs.length := by simpa using hi
        have := hnew2 j hj
        rw [ins1.len] at this
        simp only [List.getElem_cons_succ]
        have e : s.mem.length + (j + 1) = s.mem.length + 1 + j := by omega
        rw [e]
        exact this

theorem delmin_all_spec {tid fuel : Nat} (hf : 1 ≤ fuel) :
    ∀ (es : List Nat) (s : sq_t), Heap s es → Shape s → (∀ q, lockOf s.mem q = false) →
      tid < s.nthreads →
      ∃ s2, delmin_all fuel es.length s tid = .ok (es, s2) ∧
        ∀ q, keyOf s2.mem q = keyOf s.mem q ∧ valOf s2.mem q = valOf s.mem q
  | [], s, _, _, _, _ => ⟨s, rfl, fun _ => ⟨rfl, rfl⟩⟩
  | p :: rest, s, hH, hs, hul, htid => by
    obtain ⟨f, hfe⟩ : ∃ f, fuel = f + 1 := ⟨fuel - 1, by omega⟩
    obtain ⟨s1, e1, hH1, sh1, ul1, del1, _, hN1⟩ := sq_delmin_spec f hH hs hul htid
    rw [← hfe] at e1
    obtain ⟨s2, e2, hk2⟩ := delmin_all_spec hf rest s1 hH1 sh1 ul1 (by rw [hN1]; exact htid)
    refine ⟨s2, ?_, ?_⟩
    · simp only [List.length_cons, delmin_all, e1, ok_bind, e2]
    · intro q
      rw [(hk2 q).1, (hk2 q).2, (del1.keep q).1, (del1.keep q).2.1]
      exact ⟨rfl, rfl⟩

theorem sq_init_keys (maxLevel : Nat) (min max : Int) (nthreads : Nat) :
    keyOf (sq_init maxLevel min max nthreads).mem 0 = min ∧
      keyOf (sq_init maxLevel min max nthreads).mem 1 = max ∧
      (sq_init maxLevel min max nthreads).mem.length = 2 ∧
      (sq_init maxLevel min max nthreads).maxLevel = maxLevel ∧
      (sq_init maxLevel min max nthreads).nthreads = nthreads := by
  have hm := sq_init_mem maxLevel min max nthreads
  refine ⟨by simp [keyOf, hm], by simp [keyOf, hm], by simp [hm], rfl, rfl⟩

/-- C3. Starting from a freshly initialised queue, `N` serial `sq_add` calls with keys
strictly between the sentinel keys and sampled levels below `maxLevel`, followed by `N` serial
`sq_delmin` calls, all return; the node of the `i`-th insertion is at the address `2 + i` and
holds its key and value; the nodes that the extractions store are the inserted nodes, each
once; they come out by ascending key, and nodes of equal keys come out in the order of their
insertion (that is, the extraction sequence is the stable sort by key of the insertion
sequence); when the keys are distinct they come out strictly ascending. -/
theorem C3_extraction_is_stable_sort (maxLevel : Nat) (min max : Int) (nthreads tid : Nat)
    (items : List (Int × Int × Nat)) (hk : ∀ x ∈ items, min < x.1 ∧ x.1 < max)
    (ht : ∀ x ∈ items, x.2.2 < maxLevel) (htid : tid < nthreads) (fuel : Nat)
    (hf : items.length + 3 ≤ fuel) :
    ∃ s1 ps s2, add_all fuel (sq_init maxLevel min max nthreads) items tid = .ok s1 ∧
      delmin_all fuel items.length s1 tid = .ok (ps, s2) ∧
      ps.Perm (List.range' 2 items.length) ∧
      (∀ i (hi : i < items.length), keyOf s2.mem (2 + i) = (items[i]).1 ∧
        valOf s2.mem (2 + i) = (items[i]).2.1) ∧
      ps.Pairwise (fun a b => keyOf s2.mem a ≤ keyOf s2.mem b) ∧
      ps.Pairwise (fun a b => keyOf s2.mem a = keyOf s2.mem b → a < b) ∧
      ((items.map (fun x => x.1)).Nodup →
        ps.Pairwise (fun a b => keyOf s2.mem a < keyOf s2.mem b)) := by
  have hinit := sq_init_keys maxLevel min max nthreads
  obtain ⟨s1, es1, e1, hI1, hlex1, hperm1, hN1, _, hnew1⟩ :=
    add_all_spec items (sq_init maxLevel min max nthreads) []
      (sq_init_inv _ _ _ _) List.Pairwise.nil
      (fun x hx => by
        rw [hinit.1, hinit.2.1, hinit.2.2.2.1]
        exact ⟨(hk x hx).1, (hk x hx).2, ht x hx⟩)
      (by rw [hinit.2.2.2.2]; exact htid : tid < (sq_init maxLevel min max nthreads).nthreads)
      (by simp only [List.length_nil]; omega :
        ([] : List Nat).length + items.length + 3 ≤ fuel)
  rw [hinit.2.2.1] at hperm1 hnew1
  simp only [List.nil_append] at hperm1
  have hlen1 : es1.length = items.length := by
    rw [hperm1.length_eq, List.length_range']
  obtain ⟨s2, e2, hk2⟩ := delmin_all_spec (by omega : 1 ≤ fuel) es1 s1 hI1.1
    hI1.2.1 hI1.2.2.1 (by rw [hN1, hinit.2.2.2.2]; exact htid : tid < s1.nthreads)
  rw [hlen1] at e2
  have hlex2 : es1.Pairwise (comes_before s2.mem) := by
    refine hlex1.imp ?_
    intro a b hab
    unfold comes_before at hab ⊢
    rw [(hk2 a).1, (hk2 b).1]
    exact hab
  have hkeys : ∀ i (hi : i < items.length), keyOf s2.mem (2 + i) = (items[i]).1 ∧
      valOf s2.mem (2 + i) = (items[i]).2.1 := by
    intro i hi
    rw [(hk2 (2 + i)).1, (hk2 (2 + i)).2]
    exact hnew1 i hi
  refine ⟨s1, es1, s2, e1, e2, hperm1, hkeys, ?_, ?_, ?_⟩
  · refine hlex2.imp ?_
    intro a b hab
    rcases hab with h | h
    · exact le_of_lt h
    · exact le_of_eq h.1
  · refine hlex2.imp ?_
    intro a b hab he
    rcases hab with h | h
    · omega
    · exact h.2
  · intro hnd
    refine hlex2.imp_of_mem ?_
    intro a b ha hb hab
    rcases hab with h | h
    · exact h
    · exfalso
      have ha2 := (List.mem_range'_1.1 (hperm1.subset ha))
      have hb2 := (List.mem_range'_1.1 (hperm1.subset hb))
      have hia : a - 2 < items.length := by omega
      have hib : b - 2 < items.length := by omega
      have ka := (hkeys (a - 2) hia).1
      have kb := (hkeys (b - 2) hib).1
      rw [show 2 + (a - 2) = a by omega] at ka
      rw [show 2 + (b - 2) = b by omega] at kb
      have hia2 : a - 2 < (items.map (fun x => x.1)).length := by simpa using hia
      have hib2 : b - 2 < (items.map (fun x => x.1)).length := by simpa using hib
      have heq : (items.map (fun x => x.1))[a - 2] = (items.map (fun x => x.1))[b - 2] := by
        rw [List.getElem_map, List.getElem_map, ← ka, ← kb]
        exact h.1
      have := hnd.getElem_inj_iff.1 heq
      omega

set_option maxRecDepth 100000 in
/-- C3 at the insertions of the keys 5, 3, 5 (values 1, 2, 3): the nodes come out in the
order 3, 5, 5, the two nodes of key 5 in the order of their insertion. -/
theorem C3_extraction_is_stable_sort_witness :
    ∃ s1 ps s2, add_all 6 (sq_init 3 0 100 1) [(5, 1, 0), (3, 2, 1), (5, 3, 2)] 0 = .ok s1 ∧
      delmin_all 6 [(5, 1, 0), (3, 2, 1), ((5 : Int), (3 : Int), 2)].length s1 0 = .ok (ps, s2) ∧
      ps.Perm (List.range' 2 [(5, 1, 0), (3, 2, 1), ((5 : Int), (3 : Int), 2)].length) ∧
      (∀ i (hi : i < [(5, 1, 0), (3, 2, 1), ((5 : Int), (3 : Int), 2)].length),
        keyOf s2.mem (2 + i) = ([(5, 1, 0), (3, 2, 1), ((5 : Int), (3 : Int), 2)][i]).1 ∧
        valOf s2.mem (2 + i) = ([(5, 1, 0), (3, 2, 1), ((5 : Int), (3 : Int), 2)][i]).2.1) ∧
      ps.Pairwise (fun a b => keyOf s2.mem a ≤ keyOf s2.mem b) ∧
      ps.Pairwise (fun a b => keyOf s2.mem a = keyOf s2.mem b → a < b) ∧
      (([(5, 1, 0), (3, 2, 1), ((5 : Int), (3 : Int), 2)].map (fun x => x.1)).Nodup →
        ps.Pairwise (fun a b => keyOf s2.mem a < keyOf s2.mem b)) :=
  C3_extraction_is_stable_sort 3 0 100 1 0 [(5, 1, 0), (3, 2, 1), (5, 3, 2)] (by decide)
    (by decide) (by decide) 6 (by decide)

end Prioq

namespace Prioq

/-! ## Update -/

theorem node_val {s : sq_t} {p : Nat} (hp : p < s.mem.length) :
    ∃ n, node_at s (some p) = .ok n ∧ n.val = valOf s.mem p := by
  obtain ⟨n, hn, hna⟩ := node_at_ok (s := s) (p := p) hp
  exact ⟨n, hna, (obs_get hn).2.1.symm⟩

set_option maxRecDepth 100000 in
theorem ex_q1_chain : chain ex_q1 0 = some [2] := by decide

set_option maxRecDepth 100000 in
/-- Outside the key contract `min < key < max`: on the queue that holds the key 7 between
the sentinel keys 0 and 100, `sq_update` with the new key 100 never returns, whatever the
fuel. -/
theorem sq_update_at_max_spins :
    Reach ex_q1 ∧ chain ex_q1 0 = some [2] ∧ ∀ fuel, sq_update fuel ex_q1 100 5 0 0 = .spin := by
  refine ⟨reachable_reach ex_q1_reachable, ex_q1_chain, ?_⟩
  intro fuel
  obtain ⟨es, hH, hs, hul⟩ := reach_heap (reachable_reach ex_q1_reachable)
  have hes := heap_elems_of_chain hH ex_q1_chain
  subst hes
  cases fuel with
  | zero => simp [sq_update, sq_delmin, delmin_loop]
  | succ f =>
    obtain ⟨s1, e1, hH1, sh1, _, del1, hM1, hN1⟩ :=
      sq_delmin_spec f hH hs hul (by decide : 0 < ex_q1.nthreads)
    obtain ⟨n, hn, _⟩ := node_val (s := s1) (p := 2) (by rw [del1.len]; decide)
    have hk : keyOf s1.mem 1 ≤ 100 := by
      rw [(del1.keep 1).1]; decide
    have hadd := sq_add_div hH1 sh1 hk 5 0 0 (f + 1) (by rw [hM1]; decide) (by rw [hN1]; decide)
    simp only [sq_update, e1, ok_bind, hn, hadd, spin_bind]

/-- C4. In every state reached from `sq_init` by returning calls of `sq_add` and
`sq_delmin` that holds at least one element (its level-0 chain is `p :: rest`), for every new
key below the key of the tail (every key of the contract `min < key < max` is one), every
new value, every sampled level `t < maxLevel` and every thread in range,
`sq_update` returns 1, stores in `*old` the value of the node `p` that `sq_delmin` returns on
that state, and leaves the queue in the state `s2` that `sq_delmin` followed by `sq_add` with
the same sampled level produces; the number of elements is unchanged. -/
theorem C4_update_is_delmin_then_add (s : sq_t) (newkey newval : Int) (t tid p : Nat) (rest : List Nat)
    (h : Reach s) (hne : chain s 0 = some (p :: rest)) (hk : newkey < keyOf s.mem s.tail)
    (ht : t < s.maxLevel) (htid : tid < s.nthreads) (fuel : Nat)
    (hf : rest.length + 3 ≤ fuel) :
    ∃ s1 s2, sq_delmin fuel s tid = .ok ((1, p), s1) ∧
      sq_add fuel s1 newkey newval t tid = .ok (1, s2) ∧
      sq_update fuel s newkey newval t tid = .ok ((1, valOf s.mem p), s2) ∧
      ∃ es2, chain s2 0 = some es2 ∧ es2.length = (p :: rest).length := by
  obtain ⟨es, hH, hs, hul⟩ := reach_heap h
  have hes := heap_elems_of_chain hH hne
  subst hes
  obtain ⟨f, hfe⟩ : ∃ f, fuel = f + 1 := ⟨fuel - 1, by omega⟩
  obtain ⟨s1, e1, hH1, sh1, ul1, del1, hM1, hN1⟩ := sq_delmin_spec f hH hs hul htid
  rw [← hfe] at e1
  have hp := (hH.elems p (by simp)).2.1
  obtain ⟨n, hn, hnv⟩ := node_val (s := s1) (p := p) (by rw [del1.len]; exact hp)
  rw [(del1.keep p).2.1] at hnv
  rw [hH.tail_eq] at hk
  obtain ⟨s2, e2, hH2, _⟩ := sq_add_spec (v := newval) hH1 sh1 ul1
    (by rw [(del1.keep 1).1]; exact hk) (by rw [hM1]; exact ht) (by rw [hN1]; exact htid)
    (by omega : rest.length + 2 < fuel)
  refine ⟨s1, s2, e1, e2, ?_, _, chain_heap_zero hH2, ?_⟩
  · simp only [sq_update, e1, ok_bind, hn, e2, hnv]
  · have := congrArg List.length (pre_append_post s1.mem newkey rest)
    simp only [List.length_append, List.length_cons] at this ⊢
    omega

set_option maxRecDepth 100000 in
/-- C4 at the queue that holds the keys 3 and 7, for the new key 5. -/
theorem C4_update_is_delmin_then_add_witness :
    Reach ex_q2 ∧ chain ex_q2 0 = some [3, 2] ∧
    ∃ s1 s2, sq_delmin 10 ex_q2 0 = .ok ((1, 3), s1) ∧
      sq_add 10 s1 5 50 0 0 = .ok (1, s2) ∧
      sq_update 10 ex_q2 5 50 0 0 = .ok ((1, valOf ex_q2.mem 3), s2) ∧
      ∃ es2, chain s2 0 = some es2 ∧ es2.length = [3, 2].length :=
  ⟨reachable_reach ex_q2_reachable, ex_q2_chain,
    C4_update_is_delmin_then_add ex_q2 5 50 0 0 3 [2] (reachable_reach ex_q2_reachable) ex_q2_chain (by decide)
      (by decide) (by decide) 10 (by decide)⟩

/-! ## The invariants of the chains -/

set_option maxRecDepth 100000 in
/-- Outside the contract: a queue that `sq_init` made with `min > max`, which no key fits.
In the state produced by `sq_init(3, 5, 1, 1)` the level-0 chain goes from the head, of key
5, to the tail, of key 1. -/
theorem sq_init_swapped_sentinels :
    Reachable ex_q_swapped ∧ 0 < ex_q_swapped.maxLevel ∧
    ¬ ∃ xs, chain ex_q_swapped 0 = some xs ∧
      (ex_q_swapped.head :: xs ++ [ex_q_swapped.tail]).Pairwise
        (fun a b => keyOf ex_q_swapped.mem a ≤ keyOf ex_q_swapped.mem b) := by
  refine ⟨Reachable.init 3 5 1 1, by decide, ?_⟩
  rintro ⟨xs, hxs, hp⟩
  have hc : chain ex_q_swapped 0 = some [] := by decide
  rw [hc] at hxs
  have hx : xs = [] := (Option.some.inj hxs).symm
  subst hx
  have h01 := (List.pairwise_cons.1 hp).1 ex_q_swapped.tail (by simp)
  have hf : ¬ keyOf ex_q_swapped.mem ex_q_swapped.head ≤
      keyOf ex_q_swapped.mem ex_q_swapped.tail := by decide
  exact hf h01

/-- C5. In the state produced by `sq_init` and in every state reached from it by
`sq_add` calls with keys strictly between the sentinel keys and levels below `maxLevel`, and by
`sq_delmin` calls, when the key of the head is at most the key of the tail (`sq_init` was
called with `min ≤ max`, as for every queue that can hold an element), then for every level
`l < maxLevel` following `nexts[l]` from the head reaches the tail after at most as many
steps as there are nodes, and the keys along that chain, head and tail included, are
non-decreasing. -/
theorem C5_sorted_chains (s : sq_t) (l : Nat) (h : Reachable s)
    (hmm : keyOf s.mem s.head ≤ keyOf s.mem s.tail) (hl : l < s.maxLevel) :
    ∃ xs, chain s l = some xs ∧
      (s.head :: xs ++ [s.tail]).Pairwise (fun a b => keyOf s.mem a ≤ keyOf s.mem b) := by
  obtain ⟨es, hH, _, _, hlb⟩ := reachable_inv h
  refine ⟨_, chain_heap hH (Nat.le_of_lt hl), ?_⟩
  rw [hH.head_eq, hH.tail_eq] at hmm ⊢
  have hsub : ∀ p ∈ lvl s.mem l es, p ∈ es := fun p hp => (mem_lvl.1 hp).1
  rw [List.cons_append, List.pairwise_cons, List.pairwise_append]
  refine ⟨?_, hH.sorted.sublist (List.filter_sublist _), by simp, ?_⟩
  · intro b hb
    rcases List.mem_append.1 hb with h1 | h1
    · exact le_of_lt (hlb b (hsub b h1))
    · rw [List.mem_singleton] at h1
      rw [h1]; exact hmm
  · intro a ha b hb
    rw [List.mem_singleton] at hb
    rw [hb]
    exact le_of_lt (hH.elems a (hsub a ha)).2.2.2.2.2.2

set_option maxRecDepth 100000 in
/-- C5 at level 1 of the queue that holds the keys 3 and 7. -/
theorem C5_sorted_chains_witness :
    Reachable ex_q2 ∧ keyOf ex_q2.mem ex_q2.head ≤ keyOf ex_q2.mem ex_q2.tail ∧
    ∃ xs, chain ex_q2 1 = some xs ∧
      (ex_q2.head :: xs ++ [ex_q2.tail]).Pairwise
        (fun a b => keyOf ex_q2.mem a ≤ keyOf ex_q2.mem b) :=
  ⟨ex_q2_reachable, by decide, C5_sorted_chains ex_q2 1 ex_q2_reachable (by decide) (by decide)⟩

/-- C6. In every state reached from `sq_init` by returning calls of `sq_add` and `sq_delmin`,
for every level `l < maxLevel` and every level `l1 ≤ l`, the level-`l` chain is a sublist of
the level-`l1` chain: every node linked at level `l` is linked at every level below, and the
level-`l` chain lists its nodes in the order of the level-0 chain. -/
theorem C6_tower_contiguity (s : sq_t) (l l1 : Nat) (h : Reach s) (hl : l < s.maxLevel)
    (hl1 : l1 ≤ l) :
    ∃ xs ys, chain s l = some xs ∧ chain s l1 = some ys ∧ xs.Sublist ys := by
  obtain ⟨es, hH, _, _⟩ := reach_heap h
  refine ⟨_, _, chain_heap hH (Nat.le_of_lt hl), chain_heap hH (by omega), ?_⟩
  unfold lvl
  apply List.monotone_filter_right
  intro p hp
  simp only [decide_eq_true_eq] at hp ⊢
  omega

set_option maxRecDepth 100000 in
/-- C6 at the levels 2 and 0 of the queue that holds the keys 3 and 7. -/
theorem C6_tower_contiguity_witness :
    Reach ex_q2 ∧ ∃ xs ys, chain ex_q2 2 = some xs ∧ chain ex_q2 0 = some ys ∧ xs.Sublist ys :=
  ⟨reachable_reach ex_q2_reachable,
    C6_tower_contiguity ex_q2 2 0 (reachable_reach ex_q2_reachable) (by decide) (by decide)⟩

/-- C7. In every state reached from `sq_init` by returning calls of `sq_add` and `sq_delmin`,
every node reachable from the head at level 0, the head and the tail included, has
`marked = 0`, and every such node other than the sentinels has `fullyLinked = 1`; the node
that a call of `sq_delmin` returns is then no longer in the level-0 chain and has
`marked = 1`. -/
theorem C7_flags (s : sq_t) (h : Reach s) :
    ∃ es, chain s 0 = some es ∧
      (∀ p ∈ s.head :: es ++ [s.tail], markedOf s.mem p = 0) ∧
      (∀ p ∈ es, flOf s.mem p = 1) ∧
      (∀ fuel tid r p s1, sq_delmin fuel s tid = .ok ((r, p), s1) →
        ∃ es1, chain s1 0 = some es1 ∧ p ∉ es1 ∧ markedOf s1.mem p = 1) := by
  obtain ⟨es, hH, hs, hul⟩ := reach_heap h
  refine ⟨es, chain_heap_zero hH, ?_, fun p hp => (hH.elems p hp).2.2.2.2.2.1, ?_⟩
  · intro p hp
    rw [hH.head_eq, hH.tail_eq] at hp
    rcases List.mem_cons.1 hp with h1 | h1
    · rw [h1]; exact hH.hd_marked
    · rcases List.mem_append.1 h1 with h2 | h2
      · exact (hH.elems p h2).2.2.2.2.1
      · rw [List.mem_singleton] at h2
        rw [h2]; exact hH.tl_marked
  · intro fuel tid r p s1 hdel
    have htid := sq_delmin_tid hH hs hdel
    cases es with
    | nil =>
      rw [sq_delmin_empty hH hs htid fuel] at hdel
      cases hdel
    | cons p0 rest =>
      cases fuel with
      | zero => simp [sq_delmin, delmin_loop] at hdel
      | succ f =>
        obtain ⟨s2, e2, hH2, _, _, del2, _, _⟩ := sq_delmin_spec f hH hs hul htid
        rw [e2] at hdel
        have hinj := Prod.mk.inj (Res.ok.inj hdel)
        have hp : p0 = p := (Prod.mk.inj hinj.1).2
        rw [← hinj.2, ← hp]
        refine ⟨rest, chain_heap_zero hH2, (List.nodup_cons.1 hH.nodup).1, ?_⟩
        exact (obs_of_core del2.del).2.2.2.1

set_option maxRecDepth 100000 in
theorem ex_q3_delmin : sq_delmin 1 ex_q2 0 = .ok ((1, 3), ex_q3) := by decide

set_option maxRecDepth 100000 in
/-- C7 at the queue that holds the keys 3 and 7, and at the extraction of the node of key 3. -/
theorem C7_flags_witness :
    Reach ex_q2 ∧
    ∃ es, chain ex_q2 0 = some es ∧
      (∀ p ∈ ex_q2.head :: es ++ [ex_q2.tail], markedOf ex_q2.mem p = 0) ∧
      (∀ p ∈ es, flOf ex_q2.mem p = 1) ∧
      (∃ es1, chain ex_q3 0 = some es1 ∧ 3 ∉ es1 ∧ markedOf ex_q3.mem 3 = 1) := by
  obtain ⟨es, h1, h2, h3, h4⟩ := C7_flags ex_q2 (reachable_reach ex_q2_reachable)
  exact ⟨reachable_reach ex_q2_reachable, es, h1, h2, h3, h4 1 0 1 3 ex_q3 ex_q3_delmin⟩

end Prioq

namespace Prioq

/-! ## The empty queue -/

theorem heap_empty_iff {s : sq_t} {es : List Nat} (hH : Heap s es) :
    nxt s.mem s.head 0 = some (some s.tail) ↔ es = [] := by
  have hfirst := (hH.paths 0 (Nat.zero_le _)).head
  rw [lvl_zero] at hfirst
  rw [hH.head_eq, hH.tail_eq, hfirst]
  constructor
  · intro he
    cases es with
    | nil => rfl
    | cons p rest =>
      exfalso
      have hp := (hH.elems p (by simp)).1
      simp only [List.headD_cons, Option.some.injEq] at he
      omega
  · intro he
    rw [he]
    rfl

/-- C8. In every state reached from `sq_init` by returning calls of `sq_add` and `sq_delmin`,
for a thread identifier in range, `sq_delmin` returns if and only if the queue holds at
least one element: when `head.nexts[0]` is not the tail (the level-0 chain is not empty) it
returns after one pass of its retry loop, and when `head.nexts[0]` is the tail it never
returns, whatever the fuel. -/
theorem C8_delmin_returns_iff_nonempty (s : sq_t) (tid : Nat) (h : Reach s)
    (htid : tid < s.nthreads) :
    (nxt s.mem s.head 0 ≠ some (some s.tail) ↔ ∃ p rest, chain s 0 = some (p :: rest)) ∧
    (nxt s.mem s.head 0 ≠ some (some s.tail) → ∃ p s1, sq_delmin 1 s tid = .ok ((1, p), s1)) ∧
    (nxt s.mem s.head 0 = some (some s.tail) → ∀ fuel, sq_delmin fuel s tid = .spin) ∧
    ((∃ fuel r s1, sq_delmin fuel s tid = .ok (r, s1)) ↔
      nxt s.mem s.head 0 ≠ some (some s.tail)) := by
  obtain ⟨es, hH, hs, hul⟩ := reach_heap h
  have hiff := heap_empty_iff hH
  have hchain := chain_heap_zero hH
  have hret : nxt s.mem s.head 0 ≠ some (some s.tail) →
      ∃ p s1, sq_delmin 1 s tid = .ok ((1, p), s1) := by
    intro hne
    cases es with
    | nil => exact absurd (hiff.2 rfl) hne
    | cons p rest =>
      obtain ⟨s1, e1, _⟩ := sq_delmin_spec 0 hH hs hul htid
      exact ⟨p, s1, e1⟩
  have hspin : nxt s.mem s.head 0 = some (some s.tail) → ∀ fuel, sq_delmin fuel s tid = .spin := by
    intro he fuel
    have hnil := hiff.1 he
    subst hnil
    exact sq_delmin_empty hH hs htid fuel
  refine ⟨?_, hret, hspin, ?_⟩
  · rw [hchain]
    constructor
    · intro hne
      cases es with
      | nil => exact absurd (hiff.2 rfl) hne
      | cons p rest => exact ⟨p, rest, rfl⟩
    · rintro ⟨p, rest, he⟩ hcon
      rw [hiff.1 hcon] at he
      cases he
  · constructor
    · rintro ⟨fuel, r, s1, he⟩ hcon
      rw [hspin hcon fuel] at he
      cases he
    · intro hne
      obtain ⟨p, s1, e1⟩ := hret hne
      exact ⟨1, (1, p), s1, e1⟩

set_option maxRecDepth 100000 in
/-- C8 at the queue that holds the keys 3 and 7, where `sq_delmin` returns after one pass,
and at the empty queue, where it never returns. -/
theorem C8_delmin_returns_iff_nonempty_witness :
    Reach ex_q2 ∧ Reach ex_q0 ∧
    (∃ p s1, sq_delmin 1 ex_q2 0 = .ok ((1, p), s1)) ∧
    (∀ fuel, sq_delmin fuel ex_q0 0 = .spin) ∧
    ((∃ fuel r s1, sq_delmin fuel ex_q2 0 = .ok (r, s1)) ↔
      nxt ex_q2.mem ex_q2.head 0 ≠ some (some ex_q2.tail)) :=
  ⟨reachable_reach ex_q2_reachable, Reach.init 3 0 100 1,
    (C8_delmin_returns_iff_nonempty ex_q2 0 (reachable_reach ex_q2_reachable)
      (by decide)).2.1 (by decide),
    (C8_delmin_returns_iff_nonempty ex_q0 0 (Reach.init 3 0 100 1) (by decide)).2.2.1
      (by decide),
    (C8_delmin_returns_iff_nonempty ex_q2 0 (reachable_reach ex_q2_reachable)
      (by decide)).2.2.2⟩

/-- C9. In every state reached from `sq_init` by returning calls of `sq_add` and `sq_delmin`
that holds no element (`head.nexts[0]` is the tail), for a thread identifier in range, the
Strategy B extraction `sq_alt_delmin` returns 0 after one pass, stores nothing in `*node`,
and leaves the memory of the nodes as it was: the next pointers, the `marked` and
`fullyLinked` flags and the locks of all nodes are unchanged. -/
theorem C9_alt_delmin_empty (s : sq_t) (tid : Nat) (prev0 : Option Nat) (hl0 : Int)
    (h : Reach s) (hempty : nxt s.mem s.head 0 = some (some s.tail))
    (htid : tid < s.nthreads) (fuel : Nat) (hf : 1 ≤ fuel) :
    ∃ s1, sq_alt_delmin fuel s tid prev0 hl0 = .ok ((0, none), s1) ∧ s1.mem = s.mem := by
  obtain ⟨es, hH, hs, _⟩ := reach_heap h
  obtain ⟨f, hfe⟩ : ∃ f, fuel = f + 1 := ⟨fuel - 1, by omega⟩
  subst hfe
  obtain ⟨s1, e1, q1, _, _⟩ := pptr_spec (s := s) (p := s.head) (l := 0) hs htid hempty
  have ht1 : tid < s.thread_ws.length := by rw [hs.1]; exact htid
  refine ⟨s1, ?_, q1.1⟩
  have htail : s.tail = s1.tail := q1.2.2.2.2.symm
  simp only [sq_alt_delmin, if_pos ht1, alt_claim, e1, ok_bind, htail, if_true]

set_option maxRecDepth 100000 in
/-- C9 at the empty queue `sq_init(3, 0, 100, 1)`. -/
theorem C9_alt_delmin_empty_witness :
    Reach ex_q0 ∧ nxt ex_q0.mem ex_q0.head 0 = some (some ex_q0.tail) ∧
    ∃ s1, sq_alt_delmin 1 ex_q0 0 none 0 = .ok ((0, none), s1) ∧ s1.mem = ex_q0.mem :=
  ⟨Reach.init 3 0 100 1, by decide,
    C9_alt_delmin_empty ex_q0 0 none 0 (Reach.init 3 0 100 1) (by decide) (by decide) 1
      (le_refl 1)⟩

/-! ## Keys outside the sentinel keys -/

set_option maxRecDepth 100000 in
/-- C10 fails for a key below the key of the head: on the queue `sq_init(3, 0, 100, 1)`,
`sq_add` of the key -4 does not abort; it returns 1 and links a node with that key. -/
theorem C10_low_key_is_linked_counterexample :
    sq_add 10 (sq_init 3 0 100 1) (-4) 1 0 0 = .ok (1, ex_q_low) ∧
      kvs ex_q_low = some [(-4, 1)] := by
  decide

/-- C10, amended. `sq_add` does not check the key at entry and never aborts because of it.
In every state reached from `sq_init` by `sq_add` calls with keys strictly between the
sentinel keys and by `sq_delmin` calls, for a sampled level `t < maxLevel`: for a key at most
the key of the head (and below the key of the tail), `sq_add` returns 1 and links the new
node, with that key, as the first node of the level-0 chain; for a key at least the key of the
tail, `sq_add` never returns (the search restarts for ever), so it does not return 1 and
links no node. -/
theorem C10_key_out_of_bounds (s : sq_t) (key val : Int) (t tid : Nat) (h : Reachable s)
    (ht : t < s.maxLevel) (htid : tid < s.nthreads) :
    (key ≤ keyOf s.mem s.head → key < keyOf s.mem s.tail →
      ∃ es, chain s 0 = some es ∧ ∀ fuel, es.length + 3 ≤ fuel →
      ∃ s1, sq_add fuel s key val t tid = .ok (1, s1) ∧
        chain s1 0 = some (s.mem.length :: es) ∧ keyOf s1.mem s.mem.length = key) ∧
    (keyOf s.mem s.tail ≤ key → ∀ fuel, sq_add fuel s key val t tid = .spin) := by
  obtain ⟨es, hH, hs, hul, hlb⟩ := reachable_inv h
  rw [hH.head_eq, hH.tail_eq]
  constructor
  · intro hk hktl
    refine ⟨es, chain_heap_zero hH, ?_⟩
    intro fuel hf
    obtain ⟨s1, e1, hH1, _, _, ins1, _, _⟩ := sq_add_spec (v := val) hH hs hul hktl ht htid
      (by omega : es.length + 2 < fuel)
    have hpre : pre s.mem key es = [] := by
      unfold pre
      cases es with
      | nil => rfl
      | cons p rest =>
        have h1 := hlb p (by simp)
        have hnot : ¬ keyOf s.mem p ≤ key := by omega
        simp [List.takeWhile, hnot]
    have hpost : post s.mem key es = es := by
      have := pre_append_post s.mem key es
      rw [hpre] at this
      simpa using this
    refine ⟨s1, e1, ?_, (obs_of_core ins1.new).1⟩
    have := chain_heap_zero hH1
    rw [hpre, hpost] at this
    simpa using this
  · intro hk fuel
    exact sq_add_div hH hs hk val t tid fuel ht htid

set_option maxRecDepth 100000 in
/-- C10, amended, at the queue that holds the key 7, for the keys -4 and 100. -/
theorem C10_key_out_of_bounds_witness :
    Reachable ex_q1 ∧
    (∃ es, chain ex_q1 0 = some es ∧ ∀ fuel, es.length + 3 ≤ fuel →
      ∃ s1, sq_add fuel ex_q1 (-4) 1 0 0 = .ok (1, s1) ∧
        chain s1 0 = some (ex_q1.mem.length :: es) ∧ keyOf s1.mem ex_q1.mem.length = -4) ∧
    (∀ fuel, sq_add fuel ex_q1 100 1 0 0 = .spin) :=
  ⟨ex_q1_reachable,
    (C10_key_out_of_bounds ex_q1 (-4) 1 0 0 ex_q1_reachable (by decide) (by decide)).1
      (by decide) (by decide),
    (C10_key_out_of_bounds ex_q1 100 1 0 0 ex_q1_reachable (by decide) (by decide)).2
      (by decide)⟩

end Prioq

namespace Prioq

/-! ## What a returning call tells -/

/-- A call of `sq_add` that returns on a state that holds a skiplist had a thread id and a
level in range and a key below the key of the tail, and it inserted a node. -/
theorem sq_add_returns {s s1 : sq_t} {es : List Nat} {key val : Int} {t tid fuel : Nat} {r : Int}
    (hH : Heap s es) (hs : Shape s) (hul : ∀ q, lockOf s.mem q = false)
    (hadd : sq_add fuel s key val t tid = .ok (r, s1)) :
    tid < s.nthreads ∧ t < s.maxLevel ∧ key < keyOf s.mem 1 ∧ r = 1 ∧
      Heap s1 (pre s.mem key es ++ s.mem.length :: post s.mem key es) ∧ Shape s1 ∧
      (∀ q, lockOf s1.mem q = false) ∧
      Inserted s.mem s1.mem key val t (predAt s.mem key es) (succAt s.mem key es) ∧
      s1.maxLevel = s.maxLevel ∧ s1.nthreads = s.nthreads := by
  have htid : tid < s.nthreads := by
    by_contra hcon
    unfold sq_add at hadd
    rw [hs.1, if_neg hcon] at hadd
    cases hadd
  have ht : t < s.maxLevel := by
    by_contra hcon
    unfold sq_add at hadd
    rw [hs.1, if_pos htid, if_neg hcon] at hadd
    cases hadd
  have hk : key < keyOf s.mem 1 := by
    by_contra hcon
    rw [sq_add_div hH hs (not_lt.1 hcon) val t tid fuel ht htid] at hadd
    cases hadd
  obtain ⟨s2, e2, hH2, sh2, ul2, ins2, hM, hN⟩ := sq_add_spec (v := val)
    hH hs hul hk ht htid (by omega : es.length + 2 < max fuel (es.length + 3))
  have := mono_le (f := fun n => sq_add n s key val t tid)
    (fun n => sq_add_mono n s key val t tid) (le_max_left fuel (es.length + 3)) hadd
  simp only at this
  rw [e2] at this
  have hinj := Prod.mk.inj (Res.ok.inj this)
  rw [← hinj.2]
  exact ⟨htid, ht, hk, hinj.1.symm, hH2, sh2, ul2, ins2, hM, hN⟩

/-- A call of `sq_delmin` that returns on a state that holds a skiplist had a thread id in
range, found an element, and unlinked the first one. -/
theorem sq_delmin_returns {s s1 : sq_t} {es : List Nat} {tid fuel : Nat} {r : Int × Nat}
    (hH : Heap s es) (hs : Shape s) (hul : ∀ q, lockOf s.mem q = false)
    (hdel : sq_delmin fuel s tid = .ok (r, s1)) :
    tid < s.nthreads ∧ ∃ rest, es = r.2 :: rest ∧ r.1 = 1 ∧ Heap s1 rest ∧ Shape s1 ∧
      (∀ q, lockOf s1.mem q = false) ∧ Deleted s.mem s1.mem r.2 ∧
      s1.maxLevel = s.maxLevel ∧ s1.nthreads = s.nthreads := by
  have htid := sq_delmin_tid hH hs hdel
  refine ⟨htid, ?_⟩
  cases es with
  | nil =>
    rw [sq_delmin_empty hH hs htid fuel] at hdel
    cases hdel
  | cons p rest =>
    cases fuel with
    | zero => simp [sq_delmin, delmin_loop] at hdel
    | succ f =>
      obtain ⟨s2, e2, hH2, sh2, ul2, del2, hM, hN⟩ := sq_delmin_spec f hH hs hul htid
      rw [e2] at hdel
      have hinj := Prod.mk.inj (Res.ok.inj hdel)
      rw [← hinj.2, ← hinj.1]
      exact ⟨rest, rfl, rfl, hH2, sh2, ul2, del2, hM, hN⟩

/-! ## The towers of all allocated nodes -/

/-- In every state of a run, each node other than the two sentinels, linked or not, has a
top level below `maxLevel` and a tower of `topLevel + 1` slots. -/
theorem reach_tops {s : sq_t} (h : Reach s) :
    ∀ q, 2 ≤ q → q < s.mem.length →
      topOf s.mem q < s.maxLevel ∧ towerLen s.mem q = topOf s.mem q + 1 := by
  induction h with
  | init maxLevel min max nthreads =>
    intro q h2 hq
    have : (sq_init maxLevel min max nthreads).mem.length = 2 := by simp [sq_init]
    omega
  | @add s s1 fuel key val topLevel tid r hr hadd ih =>
    obtain ⟨es, hH, hs, hul⟩ := reach_heap hr
    obtain ⟨_, ht, _, _, _, _, _, ins, hM, _⟩ := sq_add_returns hH hs hul hadd
    intro q h2 hq
    rw [ins.len] at hq
    rw [hM]
    by_cases hqn : q = s.mem.length
    · have := obs_of_core ins.new
      rw [hqn, this.2.2.1, this.2.2.2.2.2]
      exact ⟨ht, rfl⟩
    · have hlt : q < s.mem.length := by omega
      have := ins.obsI hlt
      rw [this.2.2.1, this.2.2.2.2.2.1]
      exact ih q h2 hlt
  | @delmin s s1 fuel tid r hr hdel ih =>
    obtain ⟨es, hH, hs, hul⟩ := reach_heap hr
    obtain ⟨_, rest, _, _, _, _, _, del, hM, _⟩ := sq_delmin_returns hH hs hul hdel
    intro q h2 hq
    rw [del.len] at hq
    rw [hM, (del.keep q).2.2]
    have htow : towerLen s1.mem q = towerLen s.mem q := by
      by_cases hqp : q = r.2
      · rw [hqp]; exact (obs_of_core del.del).2.2.2.2.2
      · exact (del.obsD hqp).2.2.2.2.2.1
    rw [htow]
    exact ih q h2 hq

end Prioq

namespace Prioq

/-! ## The extraction, step by step -/

/-- The steps of one pass of the retry loop of `sq_delmin` on a queue whose first element is
`p`, up to the unlinking: the peek gives `p`, the lock of `p` is taken while no lock is held,
`p` is marked, the lock of the head is taken while only the lock of `p` is held, and the
unlinking starts in a state whose next pointers are those of the state before the call. -/
theorem delmin_steps {s : sq_t} {p : Nat} {rest : List Nat} {tid : Nat}
    (hH : Heap s (p :: rest)) (hs : Shape s) (hul : ∀ q, lockOf s.mem q = false)
    (htid : tid < s.nthreads) :
    ∃ s1 s2 s3 s4, pptr s s.head 0 tid = .ok (some p, s1) ∧ lock s1 p = .ok s2 ∧
      set_marked s2 p 1 = .ok s3 ∧ lock s3 s3.head = .ok s4 ∧
      s3.head = s.head ∧ s4.head = s.head ∧
      (∀ q, lockOf s1.mem q = false) ∧ (∀ q, lockOf s3.mem q = true ↔ q = p) ∧
      (∀ q l, nxt s4.mem q l = nxt s.mem q l) ∧ topOf s4.mem p = topOf s.mem p ∧
      ∀ fuel, delmin_loop (fuel + 1) s tid = (do
        let s5 ← delmin_unlink (topOf s4.mem p + 1) s4 p
        let s6 ← unlock s5 (some p)
        let s7 ← unlock s6 (some s6.head)
        .ok (p, s7)) := by
  have hlen := hH.len
  have hp := hH.elems p (by simp)
  have hp0 : p ≠ 0 := by omega
  have hp1 : p ≠ 1 := by omega
  have h0p : (0 : Nat) ≠ p := by omega
  have hfirst : nxt s.mem 0 0 = some (some p) := by
    have := hH.paths 0 (Nat.zero_le _)
    rw [lvl_cons_pos (Nat.zero_le _)] at this
    exact this.1
  obtain ⟨s1, e1, q1, w1, sh1⟩ := pptr_spec (s := s) (p := 0) (l := 0) hs htid hfirst
  have d1 : SameData s.mem s1.mem := sameData_of_eq q1.1
  have hp_lt1 : p < s1.mem.length := by rw [q1.1]; exact hp.2.1
  obtain ⟨dn, hdn, edn⟩ := node_at_ok (s := s1) (p := p) hp_lt1
  have hdn0 := hdn
  rw [q1.1] at hdn0
  have odn := obs_get hdn0
  have hfl : dn.fullyLinked ≠ 0 ∧ dn.marked = 0 := by
    rw [← odn.2.2.2.2.1, ← odn.2.2.2.1, hp.2.2.2.2.2.1, hp.2.2.2.2.1]
    exact ⟨by omega, rfl⟩
  obtain ⟨s2, e2, a2, d2, l2⟩ := lock_spec (s := s1) (p := p) hp_lt1 (by rw [q1.1]; exact hul p)
  have d02 := d1.transD d2
  have hp_lt2 : p < s2.mem.length := d02.lt hp.2.1
  obtain ⟨dn2, hdn2, edn2⟩ := node_at_ok (s := s2) (p := p) hp_lt2
  have odn2 := obs_get hdn2
  have oe2 := obs_eq_of_core (d02 p).1
  have hm2 : ¬ dn2.marked ≠ 0 := by
    rw [← odn2.2.2.2.1, oe2.2.2.2.1, hp.2.2.2.2.1]
    simp
  obtain ⟨s3, n3, hn3, e3, a3, len3, c3, l3, n3x⟩ := set_marked_spec (s := s2) (p := p) 1 hp_lt2
  have hn3eq : n3 = dn2 := by rw [hdn2] at hn3; exact (Option.some.inj hn3).symm
  have hh3 : s3.head = 0 := by
    rw [a3.2.2.2.2.1, a2.2.2.2.2.1, q1.2.2.2.1]; exact hH.head_eq
  have hlen3 : s3.mem.length = s.mem.length := by rw [len3, d02.length]
  obtain ⟨s4, e4, a4, d4, l4⟩ := lock_spec (s := s3) (p := 0) (by omega)
    (by rw [l3, l2, if_neg h0p, q1.1]; exact hul 0)
  have hh4 : s4.head = 0 := by rw [a4.2.2.2.2.1]; exact hh3
  have n04 : ∀ q l, nxt s4.mem q l = nxt s.mem q l := by
    intro q l
    rw [(d4 q).2 l, n3x, (d02 q).2 l]
  have hrd : rd_next s4 0 0 = .ok (some p) := by
    simp only [rd_next, n04, hfirst]
  have hp_lt4 : p < s4.mem.length := by rw [d4.length, hlen3]; exact hp.2.1
  obtain ⟨dn4, hdn4, edn4⟩ := node_at_ok (s := s4) (p := p) hp_lt4
  have htop4 : topOf s4.mem p = topOf s.mem p := by
    have h1 := (obs_eq_of_core (d4 p).1).2.2.1
    have h2 := (obs_of_core ((c3 p).trans (if_pos rfl))).2.2.1
    rw [h1, h2, hn3eq, ← odn2.2.2.1, oe2.2.2.1]
  have hdtop : dn4.topLevel = topOf s4.mem p := ((obs_get hdn4).2.2.1).symm
  refine ⟨s1, s2, s3, s4, by rw [hH.head_eq]; exact e1, e2, e3, by rw [hh3]; exact e4,
    by rw [hh3, hH.head_eq], by rw [hh4, hH.head_eq], ?_, ?_, n04, htop4, ?_⟩
  · intro q
    rw [q1.1]; exact hul q
  · intro q
    rw [l3, l2]
    by_cases hq : q = p
    · simp [hq]
    · simp only [hq, if_false, iff_false]
      rw [q1.1, hul q]
      simp
  · intro fuel
    have htail : s1.tail = 1 := by rw [q1.2.2.2.2]; exact hH.tail_eq
    simp only [delmin_loop, hH.head_eq, e1, ok_bind, htail, delmin_wait, if_neg hp1, edn,
      if_pos hfl, e2, edn2, if_neg hm2, e3, hh3, e4, hh4, hrd, ne_eq, not_true_eq_false, if_false,
      edn4, hdtop]

theorem erase_lvl_cons {m : List sq_node_t} {l p : Nat} {rest : List Nat} (hp : p ∉ rest) :
    (lvl m l (p :: rest)).erase p = lvl m l rest := by
  by_cases h : l ≤ topOf m p
  · rw [lvl_cons_pos h, List.erase_cons_head]
  · rw [lvl_cons_neg h]
    exact List.erase_of_not_mem (fun hm => hp (mem_lvl.1 hm).1)

/-- C12. In every state reached from `sq_init` by returning calls of `sq_add` and `sq_delmin`
that holds at least one element (its level-0 chain is `p :: rest`, so `del = p` is
`head.nexts[0]`), a call of `sq_delmin` by a thread in range passes through the states `s1`
(after the peek), `s2` (after the lock of `del`), `s3` (after `del->marked = 1`) and `s4`
(after the lock of the head); the unlinking loop starts in `s4`, where
`head.nexts[l] == del` for every level `l ≤ del.topLevel`; the call returns 1 with `del`;
afterwards the chain of every level `l < maxLevel` is the chain of before with `del`
removed, and the next pointers of every node other than the head are those of before. -/
theorem C12_unlink_through_head (s : sq_t) (tid p : Nat) (rest : List Nat) (h : Reach s)
    (htid : tid < s.nthreads) (hne : chain s 0 = some (p :: rest)) (fuel : Nat) :
    ∃ s1 s2 s3 s4, pptr s s.head 0 tid = .ok (some p, s1) ∧ lock s1 p = .ok s2 ∧
      set_marked s2 p 1 = .ok s3 ∧ lock s3 s3.head = .ok s4 ∧
      sq_delmin (fuel + 1) s tid = (do
        let s5 ← delmin_unlink (topOf s4.mem p + 1) s4 p
        let s6 ← unlock s5 (some p)
        let s7 ← unlock s6 (some s6.head)
        .ok ((1, p), retire_node s7 p)) ∧
      (∀ l, l ≤ topOf s4.mem p → nxt s4.mem s4.head l = some (some p)) ∧
      ∃ s8, sq_delmin (fuel + 1) s tid = .ok ((1, p), s8) ∧
        (∀ l, l < s.maxLevel → ∃ xs, chain s l = some xs ∧ chain s8 l = some (xs.erase p)) ∧
        (∀ q l, q ≠ s.head → nxt s8.mem q l = nxt s.mem q l) := by
  obtain ⟨es, hH, hs, hul⟩ := reach_heap h
  have hes := heap_elems_of_chain hH hne
  subst hes
  obtain ⟨s1, s2, s3, s4, e1, e2, e3, e4, _, hh4, _, _, n04, htop4, hloop⟩ :=
    delmin_steps hH hs hul htid
  obtain ⟨s8, e8, hH8, _, _, del8, hM8, _⟩ := sq_delmin_spec fuel hH hs hul htid
  have hp := hH.elems p (by simp)
  have hnd := List.nodup_cons.1 hH.nodup
  refine ⟨s1, s2, s3, s4, e1, e2, e3, e4, ?_, ?_, s8, e8, ?_, ?_⟩
  · simp only [sq_delmin, hloop fuel]
    cases delmin_unlink (topOf s4.mem p + 1) s4 p with
    | ok s5 =>
      simp only [ok_bind]
      cases unlock s5 (some p) with
      | ok s6 =>
        simp only [ok_bind]
        cases unlock s6 (some s6.head) <;> rfl
      | spin => rfl
      | abort => rfl
      | fault => rfl
    | spin => rfl
    | abort => rfl
    | fault => rfl
  · intro l hl
    rw [htop4] at hl
    rw [n04, hh4, hH.head_eq]
    have hl2 : l ≤ s.maxLevel := by omega
    have := hH.paths l hl2
    rw [lvl_cons_pos hl] at this
    exact this.1
  · intro l hl
    have hl8 : l ≤ s8.maxLevel := by rw [hM8]; omega
    refine ⟨lvl s.mem l (p :: rest), chain_heap hH (Nat.le_of_lt hl), ?_⟩
    rw [chain_heap hH8 hl8, erase_lvl_cons hnd.1]
    congr 1
    exact lvl_congr (fun q _ => (del8.keep q).2.2)
  · intro q l hq
    rw [hH.head_eq] at hq
    rw [del8.nx, if_neg (fun hc => hq hc.1)]

/-- C12 at the queue that holds the keys 3 (a tower of three levels) and 7 (two levels): the
extraction unlinks the node of key 3 from the head at the levels 0, 1 and 2. -/
theorem C12_unlink_through_head_witness :
    Reach ex_q2 ∧ 0 < ex_q2.nthreads ∧ chain ex_q2 0 = some [3, 2] ∧
    ∃ s1 s2 s3 s4, pptr ex_q2 ex_q2.head 0 0 = .ok (some 3, s1) ∧ lock s1 3 = .ok s2 ∧
      set_marked s2 3 1 = .ok s3 ∧ lock s3 s3.head = .ok s4 ∧
      sq_delmin (0 + 1) ex_q2 0 = (do
        let s5 ← delmin_unlink (topOf s4.mem 3 + 1) s4 3
        let s6 ← unlock s5 (some 3)
        let s7 ← unlock s6 (some s6.head)
        .ok ((1, 3), retire_node s7 3)) ∧
      (∀ l, l ≤ topOf s4.mem 3 → nxt s4.mem s4.head l = some (some 3)) ∧
      ∃ s8, sq_delmin (0 + 1) ex_q2 0 = .ok ((1, 3), s8) ∧
        (∀ l, l < ex_q2.maxLevel →
          ∃ xs, chain ex_q2 l = some xs ∧ chain s8 l = some (xs.erase 3)) ∧
        (∀ q l, q ≠ ex_q2.head → nxt s8.mem q l = nxt ex_q2.mem q l) :=
  ⟨reachable_reach ex_q2_reachable, by decide, ex_q2_chain,
    C12_unlink_through_head ex_q2 0 3 [2] (reachable_reach ex_q2_reachable) (by decide)
      ex_q2_chain 0⟩

end Prioq

namespace Prioq

/-! ## The level that the search reports -/

/-- C13. In every state reached from `sq_init` by returning calls of `sq_add` and `sq_delmin`,
for every target key below the key of the tail and every thread in range, `sq_search`
returns, and the `lFound` it returns is -1, whether or not an element has the target key:
the loop `while (key >= curr->key)` only stops at a node of a larger key, so the test
`key == curr->key` that follows it never holds. -/
theorem C13_lFound_is_never_set (s : sq_t) (key : Int) (tid : Nat) (es : List Nat)
    (h : Reach s) (hc : chain s 0 = some es) (hk : key < keyOf s.mem s.tail)
    (htid : tid < s.nthreads) (fuel : Nat) (hf : es.length + 2 ≤ fuel) :
    ∃ s1, sq_search fuel s key tid = .ok (-1, s1) := by
  obtain ⟨es1, hH, hs, _⟩ := reach_heap h
  have hes := heap_elems_of_chain hH hc
  subst hes
  rw [hH.tail_eq] at hk
  obtain ⟨s1, e1, _⟩ := sq_search_spec hH hs hk htid (by omega : es1.length + 1 < fuel)
  exact ⟨s1, e1⟩

set_option maxRecDepth 100000 in
/-- C13 at the queue whose only element has the key 7, for the target key 7. -/
theorem C13_lFound_is_never_set_witness :
    Reach ex_q1 ∧ chain ex_q1 0 = some [2] ∧ keyOf ex_q1.mem 2 = 7 ∧
      ∃ s1, sq_search 3 ex_q1 7 0 = .ok (-1, s1) :=
  ⟨reachable_reach ex_q1_reachable, ex_q1_chain, by decide,
    C13_lFound_is_never_set ex_q1 7 0 [2] (reachable_reach ex_q1_reachable) ex_q1_chain
      (by decide) (by decide) 3 (by decide)⟩

/-! ## The top levels -/

/-- C14 fails at the sentinels: in the queue that `sq_init(3, 0, 100, 1)` produces, the head
and the tail have `topLevel = 3 = maxLevel`, which is not below `maxLevel`. -/
theorem C14_sentinel_level_counterexample :
    1 ≤ (sq_init 3 0 100 1).maxLevel ∧
      topOf (sq_init 3 0 100 1).mem (sq_init 3 0 100 1).head = 3 ∧
      topOf (sq_init 3 0 100 1).mem (sq_init 3 0 100 1).tail = 3 ∧
      ¬ topOf (sq_init 3 0 100 1).mem (sq_init 3 0 100 1).head < (sq_init 3 0 100 1).maxLevel := by
  decide

/-- C14, amended. In every state reached from `sq_init` by returning calls of `sq_add` and
`sq_delmin`, the head and the tail have `topLevel = maxLevel`, and every other node, in the
queue or extracted from it, has `topLevel < maxLevel`. -/
theorem C14_topLevel_range (s : sq_t) (h : Reach s) :
    topOf s.mem s.head = s.maxLevel ∧ topOf s.mem s.tail = s.maxLevel ∧
      ∀ q, q < s.mem.length → q ≠ s.head → q ≠ s.tail → topOf s.mem q < s.maxLevel := by
  obtain ⟨es, hH, _, _⟩ := reach_heap h
  rw [hH.head_eq, hH.tail_eq]
  refine ⟨hH.hd_top, hH.tl_top, ?_⟩
  intro q hq h0 h1
  exact (reach_tops h q (by omega) hq).1

set_option maxRecDepth 100000 in
/-- C14, amended, at the queue that holds the keys 3 and 7. -/
theorem C14_topLevel_range_witness :
    Reach ex_q2 ∧ ex_q2.maxLevel = 3 ∧ ex_q2.mem.length = 4 ∧
      topOf ex_q2.mem ex_q2.head = ex_q2.maxLevel ∧ topOf ex_q2.mem ex_q2.tail = ex_q2.maxLevel ∧
      ∀ q, q < ex_q2.mem.length → q ≠ ex_q2.head → q ≠ ex_q2.tail →
        topOf ex_q2.mem q < ex_q2.maxLevel :=
  ⟨reachable_reach ex_q2_reachable, by decide, by decide,
    C14_topLevel_range ex_q2 (reachable_reach ex_q2_reachable)⟩

end Prioq

namespace Prioq

/-! ## What `clean_ptrs` clears -/

theorem set_pred_ok {s s1 : sq_t} {tid i : Nat} {v : Option Nat}
    (h : set_pred s tid i v = .ok s1) :
    s1.maxLevel = s.maxLevel ∧ s1.hp = s.hp ∧ get_pred s1 tid i = .ok v ∧
      (∀ j, j ≠ i → get_pred s1 tid j = get_pred s tid j) ∧
      (∀ j, get_succ s1 tid j = get_succ s tid j) := by
  unfold set_pred at h
  rcases hw : s.thread_ws[tid]? with _ | w
  · rw [hw] at h; cases h
  · rw [hw] at h
    simp only at h
    by_cases hi : i < w.preds.length
    · rw [if_pos hi] at h
      have hs1 := (Res.ok.inj h).symm
      have hlt : tid < s.thread_ws.length := by
        by_contra hc
        rw [List.getElem?_eq_none (by omega)] at hw
        cases hw
      subst hs1
      refine ⟨rfl, rfl, ?_, ?_, ?_⟩
      · simp [get_pred, hlt, hi]
      · intro j hj
        simp [get_pred, hlt, hw, List.getElem?_set, Ne.symm hj]
      · intro j
        simp [get_succ, hlt, hw]
    · rw [if_neg hi] at h; cases h

theorem set_succ_ok {s s1 : sq_t} {tid i : Nat} {v : Option Nat}
    (h : set_succ s tid i v = .ok s1) :
    s1.maxLevel = s.maxLevel ∧ s1.hp = s.hp ∧ get_succ s1 tid i = .ok v ∧
      (∀ j, j ≠ i → get_succ s1 tid j = get_succ s tid j) ∧
      (∀ j, get_pred s1 tid j = get_pred s tid j) := by
  unfold set_succ at h
  rcases hw : s.thread_ws[tid]? with _ | w
  · rw [hw] at h; cases h
  · rw [hw] at h
    simp only at h
    by_cases hi : i < w.succs.length
    · rw [if_pos hi] at h
      have hs1 := (Res.ok.inj h).symm
      have hlt : tid < s.thread_ws.length := by
        by_contra hc
        rw [List.getElem?_eq_none (by omega)] at hw
        cases hw
      subst hs1
      refine ⟨rfl, rfl, ?_, ?_, ?_⟩
      · simp [get_succ, hlt, hi]
      · intro j hj
        simp [get_succ, hlt, hw, List.getElem?_set, Ne.symm hj]
      · intro j
        simp [get_pred, hlt, hw]
    · rw [if_neg hi] at h; cases h

/-- A returning run of the loop of `clean_ptrs` leaves `NULL` in the slots it went over, and
does not touch the hazard pointer records. -/
theorem clean_ptrs_loop_ok : ∀ (n i : Nat) (s s1 : sq_t) (tid : Nat),
    clean_ptrs_loop n s tid i = .ok s1 →
      s1.maxLevel = s.maxLevel ∧ s1.hp = s.hp ∧
      (∀ j, i ≤ j → j < i + n → get_pred s1 tid j = .ok none ∧ get_succ s1 tid j = .ok none) ∧
      (∀ j, j < i → get_pred s1 tid j = get_pred s tid j ∧ get_succ s1 tid j = get_succ s tid j)
  | 0, i, s, s1, tid, h => by
    simp only [clean_ptrs_loop] at h
    have := (Res.ok.inj h).symm
    subst this
    exact ⟨rfl, rfl, fun j a b => absurd b (by omega), fun j _ => ⟨rfl, rfl⟩⟩
  | n + 1, i, s, s1, tid, h => by
    rw [clean_ptrs_loop] at h
    rcases ha : set_pred s tid i none with sa | _ | _ | _
    · rw [ha] at h
      simp only [ok_bind] at h
      rcases hb : set_succ sa tid i none with sb | _ | _ | _
      · rw [hb] at h
        simp only [ok_bind] at h
        obtain ⟨m1, p1, g1, o1, k1⟩ := set_pred_ok ha
        obtain ⟨m2, p2, g2, o2, k2⟩ := set_succ_ok hb
        obtain ⟨m3, p3, c3, o3⟩ := clean_ptrs_loop_ok n (i + 1) sb s1 tid h
        refine ⟨by rw [m3, m2, m1], by rw [p3, p2, p1], ?_, ?_⟩
        · intro j hj1 hj2
          by_cases hji : j = i
          · rw [hji, (o3 i (by omega)).1, (o3 i (by omega)).2, k2, g1, g2]
            exact ⟨rfl, rfl⟩
          · exact c3 j (by omega) (by omega)
        · intro j hj
          have hji : j ≠ i := by omega
          rw [(o3 j (by omega)).1, (o3 j (by omega)).2, k2, o1 j hji, o2 j hji, k1]
          exact ⟨rfl, rfl⟩
      · rw [hb] at h; cases h
      · rw [hb] at h; cases h
      · rw [hb] at h; cases h
    · rw [ha] at h; cases h
    · rw [ha] at h; cases h
    · rw [ha] at h; cases h

/-- The last step of a returning call of `sq_add` is `clean_ptrs`. -/
theorem sq_add_last {s s3 : sq_t} {key val : Int} {t tid fuel : Nat} {r : Int}
    (h : sq_add fuel s key val t tid = .ok (r, s3)) :
    ∃ s2, clean_ptrs s2 tid = .ok s3 := by
  unfold sq_add at h
  split at h
  · split at h
    · rcases ha : add_loop fuel s key val t tid with ⟨hl, s1⟩ | _ | _ | _
      · rw [ha] at h
        simp only [ok_bind] at h
        rcases hb : unlock_preds s1 tid hl with s2 | _ | _ | _
        · rw [hb] at h
          simp only [ok_bind] at h
          rcases hc : clean_ptrs s2 tid with s4 | _ | _ | _
          · rw [hc] at h
            simp only [ok_bind] at h
            have := (Prod.mk.inj (Res.ok.inj h)).2
            exact ⟨s2, by rw [← this]; exact hc⟩
          · rw [hc] at h; cases h
          · rw [hc] at h; cases h
          · rw [hc] at h; cases h
        · rw [hb] at h; cases h
        · rw [hb] at h; cases h
        · rw [hb] at h; cases h
      · rw [ha] at h; cases h
      · rw [ha] at h; cases h
      · rw [ha] at h; cases h
    · cases h
  · cases h

set_option maxRecDepth 100000 in
theorem ex_q4_add : sq_add 10 ex_q1 9 90 0 0 = .ok (1, ex_q4) := by decide

set_option maxRecDepth 100000 in
/-- C15 fails: on the queue that holds the key 7 in a node of two levels, `sq_add` of the key
9 by thread 0 returns 1, and afterwards the held hazard slot of level 1 of thread 0 still
holds the pointer to the node of key 7 (address 2), which the search promoted. -/
theorem C15_held_slot_counterexample :
    Reach ex_q1 ∧ sq_add 10 ex_q1 9 90 0 0 = .ok (1, ex_q4) ∧ 1 < ex_q4.maxLevel ∧
      get_held ex_q4 0 1 = .ok (some 2) ∧ keyOf ex_q4.mem 2 = 7 :=
  ⟨reachable_reach ex_q1_reachable, ex_q4_add, by decide, by decide, by decide⟩

end Prioq

namespace Prioq

/-! ## The pointers that the search leaves unannounced -/

set_option maxRecDepth 100000 in
theorem ex_q5_add : sq_add 10 ex_q1 6 60 0 0 = .ok (1, ex_q5) := by decide

theorem ex_q5_reachable : Reachable ex_q5 :=
  Reachable.add 10 6 60 0 0 1 ex_q1_reachable (by decide) (by decide) (by decide) ex_q5_add

set_option maxRecDepth 100000 in
/-- C16 fails for the successors of the upper levels: on the queue that holds the keys 6 (one
level, address 3) and 7 (two levels, address 2), the search for the key 5 by thread 0 returns
with `succs[1]` pointing to the node of key 7, which is not a sentinel, while the peek slot
of the thread holds the node of key 6 and no held slot holds the node of key 7: only the
predecessors are promoted to held slots, and the peek slot is reused at the next level. -/
theorem C16_successor_not_announced :
    Reach ex_q5 ∧ chain ex_q5 0 = some [3, 2] ∧
      sq_search 10 ex_q5 5 0 = .ok (-1, ex_q5_searched) ∧
      get_succ ex_q5_searched 0 1 = .ok (some 2) ∧
      2 ≠ ex_q5_searched.head ∧ 2 ≠ ex_q5_searched.tail ∧
      announced ex_q5_searched 0 2 = false ∧
      ex_q5_searched.hp.recs[0]? = some { peek := some 3, node := [none, none, none] } :=
  ⟨reachable_reach ex_q5_reachable, by decide, by decide, by decide, by decide, by decide,
    by decide, by decide⟩

end Prioq

namespace Prioq

/-! ## The order of the predecessors of a search -/

theorem lvl_snoc_pos {m : List sq_node_t} {l c : Nat} (Y : List Nat) (h : l ≤ topOf m c) :
    (lvl m l (Y ++ [c])).getLastD 0 = c := by
  have e : lvl m l [c] = [c] := by simp [lvl, h]
  rw [lvl_append, e, getLastD_append_cons]
  rfl

theorem lvl_snoc_neg {m : List sq_node_t} {l c : Nat} (Y : List Nat) (h : ¬ l ≤ topOf m c) :
    lvl m l (Y ++ [c]) = lvl m l Y := by
  have e : lvl m l [c] = [] := by simp [lvl, h]
  rw [lvl_append, e, List.append_nil]

/-- Among the elements `X` that a search walks past, the last one whose tower reaches a
level `l` is the last one whose tower reaches a lower level `i`, or it comes before it in
the list `0 :: X ++ R` (the head, the elements walked past, the others). -/
theorem last_of_level_order (m : List sq_node_t) {i l : Nat} (hil : i ≤ l) :
    ∀ (X R : List Nat), (0 :: (X ++ R)).Nodup →
      (lvl m l X).getLastD 0 = (lvl m i X).getLastD 0 ∨
        comes_earlier (0 :: (X ++ R)) ((lvl m l X).getLastD 0) ((lvl m i X).getLastD 0) := by
  intro X
  induction X using List.reverseRecOn with
  | nil => intro R _; left; rfl
  | append_singleton Y c ih =>
    intro R hnd
    have hL : (0 :: (Y ++ [c] ++ R)) = (0 :: Y) ++ c :: R := by simp
    by_cases hl : l ≤ topOf m c
    · left
      rw [lvl_snoc_pos Y hl, lvl_snoc_pos Y (le_trans hil hl)]
    · by_cases hi : i ≤ topOf m c
      · right
        rw [lvl_snoc_neg Y hl, lvl_snoc_pos Y hi]
        have hmem : (lvl m l Y).getLastD 0 ∈ 0 :: Y := by
          rcases getLastD_mem (lvl m l Y) 0 with h | h
          · rw [h]; simp
          · exact List.mem_cons_of_mem _ (mem_lvl.1 h).1
        have hc : c ∉ 0 :: Y := by
          rw [hL] at hnd
          have := (List.nodup_append.1 hnd).2.2
          intro hcon
          exact this hcon (by simp)
        unfold comes_earlier
        rw [hL, List.indexOf_append_of_mem hmem, List.indexOf_append_of_not_mem hc,
          List.indexOf_cons_self]
        exact List.indexOf_lt_length.2 hmem
      · rw [lvl_snoc_neg Y hl, lvl_snoc_neg Y hi]
        have := ih (c :: R) (by rw [hL] at hnd; simpa using hnd)
        have e : 0 :: (Y ++ c :: R) = 0 :: (Y ++ [c] ++ R) := by simp
        rw [e] at this
        exact this

/-- The predecessor that a search finds at a level is the predecessor of every lower level,
or comes before it in the level-0 list. -/
theorem predAt_order {s : sq_t} {es : List Nat} (hH : Heap s es) (k : Int) {i l : Nat}
    (hil : i ≤ l) :
    predAt s.mem k es l = predAt s.mem k es i ∨
      comes_earlier (s.head :: es) (predAt s.mem k es l) (predAt s.mem k es i) := by
  have hnd : (0 :: (pre s.mem k es ++ post s.mem k es)).Nodup := by
    rw [pre_append_post]
    refine List.nodup_cons.2 ⟨fun h0 => ?_, hH.nodup⟩
    have := (hH.elems 0 h0).1
    omega
  have := last_of_level_order s.mem hil (pre s.mem k es) (post s.mem k es) hnd
  rw [pre_append_post] at this
  rw [hH.head_eq]
  exact this

end Prioq

namespace Prioq

/-! ## The locking loop, iteration by iteration -/

theorem res_bind_assoc {α β γ : Type} (x : Res α) (f : α → Res β) (g : β → Res γ) :
    ((x >>= f) >>= g) = (x >>= fun a => f a >>= g) := by
  cases x <;> rfl

theorem res_bind_congr {α β : Type} (x : Res α) {f g : α → Res β} (h : ∀ a, f a = g a) :
    (x >>= f) = (x >>= g) := by
  cases x with
  | ok a => exact h a
  | spin => rfl
  | abort => rfl
  | fault => rfl

/-- The locking loop of `sq_add` for `a + b` iterations is the loop for `a` iterations
followed, when these left `valid` set, by the loop for `b` iterations from the level, the
`prev` and the `highestLocked` that they reached. -/
theorem add_lock_loop_split : ∀ (a b : Nat) (s : sq_t) (tid j : Nat) (prev : Option Nat) (hl : Int),
    add_lock_loop (a + b) s tid j prev hl =
      (add_lock_loop a s tid j prev hl >>= fun r =>
        if r.1.1 then add_lock_loop b r.2 tid (j + a) r.1.2.2 r.1.2.1 else .ok r)
  | 0, b, s, tid, j, prev, hl => by
    simp [add_lock_loop]
  | a + 1, b, s, tid, j, prev, hl => by
    have e : a + 1 + b = (a + b) + 1 := by omega
    rw [e, add_lock_loop, add_lock_loop, res_bind_assoc]
    refine res_bind_congr _ (fun pred => ?_)
    rw [res_bind_assoc]
    refine res_bind_congr _ (fun succ => ?_)
    cases pred with
    | none => rfl
    | some p =>
      simp only []
      rw [res_bind_assoc]
      refine res_bind_congr _ (fun x => ?_)
      obtain ⟨s1, prev1, hl1⟩ := x
      simp only []
      rw [res_bind_assoc]
      refine res_bind_congr _ (fun pn => ?_)
      rw [res_bind_assoc]
      refine res_bind_congr _ (fun valid => ?_)
      cases valid with
      | false => simp
      | true =>
        have e2 : j + (a + 1) = j + 1 + a := by omega
        simp only [if_true]
        rw [e2]
        exact add_lock_loop_split a b s1 tid (j + 1) prev1 hl1

end Prioq

namespace Prioq

/-! ## The locks of a call -/

/-- C17. The spinlock of a node is the bit `lock`; `lock` on a held lock and `unlock` on a
free lock are faults. In every state reached from `sq_init` by returning calls of `sq_add`
and `sq_delmin`, every lock is free, and:
* a call of `sq_add` with a key below the key of the tail, a sampled level `t < maxLevel`
  and a thread in range returns 1 (so it took no held lock and released no free one); when
  its retry loop is left, the held locks are exactly the locks of the predecessors
  `preds[0..t]`; `unlock_preds` then returns with every lock free, and so does the call;
* a call of `sq_delmin` on a queue whose first element is `p` takes the lock of `p` while no
  lock is held, then the lock of the head while only the lock of `p` is held, so that the
  locks of `p` and the head are the held ones, and returns 1 with every lock free. -/
theorem C17_locks_balanced (s : sq_t) (h : Reach s) :
    (∀ q, lockOf s.mem q = false) ∧
    (∀ (es : List Nat) (key val : Int) (t tid fuel : Nat), chain s 0 = some es →
      key < keyOf s.mem s.tail → t < s.maxLevel → tid < s.nthreads → es.length + 3 ≤ fuel →
      ∃ hl s6 s7 s1, add_loop fuel s key val t tid = .ok (hl, s6) ∧
        (∀ q, lockOf s6.mem q = true ↔ ∃ i, i ≤ t ∧ get_pred s6 tid i = .ok (some q)) ∧
        unlock_preds s6 tid hl = .ok s7 ∧ (∀ q, lockOf s7.mem q = false) ∧
        sq_add fuel s key val t tid = .ok (1, s1) ∧ (∀ q, lockOf s1.mem q = false)) ∧
    (∀ (p : Nat) (rest : List Nat) (tid fuel : Nat), chain s 0 = some (p :: rest) →
      tid < s.nthreads → 1 ≤ fuel →
      ∃ s1 s2 s3 s4 s8, pptr s s.head 0 tid = .ok (some p, s1) ∧
        (∀ q, lockOf s1.mem q = false) ∧ lock s1 p = .ok s2 ∧
        set_marked s2 p 1 = .ok s3 ∧ (∀ q, lockOf s3.mem q = true ↔ q = p) ∧ p ≠ s3.head ∧
        lock s3 s3.head = .ok s4 ∧ (∀ q, lockOf s4.mem q = true ↔ q = p ∨ q = s.head) ∧
        sq_delmin fuel s tid = .ok ((1, p), s8) ∧ (∀ q, lockOf s8.mem q = false)) := by
  obtain ⟨es, hH, hs, hul⟩ := reach_heap h
  refine ⟨hul, ?_, ?_⟩
  · intro es1 key val t tid fuel hc hk ht htid hf
    have hes := heap_elems_of_chain hH hc
    subst hes
    rw [hH.tail_eq] at hk
    obtain ⟨s6, hl, e6, m6, n6, hd6, tl6, sh6, ins6, lk6, hh1, hh2, g6⟩ :=
      add_loop_spec (v := val) hH hs hul hk ht htid (by omega : es.length + 2 < fuel)
    have hrun : ∀ i j, i < j → j ≤ t → predAt s.mem key es i = predAt s.mem key es j →
        predAt s.mem key es (j - 1) = predAt s.mem key es j :=
      fun i j hij _ he => predAt_run (fun p hp => (hH.elems p hp).1) hij he
    obtain ⟨s7, e7, _, _, lk7⟩ := unlock_preds_spec (s := s6) hh1 hrun hh2 g6 lk6
    obtain ⟨s1, e1, _, _, ul1, _⟩ := sq_add_spec (v := val) hH hs hul hk ht htid
      (by omega : es.length + 2 < fuel)
    refine ⟨(hl : Int), s6, s7, s1, e6, ?_, e7, lk7, e1, ul1⟩
    intro q
    rw [lk6 q]
    constructor
    · rintro ⟨i, hi, e⟩
      exact ⟨i, hi, by rw [g6 i hi, e]⟩
    · rintro ⟨i, hi, e⟩
      rw [g6 i hi] at e
      exact ⟨i, hi, Option.some.inj (Res.ok.inj e)⟩
  · intro p rest tid fuel hc htid hf
    have hes := heap_elems_of_chain hH hc
    subst hes
    obtain ⟨s1, s2, s3, s4, e1, e2, e3, e4, hh3, _, ul1, lk3, _, _, _⟩ :=
      delmin_steps hH hs hul htid
    obtain ⟨f, hfe⟩ : ∃ f, fuel = f + 1 := ⟨fuel - 1, by omega⟩
    subst hfe
    obtain ⟨s8, e8, _, _, ul8, _⟩ := sq_delmin_spec f hH hs hul htid
    have hp := (hH.elems p (by simp)).1
    have hph : p ≠ s3.head := by rw [hh3, hH.head_eq]; omega
    refine ⟨s1, s2, s3, s4, s8, e1, ul1, e2, e3, lk3, hph, e4, ?_, e8, ul8⟩
    have hfree : lockOf s3.mem s3.head = false := by
      by_contra hcon
      have : lockOf s3.mem s3.head = true := by simpa using hcon
      exact hph ((lk3 _).1 this).symm
    have hlt : s3.head < s3.mem.length := by
      by_contra hcon
      unfold lock at e4
      rw [List.getElem?_eq_none (not_lt.1 hcon)] at e4
      cases e4
    obtain ⟨s4a, e4a, _, _, l4⟩ := lock_spec (s := s3) (p := s3.head) hlt hfree
    rw [e4] at e4a
    have hs4 := Res.ok.inj e4a
    intro q
    rw [hs4, l4 q, ← hh3]
    by_cases hq : q = s3.head
    · simp [hq]
    · simp only [hq, if_false, or_false]
      exact lk3 q

/-- C17 at the queue that holds the keys 3 and 7: `sq_add` of the key 5 with sampled level 2,
and `sq_delmin`. -/
theorem C17_locks_balanced_witness :
    Reach ex_q2 ∧ chain ex_q2 0 = some [3, 2] ∧
    (∃ hl s6 s7 s1, add_loop 5 ex_q2 5 50 2 0 = .ok (hl, s6) ∧
        (∀ q, lockOf s6.mem q = true ↔ ∃ i, i ≤ 2 ∧ get_pred s6 0 i = .ok (some q)) ∧
        unlock_preds s6 0 hl = .ok s7 ∧ (∀ q, lockOf s7.mem q = false) ∧
        sq_add 5 ex_q2 5 50 2 0 = .ok (1, s1) ∧ (∀ q, lockOf s1.mem q = false)) ∧
    (∃ s1 s2 s3 s4 s8, pptr ex_q2 ex_q2.head 0 0 = .ok (some 3, s1) ∧
        (∀ q, lockOf s1.mem q = false) ∧ lock s1 3 = .ok s2 ∧
        set_marked s2 3 1 = .ok s3 ∧ (∀ q, lockOf s3.mem q = true ↔ q = 3) ∧ 3 ≠ s3.head ∧
        lock s3 s3.head = .ok s4 ∧ (∀ q, lockOf s4.mem q = true ↔ q = 3 ∨ q = ex_q2.head) ∧
        sq_delmin 1 ex_q2 0 = .ok ((1, 3), s8) ∧ (∀ q, lockOf s8.mem q = false)) :=
  ⟨reachable_reach ex_q2_reachable, ex_q2_chain,
    (C17_locks_balanced ex_q2 (reachable_reach ex_q2_reachable)).2.1 [3, 2] 5 50 2 0 5
      ex_q2_chain (by decide) (by decide) (by decide) (by decide),
    (C17_locks_balanced ex_q2 (reachable_reach ex_q2_reachable)).2.2 3 [2] 0 1
      ex_q2_chain (by decide) (by decide)⟩

end Prioq

namespace Prioq

/-! ## The order in which a call takes its locks -/

/-- The first `l` iterations of the locking loop of `sq_add`, after a search on a queue that
holds a skiplist: they leave `valid` set, `prev` is the predecessor of level `l - 1`, and
the held locks are those of the predecessors of the levels below `l`. -/
theorem add_lock_prefix {s sA : sq_t} {es : List Nat} {k : Int} {t tid : Nat}
    (hH : Heap s es) (hul : ∀ q, lockOf s.mem q = false) (hk : k < keyOf s.mem 1)
    (ht : t < s.maxLevel) (q1 : SameQ s sA)
    (g1 : ∀ l, l < s.maxLevel →
      get_pred sA tid l = .ok (some (predAt s.mem k es l)) ∧
      get_succ sA tid l = .ok (some (succAt s.mem k es l))) :
    ∀ l, l ≤ t + 1 → ∃ hl prev sl,
      add_lock_loop l sA tid 0 none (-1) = .ok ((true, hl, prev), sl) ∧
      (prev = if l = 0 then none else some (predAt s.mem k es (l - 1))) ∧
      (∀ q, lockOf sl.mem q = true ↔ ∃ i, i < l ∧ predAt s.mem k es i = q) ∧
      SameAux sA sl := by
  intro l hl
  have hfree : ∀ q, lockOf sA.mem q = true ↔ ∃ i, i < 0 ∧ predAt s.mem k es i = q := by
    intro q
    rw [q1.1, hul q]
    constructor
    · intro hh; cases hh
    · rintro ⟨i, hi, _⟩; omega
  cases l with
  | zero =>
    exact ⟨-1, none, sA, by simp [add_lock_loop], by simp, hfree, SameAux.reflA sA⟩
  | succ n =>
    have hP : ∀ j, j ≤ n → predAt s.mem k es j < s.mem.length ∧
        markedOf s.mem (predAt s.mem k es j) = 0 ∧
        nxt s.mem (predAt s.mem k es j) j = some (some (succAt s.mem k es j)) := by
      intro j hj
      have := predAt_lt (k := k) hH j
      exact ⟨this.1, this.2.1, pred_next hH (by omega)⟩
    have hS : ∀ j, j ≤ n → succAt s.mem k es j < s.mem.length ∧
        markedOf s.mem (succAt s.mem k es j) = 0 :=
      fun j _ => ⟨(succAt_facts hH hk j).1, succAt_marked hH j⟩
    have hrun : ∀ i j, i < j → j ≤ n → predAt s.mem k es i = predAt s.mem k es j →
        predAt s.mem k es (j - 1) = predAt s.mem k es j :=
      fun i j hij _ he => predAt_run (fun p hp => (hH.elems p hp).1) hij he
    obtain ⟨s2, h, e2, a2, _, l2, _, _⟩ := add_lock_loop_spec (m := s.mem) hP hS hrun
      (n + 1) 0 sA none (-1) (by omega) (fun j hj => g1 j (by omega))
      (by rw [q1.1]; exact SameData.reflD _) hfree (by simp) (Or.inl rfl)
    refine ⟨(h : Int), some (predAt s.mem k es n), s2, e2, by simp, ?_, a2⟩
    intro q
    rw [l2 q]
    constructor
    · rintro ⟨i, hi, e⟩; exact ⟨i, by omega, e⟩
    · rintro ⟨i, hi, e⟩; exact ⟨i, by omega, e⟩

/-- C18. In every state reached from `sq_init` by returning calls of `sq_add` and `sq_delmin`,
with level-0 chain `es`, a call takes no lock on a node that comes later in the level-0 list
`head :: es` than a node whose lock it holds:
* a call of `sq_add` with a key below the key of the tail and a sampled level `t < maxLevel`
  searches once, the locking loop runs from the state `sA` of the search with no lock held
  and leaves `valid` set (so the call returns without a second round); for every level
  `l ≤ t`, the loop reaches the iteration of level `l` in the state `sl` that its first `l`
  iterations produce, and when it takes a lock there (`preds[l] != prev`), the node
  `preds[l]` comes before every node whose lock is held in `sl`;
* a call of `sq_delmin` on a queue whose first element is `p` takes the lock of `p` while no
  lock is held, and then the lock of the head, which comes before the node `p` whose lock
  is the only held one; the unlinking and the two unlocks follow. -/
theorem C18_lock_order (s : sq_t) (es : List Nat) (tid : Nat) (h : Reach s)
    (hc : chain s 0 = some es) (htid : tid < s.nthreads) :
    (∀ (key val : Int) (t fuel : Nat), key < keyOf s.mem s.tail → t < s.maxLevel →
      es.length + 2 ≤ fuel →
      ∃ sA, sq_search fuel s key tid = .ok (-1, sA) ∧ (∀ q, lockOf sA.mem q = false) ∧
        (∃ hl prev s2, add_lock_loop (t + 1) sA tid 0 none (-1) = .ok ((true, hl, prev), s2)) ∧
        (∃ s1, sq_add (fuel + 1) s key val t tid = .ok (1, s1)) ∧
        ∀ l, l ≤ t → ∃ hl prev sl p,
          add_lock_loop l sA tid 0 none (-1) = .ok ((true, hl, prev), sl) ∧
          add_lock_loop (t + 1) sA tid 0 none (-1) = add_lock_loop (t + 1 - l) sl tid l prev hl ∧
          get_pred sl tid l = .ok (some p) ∧
          (some p ≠ prev → ∀ q, lockOf sl.mem q = true → comes_earlier (s.head :: es) p q)) ∧
    (∀ (p : Nat) (rest : List Nat), es = p :: rest →
      ∃ s1 s2 s3 s4, pptr s s.head 0 tid = .ok (some p, s1) ∧
        (∀ q, lockOf s1.mem q = false) ∧ lock s1 p = .ok s2 ∧ set_marked s2 p 1 = .ok s3 ∧
        (∀ q, lockOf s3.mem q = true → comes_earlier (s.head :: es) s3.head q) ∧
        lock s3 s3.head = .ok s4 ∧
        ∀ fuel, delmin_loop (fuel + 1) s tid = (do
          let s5 ← delmin_unlink (topOf s4.mem p + 1) s4 p
          let s6 ← unlock s5 (some p)
          let s7 ← unlock s6 (some s6.head)
          .ok (p, s7))) := by
  obtain ⟨es1, hH, hs, hul⟩ := reach_heap h
  have hes := heap_elems_of_chain hH hc
  subst hes
  refine ⟨?_, ?_⟩
  · intro key val t fuel hk ht hf
    rw [hH.tail_eq] at hk
    obtain ⟨sA, e1, q1, _, g1⟩ := sq_search_spec hH hs hk htid (by omega : es1.length + 1 < fuel)
    have hpre := add_lock_prefix hH hul hk ht q1 g1
    obtain ⟨s1, ea, _⟩ := sq_add_spec (v := val) hH hs hul hk ht htid
      (by omega : es1.length + 2 < fuel + 1)
    refine ⟨sA, e1, fun q => by rw [q1.1]; exact hul q, ?_, ⟨s1, ea⟩, ?_⟩
    · obtain ⟨hl, prev, s2, e2, _⟩ := hpre (t + 1) (le_refl _)
      exact ⟨hl, prev, s2, e2⟩
    · intro l hl
      obtain ⟨hl1, prev, sl, el, hprev, lk, a1⟩ := hpre l (by omega)
      refine ⟨hl1, prev, sl, predAt s.mem key es1 l, el, ?_, ?_, ?_⟩
      · have hsplit := add_lock_loop_split l (t + 1 - l) sA tid 0 none (-1)
        have e : l + (t + 1 - l) = t + 1 := by omega
        rw [e, el] at hsplit
        simp only [ok_bind, if_true, Nat.zero_add] at hsplit
        exact hsplit
      · rw [a1.get_pred]
        exact (g1 l (by omega)).1
      · intro hne q hq
        obtain ⟨i, hi, hiq⟩ := (lk q).1 hq
        have hl0 : l ≠ 0 := by omega
        rw [if_neg hl0] at hprev
        rw [← hiq]
        rcases predAt_order hH key (Nat.le_of_lt hi) with heq | hlt
        · exfalso
          have := predAt_run (m := s.mem) (k := key) (fun p hp => (hH.elems p hp).1) hi heq.symm
          rw [hprev, this] at hne
          exact hne rfl
        · exact hlt
  · intro p rest hpr
    subst hpr
    obtain ⟨s1, s2, s3, s4, e1, e2, e3, e4, hh3, _, ul1, lk3, _, _, hloop⟩ :=
      delmin_steps hH hs hul htid
    refine ⟨s1, s2, s3, s4, e1, ul1, e2, e3, ?_, e4, hloop⟩
    intro q hq
    have hqp := (lk3 q).1 hq
    have hp := (hH.elems p (by simp)).1
    have hne : s.head ≠ p := by rw [hH.head_eq]; omega
    unfold comes_earlier
    rw [hqp, hh3, List.indexOf_cons_self, List.indexOf_cons_ne _ hne]
    exact Nat.succ_pos _

/-- C18 at the queue that holds the keys 3 (three levels) and 7 (two levels): `sq_add` of the
key 8 with sampled level 2, whose predecessors are the node of key 7 at the levels 0 and 1
and the node of key 3 at level 2, and `sq_delmin`. -/
theorem C18_lock_order_witness :
    Reach ex_q2 ∧ chain ex_q2 0 = some [3, 2] ∧
    (∃ sA, sq_search 4 ex_q2 8 0 = .ok (-1, sA) ∧ (∀ q, lockOf sA.mem q = false) ∧
        (∃ hl prev s2, add_lock_loop (2 + 1) sA 0 0 none (-1) = .ok ((true, hl, prev), s2)) ∧
        (∃ s1, sq_add (4 + 1) ex_q2 8 80 2 0 = .ok (1, s1)) ∧
        ∀ l, l ≤ 2 → ∃ hl prev sl p,
          add_lock_loop l sA 0 0 none (-1) = .ok ((true, hl, prev), sl) ∧
          add_lock_loop (2 + 1) sA 0 0 none (-1) = add_lock_loop (2 + 1 - l) sl 0 l prev hl ∧
          get_pred sl 0 l = .ok (some p) ∧
          (some p ≠ prev → ∀ q, lockOf sl.mem q = true →
            comes_earlier (ex_q2.head :: [3, 2]) p q)) ∧
    (∃ s1 s2 s3 s4, pptr ex_q2 ex_q2.head 0 0 = .ok (some 3, s1) ∧
        (∀ q, lockOf s1.mem q = false) ∧ lock s1 3 = .ok s2 ∧ set_marked s2 3 1 = .ok s3 ∧
        (∀ q, lockOf s3.mem q = true → comes_earlier (ex_q2.head :: [3, 2]) s3.head q) ∧
        lock s3 s3.head = .ok s4 ∧
        ∀ fuel, delmin_loop (fuel + 1) ex_q2 0 = (do
          let s5 ← delmin_unlink (topOf s4.mem 3 + 1) s4 3
          let s6 ← unlock s5 (some 3)
          let s7 ← unlock s6 (some s6.head)
          .ok (3, s7))) :=
  ⟨reachable_reach ex_q2_reachable, ex_q2_chain,
    (C18_lock_order ex_q2 [3, 2] 0 (reachable_reach ex_q2_reachable) ex_q2_chain
      (by decide)).1 8 80 2 4 (by decide) (by decide) (by decide),
    (C18_lock_order ex_q2 [3, 2] 0 (reachable_reach ex_q2_reachable) ex_q2_chain
      (by decide)).2 3 [2] rfl⟩

end Prioq

namespace Prioq

/-! ## Accesses within the arrays -/

/-- The tower of the tail keeps the `maxLevel + 1` slots that `sq_init` gave it. -/
theorem reach_tail_tower {s : sq_t} (h : Reach s) : towerLen s.mem 1 = s.maxLevel + 1 := by
  induction h with
  | init maxLevel min max nthreads =>
    have hm := sq_init_mem maxLevel min max nthreads
    have hlen : ∀ (v : Option Nat) (k : Nat) (xs : List (Option Nat)),
        ((List.range k).foldl (fun a i => a.set i v) xs).length = xs.length := by
      intro v k
      induction k with
      | zero => intro xs; simp
      | succ k ihk =>
        intro xs
        rw [List.range_succ, List.foldl_append]
        simp [ihk]
    simp [towerLen, hm, hlen]; rfl
  | @add s s1 fuel key val topLevel tid r hr hadd ih =>
    obtain ⟨es, hH, hs, hul⟩ := reach_heap hr
    obtain ⟨_, _, _, _, _, _, _, ins, hM, _⟩ := sq_add_returns hH hs hul hadd
    have hlen := hH.len
    rw [hM, (ins.obsI (by omega : 1 < s.mem.length)).2.2.2.2.2.1]
    exact ih
  | @delmin s s1 fuel tid r hr hdel ih =>
    obtain ⟨es, hH, hs, hul⟩ := reach_heap hr
    obtain ⟨_, rest, hes, _, _, _, _, del, hM, _⟩ := sq_delmin_returns hH hs hul hdel
    have hp : 1 ≠ r.2 := by
      have := (hH.elems r.2 (by rw [hes]; simp)).1
      omega
    rw [hM, (del.obsD hp).2.2.2.2.2.1]
    exact ih

/-- A run with any fuel spins or gives the result of a run that returns. -/
theorem spin_or_ok {α : Type} {f : Nat → Res α} (h : ∀ n, Below (f n) (f (n + 1))) {N : Nat}
    {a : α} (hN : f N = .ok a) (n : Nat) : f n = .spin ∨ f n = .ok a := by
  by_cases hn : n ≤ N
  · have := mono_add h n (N - n)
    rw [Nat.add_sub_cancel' hn, hN] at this
    exact this
  · exact Or.inr (mono_le h (by omega : N ≤ n) hN)

/-- C19. An access `n.nexts[i]` outside the tower of `n`, an access to `preds` or `succs`
outside the array, and a dereference of `NULL` are faults. In every state reached from
`sq_init` by returning calls of `sq_add` and `sq_delmin`, with level-0 chain `es`: the
scratch arrays of every thread have `maxLevel` slots and the tower of every allocated node
has `topLevel + 1` slots; and for every key below the key of the tail, every sampled level
`t < maxLevel` and every thread in range, `sq_search`, `sq_add` and `sq_delmin` never
fault: with any fuel they spin or return, and with fuel for `es.length + 3` rounds
`sq_search` and `sq_add` return, and so does `sq_delmin` when the queue holds an element. -/
theorem C19_accesses_in_bounds (s : sq_t) (es : List Nat) (key val : Int) (t tid : Nat)
    (h : Reach s) (hc : chain s 0 = some es) (hk : key < keyOf s.mem s.tail)
    (ht : t < s.maxLevel) (htid : tid < s.nthreads) :
    (∀ w ∈ s.thread_ws, w.preds.length = s.maxLevel ∧ w.succs.length = s.maxLevel) ∧
    (∀ q, q < s.mem.length → towerLen s.mem q = topOf s.mem q + 1) ∧
    (∀ fuel,
      (sq_search fuel s key tid = .spin ∨ ∃ s1, sq_search fuel s key tid = .ok (-1, s1)) ∧
      (sq_add fuel s key val t tid = .spin ∨ ∃ s1, sq_add fuel s key val t tid = .ok (1, s1)) ∧
      (sq_delmin fuel s tid = .spin ∨ ∃ p s1, sq_delmin fuel s tid = .ok ((1, p), s1))) ∧
    (∀ fuel, es.length + 3 ≤ fuel →
      (∃ s1, sq_search fuel s key tid = .ok (-1, s1)) ∧
      (∃ s1, sq_add fuel s key val t tid = .ok (1, s1)) ∧
      (es ≠ [] → ∃ p s1, sq_delmin fuel s tid = .ok ((1, p), s1))) := by
  obtain ⟨es1, hH, hs, hul⟩ := reach_heap h
  have hes := heap_elems_of_chain hH hc
  subst hes
  rw [hH.tail_eq] at hk
  obtain ⟨sS, eS, _⟩ := sq_search_spec hH hs hk htid
    (by omega : es1.length + 1 < es1.length + 3)
  obtain ⟨sA, eA, _⟩ := sq_add_spec (v := val) hH hs hul hk ht htid
    (by omega : es1.length + 2 < es1.length + 3)
  have hdel : ∀ p rest, es1 = p :: rest → ∃ s1, sq_delmin 1 s tid = .ok ((1, p), s1) := by
    intro p rest he
    subst he
    obtain ⟨s1, e1, _⟩ := sq_delmin_spec 0 hH hs hul htid
    exact ⟨s1, e1⟩
  refine ⟨hs.2.2.1, ?_, ?_, ?_⟩
  · intro q hq
    by_cases h0 : q = 0
    · rw [h0, hH.hd_tower, hH.hd_top]
    · by_cases h1 : q = 1
      · rw [h1, reach_tail_tower h, hH.tl_top]
      · exact (reach_tops h q (by omega) hq).2
  · intro fuel
    refine ⟨?_, ?_, ?_⟩
    · rcases spin_or_ok (f := fun n => sq_search n s key tid)
        (fun n => sq_search_mono n s key tid) eS fuel with h1 | h1
      · exact Or.inl h1
      · exact Or.inr ⟨sS, h1⟩
    · rcases spin_or_ok (f := fun n => sq_add n s key val t tid)
        (fun n => sq_add_mono n s key val t tid) eA fuel with h1 | h1
      · exact Or.inl h1
      · exact Or.inr ⟨sA, h1⟩
    · cases hes : es1 with
      | nil =>
        rw [hes] at hH
        exact Or.inl (sq_delmin_empty hH hs htid fuel)
      | cons p rest =>
        obtain ⟨s1, e1⟩ := hdel p rest hes
        rcases spin_or_ok (f := fun n => sq_delmin n s tid)
          (fun n => sq_delmin_mono n s tid) e1 fuel with h1 | h1
        · exact Or.inl h1
        · exact Or.inr ⟨p, s1, h1⟩
  · intro fuel hf
    refine ⟨?_, ?_, ?_⟩
    · exact ⟨sS, mono_le (f := fun n => sq_search n s key tid)
        (fun n => sq_search_mono n s key tid) hf eS⟩
    · exact ⟨sA, mono_le (f := fun n => sq_add n s key val t tid)
        (fun n => sq_add_mono n s key val t tid) hf eA⟩
    · intro hne
      cases hes : es1 with
      | nil => exact absurd hes hne
      | cons p rest =>
        obtain ⟨s1, e1⟩ := hdel p rest hes
        exact ⟨p, s1, mono_le (f := fun n => sq_delmin n s tid)
          (fun n => sq_delmin_mono n s tid) (by omega) e1⟩

/-- C19 at the queue that holds the keys 3 and 7, for the key 5 and the sampled level 2. -/
theorem C19_accesses_in_bounds_witness :
    Reach ex_q2 ∧ chain ex_q2 0 = some [3, 2] ∧
    (∀ w ∈ ex_q2.thread_ws, w.preds.length = ex_q2.maxLevel ∧ w.succs.length = ex_q2.maxLevel) ∧
    (∀ q, q < ex_q2.mem.length → towerLen ex_q2.mem q = topOf ex_q2.mem q + 1) ∧
    (∀ fuel,
      (sq_search fuel ex_q2 5 0 = .spin ∨ ∃ s1, sq_search fuel ex_q2 5 0 = .ok (-1, s1)) ∧
      (sq_add fuel ex_q2 5 50 2 0 = .spin ∨ ∃ s1, sq_add fuel ex_q2 5 50 2 0 = .ok (1, s1)) ∧
      (sq_delmin fuel ex_q2 0 = .spin ∨ ∃ p s1, sq_delmin fuel ex_q2 0 = .ok ((1, p), s1))) ∧
    (∀ fuel, [3, 2].length + 3 ≤ fuel →
      (∃ s1, sq_search fuel ex_q2 5 0 = .ok (-1, s1)) ∧
      (∃ s1, sq_add fuel ex_q2 5 50 2 0 = .ok (1, s1)) ∧
      ([3, 2] ≠ [] → ∃ p s1, sq_delmin fuel ex_q2 0 = .ok ((1, p), s1))) :=
  ⟨reachable_reach ex_q2_reachable, ex_q2_chain,
    C19_accesses_in_bounds ex_q2 [3, 2] 5 50 2 0 (reachable_reach ex_q2_reachable) ex_q2_chain
      (by decide) (by decide) (by decide)⟩

end Prioq

namespace Prioq

/-! ## The hazard pointer records during an insertion -/

/-- A sequence of two steps that returns: the first step returned, and so did the second. -/
theorem bind_ok {α β : Type} {f : α → Res β} {b : β} :
    ∀ {x : Res α}, (x >>= f) = Res.ok b → ∃ a, x = Res.ok a ∧ f a = Res.ok b
  | .ok a, h => ⟨a, rfl, h⟩
  | .spin, h => by cases h
  | .abort, h => by cases h
  | .fault, h => by cases h

theorem lock_hp {s s1 : sq_t} {p : Nat} (h : lock s p = .ok s1) : s1.hp = s.hp := by
  unfold lock at h
  split at h
  · split at h
    · cases h
    · cases h; rfl
  · cases h

theorem unlock_hp {s s1 : sq_t} {p : Option Nat} (h : unlock s p = .ok s1) : s1.hp = s.hp := by
  unfold unlock at h
  split at h
  · cases h
  · split at h
    · split at h
      · cases h; rfl
      · cases h
    · cases h

theorem set_next_hp {s s1 : sq_t} {p l : Nat} {v : Option Nat} (h : set_next s p l v = .ok s1) :
    s1.hp = s.hp := by
  unfold set_next at h
  split at h
  · split at h
    · cases h; rfl
    · cases h
  · cases h

theorem set_fullyLinked_hp {s s1 : sq_t} {p : Nat} {v : Int}
    (h : set_fullyLinked s p v = .ok s1) : s1.hp = s.hp := by
  unfold set_fullyLinked at h
  split at h
  · cases h; rfl
  · cases h

/-- The locking loop of `sq_add` writes no hazard slot. -/
theorem add_lock_loop_hp : ∀ (n : Nat) (s : sq_t) (tid j : Nat) (prev : Option Nat) (hl : Int)
    (r : Bool × Int × Option Nat) (s1 : sq_t),
    add_lock_loop n s tid j prev hl = .ok (r, s1) → s1.hp = s.hp
  | 0, s, tid, j, prev, hl, r, s1, h => by
    simp only [add_lock_loop] at h
    cases h; rfl
  | n + 1, s, tid, j, prev, hl, r, s1, h => by
    rw [add_lock_loop] at h
    obtain ⟨pred, _, h⟩ := bind_ok h
    obtain ⟨succ, _, h⟩ := bind_ok h
    cases pred with
    | none => cases h
    | some p =>
      simp only [] at h
      obtain ⟨⟨sa, prev1, hl1⟩, hstep, h⟩ := bind_ok h
      simp only [] at h
      obtain ⟨pn, _, h⟩ := bind_ok h
      obtain ⟨valid, _, h⟩ := bind_ok h
      have hsa : sa.hp = s.hp := by
        split at hstep
        · obtain ⟨sb, hlock, hh⟩ := bind_ok hstep
          cases hh
          exact lock_hp hlock
        · cases hstep; rfl
      cases valid with
      | false =>
        simp only [Bool.false_eq_true, if_false] at h
        cases h
        exact hsa
      | true =>
        simp only [if_true] at h
        exact (add_lock_loop_hp n sa tid (j + 1) prev1 hl1 r s1 h).trans hsa

/-- The linking loop of `sq_add` writes no hazard slot. -/
theorem add_link_loop_hp : ∀ (n : Nat) (s : sq_t) (tid j nw : Nat) (s1 : sq_t),
    add_link_loop n s tid j nw = .ok s1 → s1.hp = s.hp
  | 0, s, tid, j, nw, s1, h => by
    simp only [add_link_loop] at h
    cases h; rfl
  | n + 1, s, tid, j, nw, s1, h => by
    rw [add_link_loop] at h
    obtain ⟨succ, _, h⟩ := bind_ok h
    obtain ⟨sa, ha, h⟩ := bind_ok h
    obtain ⟨pred, _, h⟩ := bind_ok h
    cases pred with
    | none => cases h
    | some p =>
      simp only [] at h
      obtain ⟨sb, hb, h⟩ := bind_ok h
      exact ((add_link_loop_hp n sb tid (j + 1) nw s1 h).trans (set_next_hp hb)).trans
        (set_next_hp ha)

/-- The loop of `unlock_preds` writes no hazard slot. -/
theorem unlock_preds_loop_hp : ∀ (n : Nat) (s : sq_t) (tid i : Nat) (prev : Option Nat)
    (s1 : sq_t), unlock_preds_loop n s tid i prev = .ok s1 → s1.hp = s.hp
  | 0, s, tid, i, prev, s1, h => by
    simp only [unlock_preds_loop] at h
    cases h; rfl
  | n + 1, s, tid, i, prev, s1, h => by
    rw [unlock_preds_loop] at h
    obtain ⟨p, _, h⟩ := bind_ok h
    by_cases hc : p ≠ prev
    · simp only [if_pos hc] at h
      obtain ⟨sa, ha, h⟩ := bind_ok h
      exact (unlock_preds_loop_hp n sa tid (i + 1) p s1 h).trans (unlock_hp ha)
    · simp only [if_neg hc, ok_bind] at h
      exact unlock_preds_loop_hp n s tid (i + 1) p s1 h

/-- After its search, the retry loop of `sq_add` writes no hazard slot, when the locking loop
leaves `valid` set. -/
theorem add_loop_tail_hp {s sA s2 s6 : sq_t} {key val : Int} {t tid f : Nat} {lf hl hl2 : Int}
    {prev : Option Nat} (eS : sq_search f s key tid = .ok (lf, sA))
    (eL : add_lock_loop (t + 1) sA tid 0 none (-1) = .ok ((true, hl2, prev), s2))
    (e6 : add_loop (f + 1) s key val t tid = .ok (hl, s6)) : s6.hp = sA.hp := by
  rw [add_loop] at e6
  simp only [eS, ok_bind, eL, Bool.not_true, Bool.false_eq_true, if_false] at e6
  obtain ⟨_, _, e6⟩ := bind_ok e6
  simp only [alloc] at e6
  obtain ⟨nn, _, e6⟩ := bind_ok e6
  obtain ⟨s5, e5, e6⟩ := bind_ok e6
  obtain ⟨pt, _, e6⟩ := bind_ok e6
  cases pt with
  | none => cases e6
  | some p =>
    simp only [] at e6
    obtain ⟨nx, _, e6⟩ := bind_ok e6
    split at e6
    · cases e6
    · obtain ⟨s7, e7, e6⟩ := bind_ok e6
      cases e6
      rw [set_fullyLinked_hp e7, add_link_loop_hp _ _ _ _ _ _ e5]
      show s2.hp = sA.hp
      exact add_lock_loop_hp _ _ _ _ _ _ _ _ eL

/-- A returning call of `sq_add` on a state that holds a skiplist searches once, and leaves
the hazard pointer records as this search left them. -/
theorem sq_add_hp {s s1 : sq_t} {es : List Nat} {key val : Int} {t tid f : Nat} {r : Int}
    (hH : Heap s es) (hs : Shape s) (hul : ∀ q, lockOf s.mem q = false)
    (hadd : sq_add (f + 1) s key val t tid = .ok (r, s1)) :
    ∃ sA, sq_search f s key tid = .ok (-1, sA) ∧ s1.hp = sA.hp := by
  obtain ⟨htid, ht, hk, _⟩ := sq_add_returns hH hs hul hadd
  have h1 : tid < s.thread_ws.length := by rw [hs.1]; exact htid
  unfold sq_add at hadd
  rw [if_pos h1, if_pos ht] at hadd
  obtain ⟨⟨hl, s6⟩, e6, hadd⟩ := bind_ok hadd
  simp only [] at hadd
  obtain ⟨s7, e7, hadd⟩ := bind_ok hadd
  obtain ⟨s8, e8, hadd⟩ := bind_ok hadd
  have hs8 : s8 = s1 := (Prod.mk.inj (Res.ok.inj hadd)).2
  have e6a := e6
  rw [add_loop] at e6a
  obtain ⟨⟨lf, sA⟩, eS, _⟩ := bind_ok e6a
  obtain ⟨sA1, eS1, q1, _, g1⟩ := sq_search_spec hH hs hk htid
    (by omega : es.length + 1 < max f (es.length + 2))
  have := mono_le (f := fun n => sq_search n s key tid)
    (fun n => sq_search_mono n s key tid) (le_max_left f (es.length + 2)) eS
  simp only at this
  rw [eS1] at this
  have hinj := Prod.mk.inj (Res.ok.inj this)
  rw [← hinj.1] at eS
  rw [hinj.2] at q1 g1
  obtain ⟨hl2, prev, s2, eL, _⟩ := add_lock_prefix hH hul hk ht q1 g1 (t + 1)
    (le_refl _)
  have h6 := add_loop_tail_hp eS eL e6
  have h7 : s7.hp = s6.hp := unlock_preds_loop_hp _ _ _ _ _ _ e7
  have h8 := (clean_ptrs_loop_ok _ _ _ _ _ e8).2.1
  exact ⟨sA, eS, by rw [← hs8, h8, h7, h6]⟩

/-- C15, amended. In every state reached from `sq_init` by returning calls of `sq_add` and
`sq_delmin`, when a call of `sq_add` by thread `tid` returns, every slot `l < maxLevel` of
the scratch arrays `preds` and `succs` of the thread is `NULL` (`clean_ptrs` clears the
working area of the thread), and the hazard pointer records, the held slots of the thread
among them, are not cleared: they are as the search of the call left them. -/
theorem C15_add_clears_scratch_arrays (s s1 : sq_t) (key val : Int) (t tid fuel : Nat) (r : Int)
    (h : Reach s) (hadd : sq_add (fuel + 1) s key val t tid = .ok (r, s1)) :
    (∀ l, l < s.maxLevel → get_pred s1 tid l = .ok none ∧ get_succ s1 tid l = .ok none) ∧
    ∃ sA, sq_search fuel s key tid = .ok (-1, sA) ∧ s1.hp = sA.hp := by
  obtain ⟨es, hH, hs, hul⟩ := reach_heap h
  obtain ⟨_, _, _, _, _, _, _, _, hM, _⟩ := sq_add_returns hH hs hul hadd
  obtain ⟨s2, hc⟩ := sq_add_last hadd
  obtain ⟨m2, _, c2, _⟩ := clean_ptrs_loop_ok s2.maxLevel 0 s2 s1 tid hc
  refine ⟨?_, sq_add_hp hH hs hul hadd⟩
  intro l hl
  exact c2 l (Nat.zero_le _) (by rw [Nat.zero_add, ← m2, hM]; exact hl)

/-- C15, amended, at the call of `sq_add` with the key 9 on the queue that holds the key 7. -/
theorem C15_add_clears_scratch_arrays_witness :
    Reach ex_q1 ∧ sq_add (9 + 1) ex_q1 9 90 0 0 = .ok (1, ex_q4) ∧
      (∀ l, l < ex_q1.maxLevel →
        get_pred ex_q4 0 l = .ok none ∧ get_succ ex_q4 0 l = .ok none) ∧
      ∃ sA, sq_search 9 ex_q1 9 0 = .ok (-1, sA) ∧ ex_q4.hp = sA.hp :=
  ⟨reachable_reach ex_q1_reachable, ex_q4_add,
    C15_add_clears_scratch_arrays ex_q1 ex_q4 9 90 0 0 9 1 (reachable_reach ex_q1_reachable)
      ex_q4_add⟩

end Prioq

namespace Prioq

/-! ## The second extraction strategy on a queue whose first element is free -/

/-- The levels loop of `sq_search_preds` for the first element `p` of the queue: at every
level the head points to `p`, so the head is the predecessor of every level; the slots of
`preds` above the tower of `p` are not written. -/
theorem search_preds_levels_first {s0 : sq_t} {p tid : Nat} (fuel : Nat)
    (hfirst : ∀ l, l ≤ topOf s0.mem p → nxt s0.mem 0 l = some (some p))
    (htop : topOf s0.mem p < s0.maxLevel) (ht : tid < s0.nthreads) :
    ∀ (n : Nat) (s : sq_t), n ≤ topOf s0.mem p + 1 → SameQ s0 s → Shape s →
      (∀ l, topOf s0.mem p < l → get_pred s tid l = get_pred s0 tid l) →
      (∀ l, n ≤ l → l ≤ topOf s0.mem p → get_pred s tid l = .ok (some 0)) →
      ∃ s1, search_preds_levels (fuel + 1) n s p tid 0 = .ok (some (), s1) ∧ SameQ s0 s1 ∧
        Shape s1 ∧ (∀ l, topOf s0.mem p < l → get_pred s1 tid l = get_pred s0 tid l) ∧
        (∀ l, l ≤ topOf s0.mem p → get_pred s1 tid l = .ok (some 0))
  | 0, s, _, hq, hs, hr, hdone =>
    ⟨s, by simp [search_preds_levels], hq, hs, hr, fun l hl => hdone l (Nat.zero_le _) hl⟩
  | n + 1, s, hn, hq, hs, hr, hdone => by
    have hts : tid < s.nthreads := by rw [hq.2.2.1]; exact ht
    obtain ⟨s1, e1, q1, w1, sh1⟩ := pptr_spec (s := s) (p := 0) (l := n) hs hts
      (by rw [hq.1]; exact hfirst n (by omega))
    have hts1 : tid < s1.nthreads := by rw [q1.2.2.1]; exact hts
    have hl1 : n < s1.maxLevel := by rw [q1.2.1, hq.2.1]; omega
    obtain ⟨s3, e3, q3, p3, sh3, g3, go3, _⟩ :=
      set_pred_spec (s := s1) (i := n) (some 0) sh1 hts1 hl1
    have hws1 : ∀ l, get_pred s1 tid l = get_pred s tid l := by
      intro l
      simp only [get_pred, w1]
    obtain ⟨s4, e4, q4, sh4, hr4, g4⟩ := search_preds_levels_first fuel hfirst htop ht n s3
      (by omega) ((hq.transQ q1).transQ q3) sh3
      (by
        intro l hl
        rw [go3 l (by omega), hws1]
        exact hr l hl)
      (by
        intro l hl hlt
        by_cases hln : l = n
        · rw [hln]; exact g3
        · rw [go3 l hln, hws1]
          exact hdone l (by omega) hlt)
    refine ⟨s4, ?_, q4, sh4, hr4, g4⟩
    simp only [search_preds_levels, e1, ok_bind, search_preds_while, ne_eq, not_true_eq_false,
      if_false, e3]
    exact e4

/-- The function `sq_search_preds` for a node `p` that the head points to at every level of
its tower: every predecessor is the head; the memory and the slots of `preds` above the
tower of `p` are not written. -/
theorem sq_search_preds_first {s : sq_t} {p tid : Nat} (fuel : Nat)
    (hfirst : ∀ l, l ≤ topOf s.mem p → nxt s.mem 0 l = some (some p))
    (hplt : p < s.mem.length) (htop : topOf s.mem p < s.maxLevel) (hh : s.head = 0)
    (hs : Shape s) (ht : tid < s.nthreads) :
    ∃ s1, sq_search_preds (fuel + 2) s p tid = .ok s1 ∧ SameQ s s1 ∧ Shape s1 ∧
      (∀ l, topOf s.mem p < l → get_pred s1 tid l = get_pred s tid l) ∧
      (∀ l, l ≤ topOf s.mem p → get_pred s1 tid l = .ok (some 0)) := by
  obtain ⟨n, hn, hna⟩ := node_at_ok (s := s) (p := p) hplt
  have hntop : n.topLevel = topOf s.mem p := ((obs_get hn).2.2.1).symm
  obtain ⟨s1, e1, q1, sh1, hr1, g1⟩ := search_preds_levels_first fuel
    hfirst htop ht (topOf s.mem p + 1) s (le_refl _) (SameQ.reflQ s) hs (fun _ _ => rfl)
    (fun l h1 h2 => absurd h1 (by omega))
  refine ⟨s1, ?_, q1, sh1, hr1, g1⟩
  simp only [sq_search_preds, hna, ok_bind, hntop, hh, e1]

/-- The iterations of the locking loop of `sq_alt_delmin` that find `prev` equal to the
head, the predecessor of every level: they take no lock and leave `valid` set. -/
theorem alt_lock_loop_same {s : sq_t} {p tid top : Nat}
    (hg : ∀ l, l ≤ top → get_pred s tid l = .ok (some 0))
    (hn : ∀ l, l ≤ top → nxt s.mem 0 l = some (some p)) (hm : markedOf s.mem 0 = 0)
    (h0 : 0 < s.mem.length) :
    ∀ (n j : Nat) (hl : Int), n + j = top + 1 →
      alt_lock_loop n s tid p j (some 0) hl true = .ok ((true, hl, some 0), s)
  | 0, j, hl, _ => by simp [alt_lock_loop]
  | n + 1, j, hl, hnj => by
    obtain ⟨n0, hn0, en0⟩ := node_at_ok (s := s) (p := 0) h0
    have hm0 : n0.marked = 0 := by rw [← markedOf_get hn0]; exact hm
    have hrd : rd_next s 0 j = .ok (some p) := by
      simp only [rd_next, hn j (by omega)]
    simp only [alt_lock_loop, if_true, hg j (by omega), ok_bind, ne_eq, not_true_eq_false,
      if_false, hrd, en0, hm0, decide_True, Bool.and_self]
    exact alt_lock_loop_same hg hn hm h0 n (j + 1) hl (by omega)

theorem set_next_ws {s s1 : sq_t} {p l : Nat} {v : Option Nat} (h : set_next s p l v = .ok s1) :
    s1.thread_ws = s.thread_ws ∧ s1.head = s.head := by
  unfold set_next at h
  split at h
  · split at h
    · cases h; exact ⟨rfl, rfl⟩
    · cases h
  · cases h

/-- When the head is the predecessor of every level, the unlinking loop of `sq_alt_delmin`
is the unlinking loop of `sq_delmin`. -/
theorem alt_unlink_eq {p tid : Nat} :
    ∀ (n : Nat) (s : sq_t), s.head = 0 → (∀ l, l < n → get_pred s tid l = .ok (some 0)) →
      alt_unlink n s tid p = delmin_unlink n s p
  | 0, s, _, _ => rfl
  | n + 1, s, hh, hg => by
    rw [alt_unlink, delmin_unlink]
    refine res_bind_congr _ (fun v => ?_)
    rw [hg n (by omega), hh]
    simp only [ok_bind]
    rcases hs1 : set_next s 0 n v with s1 | _ | _ | _
    · simp only [ok_bind]
      have := set_next_ws hs1
      refine alt_unlink_eq n s1 (by rw [this.2]; exact hh) ?_
      intro l hl
      simp only [get_pred, this.1]
      exact hg l (by omega)
    · rfl
    · rfl
    · rfl

end Prioq

namespace Prioq

/-- The states of `sq_alt_delmin` on a queue whose first element is `p`, up to the locking
loop: the claim of `p` by the swap of `marked`, the wait, the lock of `p` and the search of
the predecessors, which are the head at every level. -/
theorem alt_delmin_steps {s : sq_t} {p : Nat} {rest : List Nat} {tid : Nat}
    (hH : Heap s (p :: rest)) (hs : Shape s) (hul : ∀ q, lockOf s.mem q = false)
    (htid : tid < s.nthreads) (f : Nat) :
    ∃ s2 s3 s4, (∀ k, alt_claim (k + 1) s tid (some s.head) = .ok (some p, s2)) ∧
      (∀ k, alt_wait (k + 1) s2 p = .ok ()) ∧ lock s2 p = .ok s3 ∧
      sq_search_preds (f + 2) s3 p tid = .ok s4 ∧ Shape s4 ∧
      s4.maxLevel = s.maxLevel ∧ s4.nthreads = s.nthreads ∧ s4.head = s.head ∧
      s4.tail = s.tail ∧ s4.mem.length = s.mem.length ∧
      (∀ l, l ≤ topOf s.mem p → get_pred s4 tid l = .ok (some 0)) ∧
      (∀ l, topOf s.mem p < l → get_pred s4 tid l = get_pred s tid l) ∧
      (∀ q l, nxt s4.mem q l = nxt s.mem q l) ∧
      (∀ q, coreOf s4.mem q =
        if q = p then some (keyOf s.mem p, valOf s.mem p, topOf s.mem p, 1, flOf s.mem p,
          towerLen s.mem p) else coreOf s.mem q) ∧
      (∀ q, lockOf s4.mem q = true ↔ q = p) := by
  have hlen := hH.len
  have hp := hH.elems p (by simp)
  have hp1 : p ≠ 1 := by omega
  have hfirst : ∀ l, l ≤ topOf s.mem p → nxt s.mem 0 l = some (some p) := by
    intro l hl
    have := hH.paths l (by omega)
    rw [lvl_cons_pos hl] at this
    exact this.1
  obtain ⟨s1, e1, q1, w1, sh1⟩ := pptr_spec (s := s) (p := 0) (l := 0) hs htid
    (hfirst 0 (Nat.zero_le _))
  have hp_lt1 : p < s1.mem.length := by rw [q1.1]; exact hp.2.1
  obtain ⟨s2, n2, hn2, e2, a2, len2, c2, l2, n2x⟩ := set_marked_spec (s := s1) (p := p) 1 hp_lt1
  have hn20 := hn2
  rw [q1.1] at hn20
  have on2 := obs_get hn20
  have hxchg : asm_xchg_marked s1 p 1 = .ok (n2.marked, s2) := by
    have h := e2
    simp only [set_marked, hn2] at h
    simp only [asm_xchg_marked, hn2]
    rw [Res.ok.inj h]
  have hm2 : n2.marked = 0 := by rw [← on2.2.2.2.1]; exact hp.2.2.2.2.1
  have hc2p : coreOf s2.mem p = some (keyOf s.mem p, valOf s.mem p, topOf s.mem p, 1,
      flOf s.mem p, towerLen s.mem p) := by
    rw [c2, if_pos rfl, on2.1, on2.2.1, on2.2.2.1, on2.2.2.2.2.1, on2.2.2.2.2.2]
  have hp_lt2 : p < s2.mem.length := by rw [len2]; exact hp_lt1
  obtain ⟨dn, hdn, edn⟩ := node_at_ok (s := s2) (p := p) hp_lt2
  have hfl : ¬ dn.fullyLinked = 0 := by
    have := (obs_get hdn).2.2.2.2.1
    rw [(obs_of_core hc2p).2.2.2.2.1, hp.2.2.2.2.2.1] at this
    omega
  obtain ⟨s3, e3, a3, d3, l3⟩ := lock_spec (s := s2) (p := p) hp_lt2
    (by rw [l2, q1.1]; exact hul p)
  have sh3 : Shape s3 := (a2.transA a3).shape sh1
  have hM3 : s3.maxLevel = s.maxLevel := by rw [(a2.transA a3).2.2.1]; exact q1.2.1
  have hN3 : s3.nthreads = s.nthreads := by rw [(a2.transA a3).2.2.2.1]; exact q1.2.2.1
  have hh3 : s3.head = s.head := by rw [(a2.transA a3).2.2.2.2.1]; exact q1.2.2.2.1
  have ht3 : s3.tail = s.tail := by rw [(a2.transA a3).2.2.2.2.2]; exact q1.2.2.2.2
  have n03 : ∀ q l, nxt s3.mem q l = nxt s.mem q l := by
    intro q l
    rw [(d3 q).2 l, n2x, q1.1]
  have c03 : ∀ q, coreOf s3.mem q =
      if q = p then some (keyOf s.mem p, valOf s.mem p, topOf s.mem p, 1, flOf s.mem p,
        towerLen s.mem p) else coreOf s.mem q := by
    intro q
    rw [(d3 q).1]
    by_cases hq : q = p
    · rw [hq, if_pos rfl]; exact hc2p
    · rw [c2, if_neg hq, if_neg hq, q1.1]
  have htop3 : topOf s3.mem p = topOf s.mem p :=
    (obs_of_core ((c03 p).trans (if_pos rfl))).2.2.1
  have hlen3 : s3.mem.length = s.mem.length := by rw [d3.length, len2, q1.1]
  obtain ⟨s4, e4, q4, sh4, gu4, g4⟩ := sq_search_preds_first (s := s3) (p := p) f
    (fun l hl => by rw [n03]; exact hfirst l (by rw [← htop3]; exact hl))
    (by rw [hlen3]; exact hp.2.1) (by rw [htop3, hM3]; exact hp.2.2.2.1)
    (by rw [hh3]; exact hH.head_eq) sh3 (by rw [hN3]; exact htid)
  refine ⟨s2, s3, s4, ?_, ?_, e3, e4, sh4, by rw [q4.2.1, hM3], by rw [q4.2.2.1, hN3],
    by rw [q4.2.2.2.1, hh3], by rw [q4.2.2.2.2, ht3], by rw [q4.1, hlen3],
    fun l hl => g4 l (by rw [htop3]; exact hl),
    fun l hl => by
      rw [gu4 l (by rw [htop3]; exact hl)]
      simp only [get_pred, (a2.transA a3).1, w1],
    fun q l => by rw [q4.1]; exact n03 q l,
    fun q => by rw [q4.1]; exact c03 q, ?_⟩
  · intro k
    have htail : s1.tail = 1 := by rw [q1.2.2.2.2]; exact hH.tail_eq
    simp only [alt_claim, hH.head_eq, e1, ok_bind, htail, if_neg hp1, hxchg, hm2, ne_eq,
      not_true_eq_false, if_false]
  · intro k
    simp only [alt_wait, edn, ok_bind, if_neg hfl]
  · intro q
    rw [q4.1, l3, l2, q1.1]
    by_cases hq : q = p
    · simp [hq]
    · simp only [hq, if_false, iff_false]
      rw [hul q]
      simp

end Prioq

namespace Prioq

theorem unlock_free {s : sq_t} {a : Nat} (h : lockOf s.mem a = false) :
    unlock s (some a) = .fault := by
  unfold lockOf at h
  rcases hm : s.mem[a]? with _ | n
  · simp only [unlock, hm]
  · rw [hm] at h
    simp only at h
    simp only [unlock, hm, h, Bool.false_eq_true, if_false]

theorem Deleted.agree {m m1 m2 : List sq_node_t} {p : Nat} (h1 : Deleted m m1 p)
    (h2 : Deleted m m2 p) (q : Nat) :
    coreOf m1 q = coreOf m2 q ∧ ∀ l, nxt m1 q l = nxt m2 q l := by
  refine ⟨?_, fun l => by rw [h1.nx, h2.nx]⟩
  by_cases hq : q = p
  · rw [hq, h1.del, h2.del]
  · rw [h1.other q hq, h2.other q hq]

/-! ## Unlocking as a plain store -/

/-- Where unlocking with the check of the lock returns, the plain store does the same. -/
theorem unlock_store_of_unlock {s s1 : sq_t} {p : Option Nat} (h : unlock s p = .ok s1) :
    unlock_store s p = .ok s1 := by
  unfold unlock at h
  unfold unlock_store
  cases p with
  | none => cases h
  | some a =>
    simp only at h ⊢
    rcases hm : s.mem[a]? with _ | n
    · rw [hm] at h; cases h
    · rw [hm] at h
      simp only at h ⊢
      split at h
      · exact h
      · cases h

/-- The plain store frees the lock of the node and changes nothing else. -/
theorem unlock_store_spec {s : sq_t} {p : Nat} (hp : p < s.mem.length) :
    ∃ s1, unlock_store s (some p) = .ok s1 ∧ SameAux s s1 ∧ SameData s.mem s1.mem ∧
      (∀ q, lockOf s1.mem q = if q = p then false else lockOf s.mem q) := by
  obtain ⟨n, hn⟩ := get_of_lt hp
  refine ⟨put_node s p { n with lock := false }, by simp [unlock_store, hn], SameAux.put _ _ _,
    ?_, ?_⟩
  · intro q
    refine ⟨?_, fun l => ?_⟩
    · rw [core_put _ hn]
      split
      · next h => rw [h, coreOf_some hn]
      · rfl
    · rw [nxt_put _ hn]
      split
      · next h => rw [h, nxt_get hn]
      · rfl
  · intro q
    rw [lock_put _ hn]

theorem get_pred_ok_or_fault (s : sq_t) (tid i : Nat) :
    (∃ v, get_pred s tid i = .ok v) ∨ get_pred s tid i = .fault := by
  unfold get_pred
  rcases hw : s.thread_ws[tid]? with _ | w
  · exact Or.inr rfl
  · rcases hv : w.preds[i]? with _ | v
    · right; simp only [hv]
    · left; exact ⟨v, by simp only [hv]⟩

/-- The iterations of the unlocking loop over levels whose predecessor is the head, after
the head was met: nothing is unlocked. -/
theorem unlock_store_skip {s : sq_t} {tid top : Nat}
    (hg : ∀ l, l ≤ top → get_pred s tid l = .ok (some 0)) :
    ∀ (n i : Nat), i + n ≤ top + 1 → unlock_preds_loop_store n s tid i (some 0) = .ok s
  | 0, _, _ => rfl
  | n + 1, i, h => by
    simp only [unlock_preds_loop_store, hg i (by omega), ok_bind, ne_eq, not_true_eq_false,
      if_false]
    exact unlock_store_skip hg n (i + 1) (by omega)

/-- The unlocking loop that runs beyond the tower of the extracted node, after the head was
met: it reaches a slot of `preds` that is `NULL` or outside the array, and faults. -/
theorem unlock_store_beyond {s : sq_t} {tid top : Nat}
    (hg : ∀ l, l ≤ top → get_pred s tid l = .ok (some 0))
    (hnull : ∀ x, get_pred s tid (top + 1) ≠ .ok (some x)) :
    ∀ (n i : Nat), i ≤ top + 1 → top + 1 < i + n →
      unlock_preds_loop_store n s tid i (some 0) = .fault
  | 0, i, h1, h2 => by omega
  | n + 1, i, h1, h2 => by
    by_cases hi : i ≤ top
    · simp only [unlock_preds_loop_store, hg i hi, ok_bind, ne_eq, not_true_eq_false, if_false]
      exact unlock_store_beyond hg hnull n (i + 1) (by omega) (by omega)
    · have hit : i = top + 1 := by omega
      rw [hit, unlock_preds_loop_store]
      rcases get_pred_ok_or_fault s tid (top + 1) with ⟨v, hgp⟩ | hgp
      · rw [hgp]
        cases v with
        | none =>
          have hne : (none : Option Nat) ≠ some 0 := by simp
          simp only [ok_bind, if_pos hne, unlock_store, fault_bind]
        | some x => exact absurd hgp (hnull x)
      · rw [hgp]
        rfl

/-- The function `unlock_preds` as plain stores, when every predecessor up to `top` is the
head, whose lock is free, and `highestLocked` is at most `top`: no lock changes. -/
theorem unlock_preds_store_low {s : sq_t} {tid top : Nat} {hl0 : Int}
    (hg : ∀ l, l ≤ top → get_pred s tid l = .ok (some 0)) (h0 : 0 < s.mem.length)
    (hfree : lockOf s.mem 0 = false) (hle : hl0 ≤ (top : Int)) :
    ∃ s1, unlock_preds_store s tid hl0 = .ok s1 ∧ SameAux s s1 ∧ SameData s.mem s1.mem ∧
      ∀ q, lockOf s1.mem q = lockOf s.mem q := by
  unfold unlock_preds_store
  rcases hk : (hl0 + 1).toNat with _ | k
  · exact ⟨s, rfl, SameAux.reflA s, SameData.reflD _, fun _ => rfl⟩
  · obtain ⟨s1, e1, a1, d1, l1⟩ := unlock_store_spec (s := s) (p := 0) h0
    have hne : some 0 ≠ (none : Option Nat) := by simp
    have hg1 : ∀ l, l ≤ top → get_pred s1 tid l = .ok (some 0) :=
      fun l hl => by rw [a1.get_pred]; exact hg l hl
    refine ⟨s1, ?_, a1, d1, ?_⟩
    · simp only [unlock_preds_loop_store, hg 0 (Nat.zero_le _), ok_bind, if_pos hne, e1,
        Nat.zero_add]
      exact unlock_store_skip hg1 k 1 (by omega)
    · intro q
      rw [l1]
      by_cases hq : q = 0
      · rw [if_pos hq, hq, hfree]
      · rw [if_neg hq]

/-- The function `unlock_preds` as plain stores, when every predecessor up to `top` is the
head, the next slot of `preds` is `NULL` or outside the array, and `highestLocked` is above
`top`: a fault. -/
theorem unlock_preds_store_high {s : sq_t} {tid top : Nat} {hl0 : Int}
    (hg : ∀ l, l ≤ top → get_pred s tid l = .ok (some 0)) (h0 : 0 < s.mem.length)
    (hnull : ∀ x, get_pred s tid (top + 1) ≠ .ok (some x)) (hlt : (top : Int) < hl0) :
    unlock_preds_store s tid hl0 = .fault := by
  unfold unlock_preds_store
  obtain ⟨k, hk⟩ : ∃ k, (hl0 + 1).toNat = k + 1 := ⟨hl0.toNat, by omega⟩
  have hktop : top + 1 ≤ k := by omega
  obtain ⟨s1, e1, a1, _, _⟩ := unlock_store_spec (s := s) (p := 0) h0
  have hne : some 0 ≠ (none : Option Nat) := by simp
  rw [hk]
  simp only [unlock_preds_loop_store, hg 0 (Nat.zero_le _), ok_bind, if_pos hne, e1, Nat.zero_add]
  exact unlock_store_beyond (fun l hl => by rw [a1.get_pred]; exact hg l hl)
    (fun x => by rw [a1.get_pred]; exact hnull x) k 1 (by omega) (by omega)

end Prioq

namespace Prioq

/-! ## The second extraction strategy, from the locking loop on -/

/-- The call `sq_alt_delmin` on a queue whose first element is `p`, when the local `prev`
does not start as the pointer to the head: the head is locked at level 0, `p` is unlinked
from the head, and the call returns 1 with `p`, every lock free. No free lock is unlocked,
so the plain store for `pthread_spin_unlock` gives the same. -/
theorem alt_delmin_spec {s : sq_t} {p : Nat} {rest : List Nat} {tid : Nat}
    (hH : Heap s (p :: rest)) (hs : Shape s) (hul : ∀ q, lockOf s.mem q = false)
    (htid : tid < s.nthreads) (f : Nat) {prev0 : Option Nat} (hl0 : Int)
    (hprev : prev0 ≠ some 0) :
    ∃ s9, sq_alt_delmin (f + 3) s tid prev0 hl0 = .ok ((1, some p), s9) ∧
      sq_alt_delmin_store (f + 3) s tid prev0 hl0 = .ok ((1, some p), s9) ∧
      Deleted s.mem s9.mem p ∧ (∀ q, lockOf s9.mem q = false) := by
  have hlen := hH.len
  have hp := hH.elems p (by simp)
  have hp0 : p ≠ 0 := by omega
  have h0p : (0 : Nat) ≠ p := by omega
  obtain ⟨s2, s3, s4, hclaim, hwait, e3, e4, sh4, hM4, hN4, hh4, ht4, hlen4, g4, _, n04, c04,
    lk4⟩ := alt_delmin_steps hH hs hul htid f
  have hfirst : ∀ l, l ≤ topOf s.mem p → nxt s.mem 0 l = some (some p) := by
    intro l hl
    have := hH.paths l (by omega)
    rw [lvl_cons_pos hl] at this
    exact this.1
  have hp_lt4 : p < s4.mem.length := by rw [hlen4]; exact hp.2.1
  obtain ⟨dn4, hdn4, edn4⟩ := node_at_ok (s := s4) (p := p) hp_lt4
  have otop4 := (obs_of_core ((c04 p).trans (if_pos rfl)))
  have htop4 : dn4.topLevel = topOf s.mem p := by
    rw [← (obs_get hdn4).2.2.1]; exact otop4.2.2.1
  -- the lock of the head
  have hfree0 : lockOf s4.mem 0 = false := by
    by_contra hcon
    have : lockOf s4.mem 0 = true := by simpa using hcon
    exact h0p ((lk4 0).1 this)
  obtain ⟨s5, e5, a5, d5, l5⟩ := lock_spec (s := s4) (p := 0) (by omega) hfree0
  have n05 : ∀ q l, nxt s5.mem q l = nxt s.mem q l := fun q l => by rw [(d5 q).2 l, n04]
  have c05 : ∀ q, coreOf s5.mem q = coreOf s4.mem q := fun q => (d5 q).1
  have hlen5 : s5.mem.length = s.mem.length := by rw [d5.length, hlen4]
  have hh5 : s5.head = 0 := by rw [a5.2.2.2.2.1, hh4]; exact hH.head_eq
  have hg5 : ∀ l, l ≤ topOf s.mem p → get_pred s5 tid l = .ok (some 0) :=
    fun l hl => by rw [a5.get_pred]; exact g4 l hl
  have hm05 : markedOf s5.mem 0 = 0 := by
    have := c04 0
    rw [if_neg h0p] at this
    rw [(obs_eq_of_core (c05 0)).2.2.2.1, (obs_eq_of_core this).2.2.2.1]
    exact hH.hd_marked
  obtain ⟨n0, hn0, en0⟩ := node_at_ok (s := s5) (p := 0) (by omega)
  have hn0m : n0.marked = 0 := by rw [← markedOf_get hn0]; exact hm05
  have hrd0 : rd_next s5 0 0 = .ok (some p) := by
    simp only [rd_next, n05, hfirst 0 (Nat.zero_le _)]
  have hrest := alt_lock_loop_same (s := s5) (p := p) hg5
    (fun l hl => by rw [n05]; exact hfirst l hl) hm05 (by omega) (topOf s.mem p) 1 0 (by omega)
  have hlockloop : alt_lock_loop (topOf s.mem p + 1) s4 tid p 0 prev0 hl0 true =
      .ok ((true, 0, some 0), s5) := by
    have hne : some 0 ≠ prev0 := fun h => hprev h.symm
    simp only [alt_lock_loop, if_true, g4 0 (Nat.zero_le _), ok_bind, if_pos hne, e5, hrd0, en0,
      hn0m, decide_True, Bool.and_self, Nat.zero_add, Nat.cast_zero]
    exact hrest
  have hpreds : alt_preds_loop (f + 3) s3 tid p prev0 hl0 = .ok (0, s5) := by
    simp only [alt_preds_loop, e4, ok_bind, edn4, htop4, hlockloop, Bool.not_true,
      Bool.false_eq_true, if_false]
  have hpreds2 : alt_preds_loop_store (f + 3) s3 tid p prev0 hl0 = .ok (0, s5) := by
    simp only [alt_preds_loop_store, e4, ok_bind, edn4, htop4, hlockloop, Bool.not_true,
      Bool.false_eq_true, if_false]
  -- the unlinking
  have htow0 : towerLen s5.mem 0 = s.maxLevel + 1 := by
    have := c04 0
    rw [if_neg h0p] at this
    rw [(obs_eq_of_core (c05 0)).2.2.2.2.2.1, (obs_eq_of_core this).2.2.2.2.2.1]
    exact hH.hd_tower
  have htowp : towerLen s5.mem p = topOf s.mem p + 1 := by
    rw [(obs_eq_of_core (c05 p)).2.2.2.2.2.1, otop4.2.2.2.2.2]; exact hp.2.2.1
  obtain ⟨s6, e6, a6, c6, l6, n6⟩ := delmin_unlink_spec hp0 (topOf s.mem p + 1) s5 hh5
    (by rw [htow0]; omega) (by rw [htowp])
  have hunlink : alt_unlink (topOf s.mem p + 1) s5 tid p = .ok s6 := by
    rw [alt_unlink_eq (topOf s.mem p + 1) s5 hh5 (fun l hl => hg5 l (by omega))]
    exact e6
  obtain ⟨dn5, hdn5, edn5⟩ := node_at_ok (s := s5) (p := p) (by rw [hlen5]; exact hp.2.1)
  have htop5 : dn5.topLevel = topOf s.mem p := by
    rw [← (obs_get hdn5).2.2.1, (obs_eq_of_core (c05 p)).2.2.1]; exact otop4.2.2.1
  -- the unlocks
  have hlk6 : ∀ q, lockOf s6.mem q = if q = 0 then true else lockOf s4.mem q :=
    fun q => by rw [l6, l5]
  obtain ⟨s7, e7, a7, d7, l7⟩ := unlock_spec (s := s6) (p := 0) (by rw [hlk6, if_pos rfl])
  have hg6 : get_pred s6 tid 0 = .ok (some 0) := by
    rw [a6.get_pred]; exact hg5 0 (Nat.zero_le _)
  have hne0 : some 0 ≠ (none : Option Nat) := by simp
  have e01 : ((0 : Int) + 1).toNat = 1 := rfl
  have hunl : unlock_preds s6 tid 0 = .ok s7 := by
    simp only [unlock_preds, e01, unlock_preds_loop, hg6, ok_bind, if_pos hne0, e7]
  have hunl2 : unlock_preds_store s6 tid 0 = .ok s7 := by
    simp only [unlock_preds_store, e01, unlock_preds_loop_store, hg6, ok_bind, if_pos hne0,
      unlock_store_of_unlock e7]
  have hlkp : lockOf s7.mem p = true := by
    rw [l7, if_neg hp0, hlk6, if_neg hp0]
    exact (lk4 p).2 rfl
  obtain ⟨s8, e8, a8, d8, l8⟩ := unlock_spec (s := s7) (p := p) hlkp
  have a48 : SameAux s4 s8 := (((a5.transA a6).transA a7).transA a8)
  have sh8 : Shape s8 := a48.shape sh4
  obtain ⟨s9, e9, q9, _, _⟩ := clean_ptrs_spec (s := s8) sh8
    (by rw [a48.2.2.2.1, hN4]; exact htid)
  have d68 : SameData s6.mem s8.mem := d7.transD d8
  have hws : tid < s.thread_ws.length := by rw [hs.1]; exact htid
  refine ⟨retire_node s9 p, ?_, ?_, ?_, ?_⟩
  · simp only [sq_alt_delmin, if_pos hws, hclaim (f + 2), ok_bind, hwait (f + 2), e3, hpreds, edn5,
      htop5, hunlink, hunl, e8, e9]
  · simp only [sq_alt_delmin_store, if_pos hws, hclaim (f + 2), ok_bind, hwait (f + 2), e3,
      hpreds2, edn5, htop5, hunlink, hunl2, unlock_store_of_unlock e8, e9]
  · show Deleted s.mem s9.mem p
    rw [q9.1]
    refine { len := ?_, other := ?_, del := ?_, nx := ?_ }
    · rw [d68.length, core_length c6, hlen5]
    · intro q hq
      rw [(d68 q).1, c6, c05, c04, if_neg hq]
    · rw [(d68 p).1, c6, c05, c04, if_pos rfl]
    · intro q l
      rw [(d68 q).2 l, n6, n05, n05]
      by_cases hc : q = 0 ∧ l ≤ topOf s.mem p
      · have : q = 0 ∧ l < topOf s.mem p + 1 := ⟨hc.1, by omega⟩
        rw [if_pos hc, if_pos this]
      · have : ¬ (q = 0 ∧ l < topOf s.mem p + 1) := fun h => hc ⟨h.1, by omega⟩
        rw [if_neg hc, if_neg this]
  · intro q
    show lockOf s9.mem q = false
    rw [q9.1, l8]
    by_cases hqp : q = p
    · simp [hqp]
    · rw [if_neg hqp, l7]
      by_cases hq0 : q = 0
      · simp [hq0]
      · rw [if_neg hq0, hlk6, if_neg hq0]
        by_contra hcon
        have : lockOf s4.mem q = true := by simpa using hcon
        exact hqp ((lk4 q).1 this)

/-- The call `sq_alt_delmin` on a queue whose first element is `p`, when the local `prev`
starts as the pointer to the head: the locking loop takes the head for locked at every
level and leaves `highestLocked` as it found it; `p` is unlinked from the head without the
lock of the head, in the state `s6`; the call goes on with `unlock_preds`. -/
theorem alt_stale_steps {s : sq_t} {p : Nat} {rest : List Nat} {tid : Nat}
    (hH : Heap s (p :: rest)) (hs : Shape s) (hul : ∀ q, lockOf s.mem q = false)
    (htid : tid < s.nthreads) (f : Nat) :
    ∃ s6, (∀ hl0, sq_alt_delmin (f + 3) s tid (some 0) hl0 = (do
        let s7 ← unlock_preds s6 tid hl0
        let s8 ← unlock s7 (some p)
        let s9 ← clean_ptrs s8 tid
        .ok ((1, some p), retire_node s9 p))) ∧
      (∀ hl0, sq_alt_delmin_store (f + 3) s tid (some 0) hl0 = (do
        let s7 ← unlock_preds_store s6 tid hl0
        let s8 ← unlock_store s7 (some p)
        let s9 ← clean_ptrs s8 tid
        .ok ((1, some p), retire_node s9 p))) ∧
      Shape s6 ∧ s6.nthreads = s.nthreads ∧ s6.mem.length = s.mem.length ∧
      (∀ l, l ≤ topOf s.mem p → get_pred s6 tid l = .ok (some 0)) ∧
      (∀ l, topOf s.mem p < l → get_pred s6 tid l = get_pred s tid l) ∧
      (∀ q, lockOf s6.mem q = true ↔ q = p) ∧
      (∀ q, coreOf s6.mem q =
        if q = p then some (keyOf s.mem p, valOf s.mem p, topOf s.mem p, 1, flOf s.mem p,
          towerLen s.mem p) else coreOf s.mem q) ∧
      (∀ q l, nxt s6.mem q l =
        if q = 0 ∧ l ≤ topOf s.mem p then nxt s.mem p l else nxt s.mem q l) := by
  have hlen := hH.len
  have hp := hH.elems p (by simp)
  have hp0 : p ≠ 0 := by omega
  have h0p : (0 : Nat) ≠ p := by omega
  obtain ⟨s2, s3, s4, hclaim, hwait, e3, e4, sh4, hM4, hN4, hh4, ht4, hlen4, g4, gu4, n04, c04,
    lk4⟩ := alt_delmin_steps hH hs hul htid f
  have hfirst : ∀ l, l ≤ topOf s.mem p → nxt s.mem 0 l = some (some p) := by
    intro l hl
    have := hH.paths l (by omega)
    rw [lvl_cons_pos hl] at this
    exact this.1
  have hp_lt4 : p < s4.mem.length := by rw [hlen4]; exact hp.2.1
  obtain ⟨dn4, hdn4, edn4⟩ := node_at_ok (s := s4) (p := p) hp_lt4
  have otop4 := (obs_of_core ((c04 p).trans (if_pos rfl)))
  have htop4 : dn4.topLevel = topOf s.mem p := by
    rw [← (obs_get hdn4).2.2.1]; exact otop4.2.2.1
  have hh4z : s4.head = 0 := by rw [hh4]; exact hH.head_eq
  have hm04 : markedOf s4.mem 0 = 0 := by
    have := c04 0
    rw [if_neg h0p] at this
    rw [(obs_eq_of_core this).2.2.2.1]
    exact hH.hd_marked
  have hlockloop : ∀ hl0 : Int, alt_lock_loop (topOf s.mem p + 1) s4 tid p 0 (some 0) hl0 true =
      .ok ((true, hl0, some 0), s4) := fun hl0 =>
    alt_lock_loop_same (s := s4) (p := p) g4
      (fun l hl => by rw [n04]; exact hfirst l hl) hm04 (by omega) (topOf s.mem p + 1) 0 hl0
      (by omega)
  have hpreds : ∀ hl0, alt_preds_loop (f + 3) s3 tid p (some 0) hl0 = .ok (hl0, s4) := by
    intro hl0
    simp only [alt_preds_loop, e4, ok_bind, edn4, htop4, hlockloop hl0, Bool.not_true,
      Bool.false_eq_true, if_false]
  have hpreds2 : ∀ hl0, alt_preds_loop_store (f + 3) s3 tid p (some 0) hl0 = .ok (hl0, s4) := by
    intro hl0
    simp only [alt_preds_loop_store, e4, ok_bind, edn4, htop4, hlockloop hl0, Bool.not_true,
      Bool.false_eq_true, if_false]
  have htow0 : towerLen s4.mem 0 = s.maxLevel + 1 := by
    have := c04 0
    rw [if_neg h0p] at this
    rw [(obs_eq_of_core this).2.2.2.2.2.1]
    exact hH.hd_tower
  have htowp : towerLen s4.mem p = topOf s.mem p + 1 := by
    rw [otop4.2.2.2.2.2]; exact hp.2.2.1
  obtain ⟨s6, e6, a6, c6, l6, n6⟩ := delmin_unlink_spec hp0 (topOf s.mem p + 1) s4 hh4z
    (by rw [htow0]; omega) (by rw [htowp])
  have hunlink : alt_unlink (topOf s.mem p + 1) s4 tid p = .ok s6 := by
    rw [alt_unlink_eq (topOf s.mem p + 1) s4 hh4z (fun l hl => g4 l (by omega))]
    exact e6
  have hws : tid < s.thread_ws.length := by rw [hs.1]; exact htid
  refine ⟨s6, ?_, ?_, a6.shape sh4, by rw [a6.2.2.2.1, hN4], by rw [core_length c6, hlen4],
    fun l hl => by rw [a6.get_pred]; exact g4 l hl,
    fun l hl => by rw [a6.get_pred]; exact gu4 l hl,
    fun q => by rw [l6]; exact lk4 q, fun q => by rw [c6]; exact c04 q, ?_⟩
  · intro hl0
    simp only [sq_alt_delmin, if_pos hws, hclaim (f + 2), ok_bind, hwait (f + 2), e3, hpreds hl0,
      edn4, htop4, hunlink]
  · intro hl0
    simp only [sq_alt_delmin_store, if_pos hws, hclaim (f + 2), ok_bind, hwait (f + 2), e3,
      hpreds2 hl0, edn4, htop4, hunlink]
  · intro q l
    rw [n6, n04, n04]
    by_cases hc : q = 0 ∧ l ≤ topOf s.mem p
    · have : q = 0 ∧ l < topOf s.mem p + 1 := ⟨hc.1, by omega⟩
      rw [if_pos hc, if_pos this]
    · have : ¬ (q = 0 ∧ l < topOf s.mem p + 1) := fun h => hc ⟨h.1, by omega⟩
      rw [if_neg hc, if_neg this]

end Prioq

namespace Prioq

/-! ## The scratch arrays between two calls -/

theorem set_peek_ws {s s1 : sq_t} {tid : Nat} {v : Option Nat} (h : set_peek s tid v = .ok s1) :
    s1.thread_ws = s.thread_ws := by
  unfold set_peek at h
  split at h
  · cases h; rfl
  · cases h

theorem set_held_ws {s s1 : sq_t} {tid l : Nat} {v : Option Nat}
    (h : set_held s tid l v = .ok s1) : s1.thread_ws = s.thread_ws := by
  unfold set_held at h
  split at h
  · split at h
    · cases h; rfl
    · cases h
  · cases h

theorem pptr_ws {s s1 : sq_t} {p l tid : Nat} {r : Option Nat}
    (h : pptr s p l tid = .ok (r, s1)) : s1.thread_ws = s.thread_ws := by
  simp only [pptr] at h
  obtain ⟨tmp, _, h⟩ := bind_ok h
  obtain ⟨sa, ha, h⟩ := bind_ok h
  obtain ⟨pk, _, h⟩ := bind_ok h
  obtain ⟨ag, _, h⟩ := bind_ok h
  have hsa : sa = s1 := by
    split at h
    · exact (Prod.mk.inj (Res.ok.inj h)).2
    · exact (Prod.mk.inj (Res.ok.inj h)).2
  rw [← hsa]
  exact set_peek_ws ha

theorem lptr_ws {s s1 : sq_t} {c r : Option Nat} {l tid : Nat}
    (h : lptr s c l tid = .ok (r, s1)) : s1.thread_ws = s.thread_ws := by
  simp only [lptr] at h
  obtain ⟨sa, ha, h⟩ := bind_ok h
  rw [← (Prod.mk.inj (Res.ok.inj h)).2]
  exact set_held_ws ha

theorem lock_ws {s s1 : sq_t} {p : Nat} (h : lock s p = .ok s1) :
    s1.thread_ws = s.thread_ws := by
  unfold lock at h
  split at h
  · split at h
    · cases h
    · cases h; rfl
  · cases h

theorem unlock_ws {s s1 : sq_t} {p : Option Nat} (h : unlock s p = .ok s1) :
    s1.thread_ws = s.thread_ws := by
  unfold unlock at h
  split at h
  · cases h
  · split at h
    · split at h
      · cases h; rfl
      · cases h
    · cases h

theorem set_fullyLinked_ws {s s1 : sq_t} {p : Nat} {v : Int}
    (h : set_fullyLinked s p v = .ok s1) : s1.thread_ws = s.thread_ws := by
  unfold set_fullyLinked at h
  split at h
  · cases h; rfl
  · cases h

theorem set_pred_other {s s1 : sq_t} {tid i : Nat} {v : Option Nat}
    (h : set_pred s tid i v = .ok s1) (t : Nat) (ht : t ≠ tid) :
    s1.thread_ws[t]? = s.thread_ws[t]? := by
  unfold set_pred at h
  split at h
  · split at h
    · cases h
      simp [List.getElem?_set, Ne.symm ht]
    · cases h
  · cases h

theorem set_succ_other {s s1 : sq_t} {tid i : Nat} {v : Option Nat}
    (h : set_succ s tid i v = .ok s1) (t : Nat) (ht : t ≠ tid) :
    s1.thread_ws[t]? = s.thread_ws[t]? := by
  unfold set_succ at h
  split at h
  · split at h
    · cases h
      simp [List.getElem?_set, Ne.symm ht]
    · cases h
  · cases h

/-- The walk of `sq_search` at one level writes no scratch array. -/
theorem search_while_ws : ∀ (fuel : Nat) (s : sq_t) (key : Int) (l tid pred curr : Nat)
    (r : Option (Nat × Nat)) (s1 : sq_t),
    search_while fuel s key l tid pred curr = .ok (r, s1) → s1.thread_ws = s.thread_ws
  | 0, _, _, _, _, _, _, _, _, h => by cases h
  | fuel + 1, s, key, l, tid, pred, curr, r, s1, h => by
    rw [search_while] at h
    obtain ⟨c, _, h⟩ := bind_ok h
    by_cases hk : key ≥ c.key
    · simp only [if_pos hk] at h
      obtain ⟨⟨pr, sa⟩, ha, h⟩ := bind_ok h
      cases pr with
      | none => cases h
      | some pred1 =>
        simp only [] at h
        obtain ⟨⟨r2, sb⟩, hb, h⟩ := bind_ok h
        cases r2 with
        | none =>
          simp only [] at h
          rw [← (Prod.mk.inj (Res.ok.inj h)).2, pptr_ws hb, lptr_ws ha]
        | some curr1 =>
          simp only [] at h
          rw [search_while_ws fuel sb key l tid pred1 curr1 r s1 h, pptr_ws hb, lptr_ws ha]
    · simp only [if_neg hk] at h
      rw [← (Prod.mk.inj (Res.ok.inj h)).2]

/-- The levels loop of `sq_search` writes the scratch arrays of its thread only. -/
theorem search_levels_other (fuel : Nat) : ∀ (n : Nat) (s : sq_t) (key : Int) (tid pred : Nat)
    (lf : Int) (r : Option Int) (s1 : sq_t),
    search_levels fuel n s key tid pred lf = .ok (r, s1) →
      ∀ t, t ≠ tid → s1.thread_ws[t]? = s.thread_ws[t]?
  | 0, s, key, tid, pred, lf, r, s1, h => by
    simp only [search_levels] at h
    intro t _
    rw [← (Prod.mk.inj (Res.ok.inj h)).2]
  | n + 1, s, key, tid, pred, lf, r, s1, h => by
    rw [search_levels] at h
    obtain ⟨⟨r1, sa⟩, ha, h⟩ := bind_ok h
    intro t ht
    cases r1 with
    | none =>
      simp only [] at h
      rw [← (Prod.mk.inj (Res.ok.inj h)).2, pptr_ws ha]
    | some curr =>
      simp only [] at h
      obtain ⟨⟨r2, sb⟩, hb, h⟩ := bind_ok h
      cases r2 with
      | none =>
        simp only [] at h
        rw [← (Prod.mk.inj (Res.ok.inj h)).2, search_while_ws _ _ _ _ _ _ _ _ _ hb, pptr_ws ha]
      | some pc =>
        obtain ⟨pred1, curr1⟩ := pc
        simp only [] at h
        obtain ⟨c, _, h⟩ := bind_ok h
        obtain ⟨sc, hc, h⟩ := bind_ok h
        obtain ⟨sd, hd, h⟩ := bind_ok h
        rw [search_levels_other fuel n sd key tid pred1 _ r s1 h t ht, set_succ_other hd t ht,
          set_pred_other hc t ht, search_while_ws _ _ _ _ _ _ _ _ _ hb, pptr_ws ha]

/-- The function `sq_search` writes the scratch arrays of its thread only. -/
theorem sq_search_other : ∀ (fuel : Nat) (s : sq_t) (key : Int) (tid : Nat) (r : Int) (s1 : sq_t),
    sq_search fuel s key tid = .ok (r, s1) → ∀ t, t ≠ tid → s1.thread_ws[t]? = s.thread_ws[t]?
  | 0, _, _, _, _, _, h => by cases h
  | fuel + 1, s, key, tid, r, s1, h => by
    rw [sq_search] at h
    obtain ⟨⟨r1, sa⟩, ha, h⟩ := bind_ok h
    intro t ht
    cases r1 with
    | none =>
      simp only [] at h
      rw [sq_search_other fuel sa key tid r s1 h t ht,
        search_levels_other fuel _ _ _ _ _ _ _ _ ha t ht]
    | some lf =>
      simp only [] at h
      rw [← (Prod.mk.inj (Res.ok.inj h)).2, search_levels_other fuel _ _ _ _ _ _ _ _ ha t ht]

end Prioq

namespace Prioq

/-- The locking loop of `sq_add` writes no scratch array. -/
theorem add_lock_loop_ws : ∀ (n : Nat) (s : sq_t) (tid j : Nat) (prev : Option Nat) (hl : Int)
    (r : Bool × Int × Option Nat) (s1 : sq_t),
    add_lock_loop n s tid j prev hl = .ok (r, s1) → s1.thread_ws = s.thread_ws
  | 0, s, tid, j, prev, hl, r, s1, h => by
    simp only [add_lock_loop] at h
    cases h; rfl
  | n + 1, s, tid, j, prev, hl, r, s1, h => by
    rw [add_lock_loop] at h
    obtain ⟨pred, _, h⟩ := bind_ok h
    obtain ⟨succ, _, h⟩ := bind_ok h
    cases pred with
    | none => cases h
    | some p =>
      simp only [] at h
      obtain ⟨⟨sa, prev1, hl1⟩, hstep, h⟩ := bind_ok h
      simp only [] at h
      obtain ⟨pn, _, h⟩ := bind_ok h
      obtain ⟨valid, _, h⟩ := bind_ok h
      have hsa : sa.thread_ws = s.thread_ws := by
        split at hstep
        · obtain ⟨sb, hlock, hh⟩ := bind_ok hstep
          cases hh
          exact lock_ws hlock
        · cases hstep; rfl
      cases valid with
      | false =>
        simp only [Bool.false_eq_true, if_false] at h
        cases h
        exact hsa
      | true =>
        simp only [if_true] at h
        exact (add_lock_loop_ws n sa tid (j + 1) prev1 hl1 r s1 h).trans hsa

/-- The linking loop of `sq_add` writes no scratch array. -/
theorem add_link_loop_ws : ∀ (n : Nat) (s : sq_t) (tid j nw : Nat) (s1 : sq_t),
    add_link_loop n s tid j nw = .ok s1 → s1.thread_ws = s.thread_ws
  | 0, s, tid, j, nw, s1, h => by
    simp only [add_link_loop] at h
    cases h; rfl
  | n + 1, s, tid, j, nw, s1, h => by
    rw [add_link_loop] at h
    obtain ⟨succ, _, h⟩ := bind_ok h
    obtain ⟨sa, ha, h⟩ := bind_ok h
    obtain ⟨pred, _, h⟩ := bind_ok h
    cases pred with
    | none => cases h
    | some p =>
      simp only [] at h
      obtain ⟨sb, hb, h⟩ := bind_ok h
      exact ((add_link_loop_ws n sb tid (j + 1) nw s1 h).trans (set_next_ws hb).1).trans
        (set_next_ws ha).1

/-- The loop of `unlock_preds` writes no scratch array. -/
theorem unlock_preds_loop_ws : ∀ (n : Nat) (s : sq_t) (tid i : Nat) (prev : Option Nat)
    (s1 : sq_t), unlock_preds_loop n s tid i prev = .ok s1 → s1.thread_ws = s.thread_ws
  | 0, s, tid, i, prev, s1, h => by
    simp only [unlock_preds_loop] at h
    cases h; rfl
  | n + 1, s, tid, i, prev, s1, h => by
    rw [unlock_preds_loop] at h
    obtain ⟨p, _, h⟩ := bind_ok h
    by_cases hc : p ≠ prev
    · simp only [if_pos hc] at h
      obtain ⟨sa, ha, h⟩ := bind_ok h
      exact (unlock_preds_loop_ws n sa tid (i + 1) p s1 h).trans (unlock_ws ha)
    · simp only [if_neg hc, ok_bind] at h
      exact unlock_preds_loop_ws n s tid (i + 1) p s1 h

/-- The retry loop of `sq_add` writes the scratch arrays of its thread only. -/
theorem add_loop_other : ∀ (fuel : Nat) (s : sq_t) (key val : Int) (t tid : Nat) (hl : Int)
    (s1 : sq_t), add_loop fuel s key val t tid = .ok (hl, s1) →
      ∀ u, u ≠ tid → s1.thread_ws[u]? = s.thread_ws[u]?
  | 0, _, _, _, _, _, _, _, h => by cases h
  | fuel + 1, s, key, val, t, tid, hl, s1, h => by
    rw [add_loop] at h
    obtain ⟨⟨lf, sa⟩, ha, h⟩ := bind_ok h
    simp only [] at h
    obtain ⟨⟨⟨valid, hl1, prev⟩, sb⟩, hb, h⟩ := bind_ok h
    simp only [] at h
    intro u hu
    have hsa := sq_search_other _ _ _ _ _ _ ha u hu
    have hsb := add_lock_loop_ws _ _ _ _ _ _ _ _ hb
    cases valid with
    | false =>
      simp only [Bool.not_false, if_true] at h
      obtain ⟨sc, hc, h⟩ := bind_ok h
      rw [add_loop_other fuel sc key val t tid hl s1 h u hu,
        unlock_preds_loop_ws _ _ _ _ _ _ hc, hsb, hsa]
    | true =>
      simp only [Bool.not_true, Bool.false_eq_true, if_false] at h
      obtain ⟨_, _, h⟩ := bind_ok h
      simp only [alloc] at h
      obtain ⟨nn, _, h⟩ := bind_ok h
      obtain ⟨s5, e5, h⟩ := bind_ok h
      obtain ⟨pt, _, h⟩ := bind_ok h
      cases pt with
      | none => cases h
      | some p =>
        simp only [] at h
        obtain ⟨nx, _, h⟩ := bind_ok h
        split at h
        · cases h
        · obtain ⟨s7, e7, h⟩ := bind_ok h
          cases h
          rw [set_fullyLinked_ws e7, add_link_loop_ws _ _ _ _ _ _ e5]
          show sb.thread_ws[u]? = s.thread_ws[u]?
          rw [hsb, hsa]

/-- The loop of `clean_ptrs` writes the scratch arrays of its thread only. -/
theorem clean_ptrs_loop_other : ∀ (n : Nat) (s : sq_t) (tid i : Nat) (s1 : sq_t),
    clean_ptrs_loop n s tid i = .ok s1 → ∀ u, u ≠ tid → s1.thread_ws[u]? = s.thread_ws[u]?
  | 0, s, tid, i, s1, h => by
    simp only [clean_ptrs_loop] at h
    cases h
    intro u _; rfl
  | n + 1, s, tid, i, s1, h => by
    rw [clean_ptrs_loop] at h
    obtain ⟨sa, ha, h⟩ := bind_ok h
    obtain ⟨sb, hb, h⟩ := bind_ok h
    intro u hu
    rw [clean_ptrs_loop_other n sb tid (i + 1) s1 h u hu, set_succ_other hb u hu,
      set_pred_other ha u hu]

/-- A returning call of `sq_add` writes the scratch arrays of its thread only. -/
theorem sq_add_other {s s1 : sq_t} {key val : Int} {t tid fuel : Nat} {r : Int}
    (h : sq_add fuel s key val t tid = .ok (r, s1)) (u : Nat) (hu : u ≠ tid) :
    s1.thread_ws[u]? = s.thread_ws[u]? := by
  unfold sq_add at h
  split at h
  · split at h
    · obtain ⟨⟨hl, s6⟩, e6, h⟩ := bind_ok h
      simp only [] at h
      obtain ⟨s7, e7, h⟩ := bind_ok h
      obtain ⟨s8, e8, h⟩ := bind_ok h
      rw [← (Prod.mk.inj (Res.ok.inj h)).2, clean_ptrs_loop_other _ _ _ _ _ e8 u hu,
        unlock_preds_loop_ws _ _ _ _ _ _ e7, add_loop_other _ _ _ _ _ _ _ _ e6 u hu]
    · cases h
  · cases h

theorem get_pred_congr {s s1 : sq_t} {t : Nat} (h : s1.thread_ws[t]? = s.thread_ws[t]?)
    (l : Nat) : get_pred s1 t l = get_pred s t l := by
  simp only [get_pred, h]

/-- Between two calls every slot of every `preds` array is `NULL`: `sq_init` leaves the
arrays so in this model, `sq_add` clears those of its thread before it returns, and
`sq_delmin` writes none. -/
theorem reach_scratch_null {s : sq_t} (h : Reach s) :
    ∀ u l x, get_pred s u l ≠ .ok (some x) := by
  induction h with
  | init maxLevel min max nthreads =>
    intro u l x hcon
    simp only [get_pred, sq_init] at hcon
    by_cases hu : u < nthreads
    · rw [List.getElem?_eq_getElem (by simpa using hu)] at hcon
      simp only [List.getElem_replicate] at hcon
      by_cases hl : l < maxLevel
      · rw [List.getElem?_eq_getElem (by simpa using hl)] at hcon
        simp at hcon
      · rw [List.getElem?_eq_none (by simpa using hl)] at hcon
        cases hcon
    · rw [List.getElem?_eq_none (by simpa using hu)] at hcon
      cases hcon
  | @add s s1 fuel key val topLevel tid r hr hadd ih =>
    obtain ⟨es, hH, hs, hul⟩ := reach_heap hr
    obtain ⟨htid, _, _, _, _, sh1, _, _, hM, hN⟩ := sq_add_returns hH hs hul hadd
    intro u l x hcon
    by_cases hu : u = tid
    · rw [hu] at hcon
      by_cases hl : l < s.maxLevel
      · obtain ⟨s2, hc⟩ := sq_add_last hadd
        obtain ⟨m2, _, c2, _⟩ := clean_ptrs_loop_ok s2.maxLevel 0 s2 s1 tid hc
        have := (c2 l (Nat.zero_le _) (by rw [Nat.zero_add, ← m2, hM]; exact hl)).1
        rw [this] at hcon
        cases hcon
      · have hlt : tid < s1.thread_ws.length := by rw [sh1.1, hN]; exact htid
        have hlen := (sh1.2.2.1 _ (List.getElem_mem hlt)).1
        simp only [get_pred, List.getElem?_eq_getElem hlt] at hcon
        rw [List.getElem?_eq_none (by rw [hlen, hM]; omega)] at hcon
        cases hcon
    · rw [get_pred_congr (sq_add_other hadd u hu)] at hcon
      exact ih u l x hcon
  | @delmin s s1 fuel tid r hr hdel ih =>
    obtain ⟨es, hH, hs, hul⟩ := reach_heap hr
    have htid := sq_delmin_tid hH hs hdel
    intro u l x hcon
    cases es with
    | nil =>
      rw [sq_delmin_empty hH hs htid fuel] at hdel
      cases hdel
    | cons p rest =>
      cases fuel with
      | zero => simp [sq_delmin, delmin_loop] at hdel
      | succ f =>
        obtain ⟨s7, e7, _, _, _, _, w7, _⟩ := delmin_loop_spec f hH hs hul htid
        simp only [sq_delmin, e7, ok_bind] at hdel
        have hs1 : s1 = retire_node s7 p := ((Prod.mk.inj (Res.ok.inj hdel)).2).symm
        have hw : s1.thread_ws = s.thread_ws := by rw [hs1]; exact w7
        simp only [get_pred, hw] at hcon
        exact ih u l x (by simpa only [get_pred] using hcon)

end Prioq

namespace Prioq

/-! ## The second extraction strategy with `prev` at the head -/

/-- With `prev` at the pointer to the head and `highestLocked` at most the top level of the
first element `p`, and `pthread_spin_unlock` a plain store: `sq_alt_delmin` unlinks `p`
without the lock of the head, stores into the free lock of the head when `highestLocked` is
a level, and returns 1 with `p`, every lock free. -/
theorem alt_delmin_store_low {s : sq_t} {p : Nat} {rest : List Nat} {tid : Nat}
    (hH : Heap s (p :: rest)) (hs : Shape s) (hul : ∀ q, lockOf s.mem q = false)
    (htid : tid < s.nthreads) (f : Nat) {hl0 : Int} (hle : hl0 ≤ (topOf s.mem p : Int)) :
    ∃ s9, sq_alt_delmin_store (f + 3) s tid (some 0) hl0 = .ok ((1, some p), s9) ∧
      Deleted s.mem s9.mem p ∧ (∀ q, lockOf s9.mem q = false) := by
  have hlen := hH.len
  have hp := hH.elems p (by simp)
  have hp0 : p ≠ 0 := by omega
  have h0p : (0 : Nat) ≠ p := by omega
  obtain ⟨s6, _, hstore, sh6, hN6, hlen6, g6, _, lk6, c6, n6⟩ := alt_stale_steps hH hs hul htid f
  have hfree0 : lockOf s6.mem 0 = false := by
    by_contra hcon
    have : lockOf s6.mem 0 = true := by simpa using hcon
    exact h0p ((lk6 0).1 this)
  obtain ⟨s7, e7, a7, d7, l7⟩ := unlock_preds_store_low (s := s6) g6 (by omega) hfree0 hle
  obtain ⟨s8, e8, a8, d8, l8⟩ := unlock_store_spec (s := s7) (p := p)
    (by rw [d7.length, hlen6]; exact hp.2.1)
  have sh8 : Shape s8 := (a7.transA a8).shape sh6
  obtain ⟨s9, e9, q9, _, _⟩ := clean_ptrs_spec (s := s8) sh8
    (by rw [(a7.transA a8).2.2.2.1, hN6]; exact htid)
  have d68 : SameData s6.mem s8.mem := d7.transD d8
  refine ⟨retire_node s9 p, ?_, ?_, ?_⟩
  · rw [hstore hl0]
    simp only [e7, ok_bind, e8, e9]
  · show Deleted s.mem s9.mem p
    rw [q9.1]
    refine { len := ?_, other := ?_, del := ?_, nx := ?_ }
    · rw [d68.length, hlen6]
    · intro q hq
      rw [(d68 q).1, c6, if_neg hq]
    · rw [(d68 p).1, c6, if_pos rfl]
    · intro q l
      rw [(d68 q).2 l, n6]
  · intro q
    show lockOf s9.mem q = false
    rw [q9.1, l8]
    by_cases hqp : q = p
    · simp [hqp]
    · rw [if_neg hqp, l7]
      by_contra hcon
      have : lockOf s6.mem q = true := by simpa using hcon
      exact hqp ((lk6 q).1 this)

/-- With `prev` at the pointer to the head and `highestLocked` above the top level of the
first element `p`: after the unlinking, `unlock_preds` runs beyond the tower of `p` into a
slot of `preds` that is `NULL` or outside the array, a fault also when
`pthread_spin_unlock` is a plain store. -/
theorem alt_delmin_store_high {s : sq_t} {p : Nat} {rest : List Nat} {tid : Nat}
    (hH : Heap s (p :: rest)) (hs : Shape s) (hul : ∀ q, lockOf s.mem q = false)
    (htid : tid < s.nthreads) (f : Nat) {hl0 : Int} (hlt : (topOf s.mem p : Int) < hl0)
    (hnull : ∀ x, get_pred s tid (topOf s.mem p + 1) ≠ .ok (some x)) :
    sq_alt_delmin_store (f + 3) s tid (some 0) hl0 = .fault := by
  have hlen := hH.len
  obtain ⟨s6, _, hstore, _, _, hlen6, g6, gu6, _⟩ := alt_stale_steps hH hs hul htid f
  have := unlock_preds_store_high (s := s6) g6 (by omega)
    (fun x => by rw [gu6 _ (Nat.lt_succ_self _)]; exact hnull x) hlt
  rw [hstore hl0, this]
  rfl

/-- With `prev` at the pointer to the head and `highestLocked` a level, when unlocking a
free lock is a fault: `unlock_preds` unlocks the lock of the head, which was not taken. -/
theorem alt_delmin_fault {s : sq_t} {p : Nat} {rest : List Nat} {tid : Nat}
    (hH : Heap s (p :: rest)) (hs : Shape s) (hul : ∀ q, lockOf s.mem q = false)
    (htid : tid < s.nthreads) (f : Nat) {hl0 : Int} (hhl : 0 ≤ hl0) :
    sq_alt_delmin (f + 3) s tid (some 0) hl0 = .fault := by
  have hp := hH.elems p (by simp)
  have h0p : (0 : Nat) ≠ p := by omega
  obtain ⟨s6, hstrict, _, _, _, _, g6, _, lk6, _⟩ := alt_stale_steps hH hs hul htid f
  have hfree0 : lockOf s6.mem 0 = false := by
    by_contra hcon
    have : lockOf s6.mem 0 = true := by simpa using hcon
    exact h0p ((lk6 0).1 this)
  have hunl : unlock_preds s6 tid hl0 = .fault := by
    have hne : some 0 ≠ (none : Option Nat) := by simp
    obtain ⟨k, hk⟩ : ∃ k, (hl0 + 1).toNat = k + 1 := ⟨hl0.toNat, by omega⟩
    simp only [unlock_preds, hk, unlock_preds_loop, g6 0 (Nat.zero_le _), ok_bind, if_pos hne,
      unlock_free hfree0, fault_bind]
  rw [hstrict hl0, hunl]
  rfl

/-! ## The two extraction strategies -/

/-- C20. The locals `prev` and `highestLocked` of `sq_alt_delmin` are read before they are
assigned; `prev0` and `hl0` are the values they hold at entry. In every state reached from
`sq_init` by returning calls of `sq_add` and `sq_delmin` that holds at least one element
(its level-0 chain is `p :: rest`), for a thread in range, `sq_delmin` returns 1 with the
node `p`, and:
* when `prev0` is not the pointer to the head (as after `prev = NULL`, which `sq_add` does
  before the same loop), or `hl0` is at most the top level of `p`, `sq_alt_delmin` with
  `pthread_spin_unlock` as a plain store returns 1 with the same node and leaves the same
  next pointers at every level and the same `marked` and `fullyLinked` flags on every node;
  when `prev0` is not the pointer to the head this is so too when unlocking a free lock is
  a fault, because then the head is locked before it is unlocked;
* when `prev0` is the pointer to the head and `hl0` is above the top level of `p`, the
  strategies differ: `sq_alt_delmin` takes the head for locked already, keeps `hl0` as
  `highestLocked`, and `unlock_preds` runs beyond the tower of `p` to a slot of `preds`
  that `sq_search_preds` did not fill, which is `NULL` or outside the array: a fault,
  whether `pthread_spin_unlock` is a plain store or not. -/
theorem C20_alt_delmin_reads_unset_locals (s : sq_t) (tid p : Nat) (rest : List Nat)
    (prev0 : Option Nat) (hl0 : Int) (h : Reach s) (htid : tid < s.nthreads)
    (hne : chain s 0 = some (p :: rest)) (fuel : Nat) (hf : 3 ≤ fuel) :
    ∃ sA, sq_delmin fuel s tid = .ok ((1, p), sA) ∧
      (prev0 ≠ some s.head ∨ hl0 ≤ (topOf s.mem p : Int) →
        ∃ sB, sq_alt_delmin_store fuel s tid prev0 hl0 = .ok ((1, some p), sB) ∧
          ∀ q, markedOf sB.mem q = markedOf sA.mem q ∧ flOf sB.mem q = flOf sA.mem q ∧
            ∀ l, nxt sB.mem q l = nxt sA.mem q l) ∧
      (prev0 ≠ some s.head →
        ∃ sB, sq_alt_delmin fuel s tid prev0 hl0 = .ok ((1, some p), sB) ∧
          ∀ q, markedOf sB.mem q = markedOf sA.mem q ∧ flOf sB.mem q = flOf sA.mem q ∧
            ∀ l, nxt sB.mem q l = nxt sA.mem q l) ∧
      (prev0 = some s.head → (topOf s.mem p : Int) < hl0 →
        sq_alt_delmin_store fuel s tid prev0 hl0 = .fault ∧
        sq_alt_delmin fuel s tid prev0 hl0 = .fault) := by
  obtain ⟨es, hH, hs, hul⟩ := reach_heap h
  have hes := heap_elems_of_chain hH hne
  subst hes
  obtain ⟨f, hfe⟩ : ∃ f, fuel = f + 3 := ⟨fuel - 3, by omega⟩
  subst hfe
  obtain ⟨sA, eA, _, _, _, delA, _, _⟩ := sq_delmin_spec (f + 2) hH hs hul htid
  have hsame : ∀ sB : sq_t, Deleted s.mem sB.mem p →
      ∀ q, markedOf sB.mem q = markedOf sA.mem q ∧ flOf sB.mem q = flOf sA.mem q ∧
        ∀ l, nxt sB.mem q l = nxt sA.mem q l := by
    intro sB delB q
    have hag := delB.agree delA q
    have ho := obs_eq_of_core hag.1
    exact ⟨ho.2.2.2.1, ho.2.2.2.2.1, hag.2⟩
  rw [hH.head_eq]
  refine ⟨sA, eA, ?_, ?_, ?_⟩
  · intro hcase
    by_cases hprev : prev0 = some 0
    · rcases hcase with h1 | h1
      · exact absurd hprev h1
      · rw [hprev]
        obtain ⟨sB, eB, delB, _⟩ := alt_delmin_store_low hH hs hul htid f h1
        exact ⟨sB, eB, hsame sB delB⟩
    · obtain ⟨sB, _, eB, delB, _⟩ := alt_delmin_spec hH hs hul htid f hl0 hprev
      exact ⟨sB, eB, hsame sB delB⟩
  · intro hprev
    obtain ⟨sB, eB, _, delB, _⟩ := alt_delmin_spec hH hs hul htid f hl0 hprev
    exact ⟨sB, eB, hsame sB delB⟩
  · intro hprev hlt
    rw [hprev]
    refine ⟨alt_delmin_store_high hH hs hul htid f hlt ?_,
      alt_delmin_fault hH hs hul htid f (by omega)⟩
    exact fun x => reach_scratch_null h tid _ x

set_option maxRecDepth 100000 in
/-- C20 at the queue that holds the key 7 in a node of top level 1, for thread 0. With
`prev` at the pointer to the head and `highestLocked` at 2, `sq_alt_delmin` faults where
`sq_delmin` returns the node of key 7: `unlock_preds` reaches `preds[2]`, which is `NULL`.
With `prev` at the pointer to the head and `highestLocked` at 0, and with `prev = NULL` and
`highestLocked = -1`, the two strategies agree. -/
theorem C20_alt_delmin_reads_unset_locals_witness :
    Reach ex_q1 ∧ 0 < ex_q1.nthreads ∧ chain ex_q1 0 = some [2] ∧ topOf ex_q1.mem 2 = 1 ∧
      get_pred ex_q1 0 2 = .ok none ∧
      sq_alt_delmin_store 3 ex_q1 0 (some ex_q1.head) 2 = .fault ∧
      sq_alt_delmin 3 ex_q1 0 (some ex_q1.head) 2 = .fault ∧
      ∃ sA sB sC, sq_delmin 3 ex_q1 0 = .ok ((1, 2), sA) ∧
        sq_alt_delmin_store 3 ex_q1 0 (some ex_q1.head) 0 = .ok ((1, some 2), sB) ∧
        (∀ q, markedOf sB.mem q = markedOf sA.mem q ∧ flOf sB.mem q = flOf sA.mem q ∧
          ∀ l, nxt sB.mem q l = nxt sA.mem q l) ∧
        sq_alt_delmin 3 ex_q1 0 none (-1) = .ok ((1, some 2), sC) ∧
        (∀ q, markedOf sC.mem q = markedOf sA.mem q ∧ flOf sC.mem q = flOf sA.mem q ∧
          ∀ l, nxt sC.mem q l = nxt sA.mem q l) := by
  have hr := reachable_reach ex_q1_reachable
  obtain ⟨_, _, _, _, hfault⟩ := C20_alt_delmin_reads_unset_locals ex_q1 0 2 []
    (some ex_q1.head) 2 hr (by decide) ex_q1_chain 3 (le_refl _)
  obtain ⟨sA, eA, hlow, _, _⟩ := C20_alt_delmin_reads_unset_locals ex_q1 0 2 []
    (some ex_q1.head) 0 hr (by decide) ex_q1_chain 3 (le_refl _)
  obtain ⟨sA2, eA2, _, hinit, _⟩ := C20_alt_delmin_reads_unset_locals ex_q1 0 2 []
    none (-1) hr (by decide) ex_q1_chain 3 (le_refl _)
  obtain ⟨sB, eB, hB⟩ := hlow (Or.inr (by decide))
  obtain ⟨sC, eC, hC⟩ := hinit (by decide)
  have hAA : sA2 = sA := by
    rw [eA] at eA2
    exact ((Prod.mk.inj (Res.ok.inj eA2)).2).symm
  rw [hAA] at hC
  have hf := hfault rfl (by decide)
  exact ⟨hr, by decide, ex_q1_chain, by decide, by decide, hf.1, hf.2, sA, sB, sC, eA, eB, hB,
    eC, hC⟩

end Prioq
